import Mathlib

/-!
Verification of the CasADi scalar-expression (SX) compilation and
algorithmic-differentiation core, as implemented in
`symbolic/fx/sx_function_internal.cpp`, `symbolic/fx/x_function_internal.hpp`
and `symbolic/fx/fx_internal.cpp`.

The development shallowly embeds:

* the linearized algorithm (`AlgEl`, mirroring the C++ `AlgEl` union as a
  structure with both integer operands and the constant payload),
* the depth-first topological sort `sort_depth_first`,
* the full `SXFunctionInternal::init` pipeline (node collection, algorithm
  construction with reference counting, live-variable slot allocation with a
  free-slot stack, input marking and free-variable detection),
* the numeric forward and adjoint derivative sweeps of
  `SXFunctionInternal::evaluateGen` (reals are modelled as exact rationals;
  the tape of local partial derivatives is an arbitrary function, since the
  sweeps only read it),
* the bit-vector sparsity propagation of `SXFunctionInternal::spEvaluate`
  (bit masks modelled as natural numbers under bitwise or),
* the seed compression of `FXInternal::evaluateCompressed`, and
* the adjoint-seed construction of `XFunctionInternal::jacGen`.
-/

namespace Casadi

/-- Operation code of an instruction in the linearized algorithm.  Mirrors
the operation codes used by the virtual machine: `OP_CONST`, `OP_INPUT`,
`OP_OUTPUT`, `OP_PARAMETER`, and the built-in unary and binary operations
(whose identity is irrelevant to the virtual machine, so they are carried as
an opaque numeric tag). -/
inductive AOp where
  | const : AOp
  | input : AOp
  | output : AOp
  | param : AOp
  | unop : Nat → AOp
  | binop : Nat → AOp
deriving DecidableEq, Repr

/-- Number of dependencies of an operation, `casadi_math<double>::ndeps`:
constants, parameters and input markers have none, output markers and unary
operations have one, binary operations have two. -/
def AOp.ndeps : AOp → Nat
  | .const => 0
  | .input => 0
  | .param => 0
  | .output => 1
  | .unop _ => 1
  | .binop _ => 2

/-- True for the unary/binary built-in operations (the `default` case of
the virtual-machine switches). -/
def AOp.isOpNode : AOp → Bool
  | .unop _ => true
  | .binop _ => true
  | _ => false

/-- One instruction of a linearized algorithm, mirroring the C++ `AlgEl`:
an operation, the two integer operands `arg.i[0]`, `arg.i[1]`, the result
field `res`, and the constant payload `arg.d` (a union with `arg.i` in the
source; kept as a separate field here). -/
structure AlgEl where
  op : AOp
  i0 : Nat := 0
  i1 : Nat := 0
  res : Nat := 0
  dval : ℚ := 0
deriving DecidableEq, Repr

/-- Placeholder instruction used for out-of-range list accesses. -/
def nilEl : AlgEl := { op := .param }

instance : Inhabited AlgEl := ⟨nilEl⟩

/-- Operand slot `c` of an instruction (`arg.i[c]`). -/
def AlgEl.argSlot (el : AlgEl) : Nat → Nat
  | 0 => el.i0
  | _ + 1 => el.i1

/-- Instruction `k` of an algorithm (with a placeholder out of range). -/
def instrAt (alg : List AlgEl) (k : Nat) : AlgEl := alg.getD k nilEl

/-- Some instruction strictly before `k` writes work slot `s`.  Output
markers write the caller's buffers, not the work vector, so they are not
writers. -/
def WritesBefore (alg : List AlgEl) (k s : Nat) : Prop :=
  ∃ j, j < k ∧ (instrAt alg j).op ≠ .output ∧ (instrAt alg j).res = s

instance (alg : List AlgEl) (k s : Nat) : Decidable (WritesBefore alg k s) := by
  unfold WritesBefore
  exact decidable_of_iff (∃ j < k, (instrAt alg j).op ≠ .output ∧ (instrAt alg j).res = s)
    (by constructor <;> (rintro ⟨j, h1, h2⟩; exact ⟨j, h1, h2⟩))

/-- Topological validity of an algorithm: every operand slot of every
instruction was produced (written to the work vector) by a strictly earlier
instruction. -/
def TopoValid (alg : List AlgEl) : Prop :=
  ∀ k, k < alg.length → ∀ c, c < (instrAt alg k).op.ndeps →
    WritesBefore alg k ((instrAt alg k).argSlot c)

instance (alg : List AlgEl) : Decidable (TopoValid alg) := by
  unfold TopoValid; infer_instance

/-- Invariant established at the end of `SXFunctionInternal::init` (the
"make sure that the second argument is the same as the first one" pass):
every single-dependency non-output instruction has `arg.i[1] == arg.i[0]`. -/
def UnaryFix (alg : List AlgEl) : Prop :=
  ∀ k, k < alg.length → (instrAt alg k).op.ndeps = 1 → (instrAt alg k).op ≠ .output →
    (instrAt alg k).i1 = (instrAt alg k).i0

instance (alg : List AlgEl) : Decidable (UnaryFix alg) := by
  unfold UnaryFix; infer_instance

/-- No parameter instruction remains in the algorithm.  Numeric evaluation
refuses to run when free variables exist (`casadi_error` in `evaluateGen`),
and every non-free parameter was rewritten to an input marker by `init`. -/
def NoParams (alg : List AlgEl) : Prop := ∀ el ∈ alg, el.op ≠ .param

instance (alg : List AlgEl) : Decidable (NoParams alg) := by
  unfold NoParams; infer_instance

/-! ### The numeric derivative sweeps of `SXFunctionInternal::evaluateGen`

The work vector is a total function from slot numbers to rationals; seed and
sensitivity bundles are total functions from (io index, nonzero index) pairs
to rationals.  The tape `pdwork_` of local partial derivatives is a function
from instruction positions to pairs of rationals: the C++ code advances an
iterator over `pdwork_` at exactly the non-marker instructions, in instruction
order forward and in reverse instruction order backward, so the pairing of
tape entries with instructions is the same in both sweeps and can be
represented by indexing the tape with the instruction position. -/

/-- One step of the forward derivative sweep (the loop body of the forward
sensitivity pass in `evaluateGen`): constants propagate a zero sensitivity,
input markers load the forward seed, output markers store the forward
sensitivity, and every other instruction computes
`d[0]*work[arg.i[0]] + d[1]*work[arg.i[1]]` from the tape. -/
def fwdStep (tape : Nat → ℚ × ℚ) (fseed : Nat × Nat → ℚ)
    (st : (Nat → ℚ) × (Nat × Nat → ℚ)) (ke : Nat × AlgEl) :
    (Nat → ℚ) × (Nat × Nat → ℚ) :=
  let w := st.1
  let sens := st.2
  let k := ke.1
  let el := ke.2
  match el.op with
  | .const => (Function.update w el.res 0, sens)
  | .input => (Function.update w el.res (fseed (el.i0, el.i1)), sens)
  | .output => (w, Function.update sens (el.res, el.i1) (w el.i0))
  | _ => (Function.update w el.res ((tape k).1 * w el.i0 + (tape k).2 * w el.i1), sens)

/-- One step of the adjoint derivative sweep (the loop body of the adjoint
sensitivity pass in `evaluateGen`, executed in reverse instruction order):
constants clear their slot, input markers drain the accumulator into the
adjoint sensitivity and clear it, output markers add the adjoint seed into
the operand's accumulator, and every other instruction takes its result's
accumulator as seed, clears it, then adds `d[c]*seed` to each operand's
accumulator. -/
def adjStep (tape : Nat → ℚ × ℚ) (aseed : Nat × Nat → ℚ)
    (ke : Nat × AlgEl) (st : (Nat → ℚ) × (Nat × Nat → ℚ)) :
    (Nat → ℚ) × (Nat × Nat → ℚ) :=
  let w := st.1
  let sens := st.2
  let k := ke.1
  let el := ke.2
  match el.op with
  | .const => (Function.update w el.res 0, sens)
  | .input => (Function.update w el.res 0, Function.update sens (el.i0, el.i1) (w el.res))
  | .output => (Function.update w el.i0 (w el.i0 + aseed (el.res, el.i1)), sens)
  | _ =>
      let seed := w el.res
      let w1 := Function.update w el.res 0
      let w2 := Function.update w1 el.i0 (w1 el.i0 + (tape k).1 * seed)
      let w3 := Function.update w2 el.i1 (w2 el.i1 + (tape k).2 * seed)
      (w3, sens)

/-- State of the numeric sweeps after the first `k` instructions of the
forward pass: processes instructions `0, ..., k-1` in order. -/
def fwdPrefix (alg : List AlgEl) (tape : Nat → ℚ × ℚ) (fseed : Nat × Nat → ℚ)
    (w0 : Nat → ℚ) (sens0 : Nat × Nat → ℚ) : Nat → (Nat → ℚ) × (Nat × Nat → ℚ)
  | 0 => (w0, sens0)
  | k + 1 =>
      if k < alg.length then
        fwdStep tape fseed (fwdPrefix alg tape fseed w0 sens0 k) (k, instrAt alg k)
      else fwdPrefix alg tape fseed w0 sens0 k

/-- Forward sweep over the whole algorithm, in instruction order, starting
from work vector `w0` and sensitivity buffer `sens0`. -/
def fwdSweep (alg : List AlgEl) (tape : Nat → ℚ × ℚ) (fseed : Nat × Nat → ℚ)
    (w0 : Nat → ℚ) (sens0 : Nat × Nat → ℚ) : (Nat → ℚ) × (Nat × Nat → ℚ) :=
  fwdPrefix alg tape fseed w0 sens0 alg.length

/-- Recursion core of the adjoint sweep: the first argument is the number
of instructions still to process (always `alg.length - k`, see
`adjSuffix`). -/
def adjSuffixGo (alg : List AlgEl) (tape : Nat → ℚ × ℚ) (aseed : Nat × Nat → ℚ)
    (w0 : Nat → ℚ) (sens0 : Nat × Nat → ℚ) : Nat → Nat → (Nat → ℚ) × (Nat × Nat → ℚ)
  | 0, _ => (w0, sens0)
  | gas + 1, k =>
      if k < alg.length then
        adjStep tape aseed (k, instrAt alg k)
          (adjSuffixGo alg tape aseed w0 sens0 gas (k + 1))
      else (w0, sens0)

/-- State of the adjoint sweep having processed instructions
`alg.length - 1` down to `k` (the adjoint pass runs in reverse instruction
order, so these are the first ones processed). -/
def adjSuffix (alg : List AlgEl) (tape : Nat → ℚ × ℚ) (aseed : Nat × Nat → ℚ)
    (w0 : Nat → ℚ) (sens0 : Nat × Nat → ℚ) (k : Nat) : (Nat → ℚ) × (Nat × Nat → ℚ) :=
  adjSuffixGo alg tape aseed w0 sens0 (alg.length - k) k

/-- Adjoint sweep over the whole algorithm, in reverse instruction order,
starting from accumulator vector `w0` and sensitivity buffer `sens0`. -/
def adjSweep (alg : List AlgEl) (tape : Nat → ℚ × ℚ) (aseed : Nat × Nat → ℚ)
    (w0 : Nat → ℚ) (sens0 : Nat × Nat → ℚ) : (Nat → ℚ) × (Nat × Nat → ℚ) :=
  adjSuffix alg tape aseed w0 sens0 0

/-- Adjoint sweeps for a list of seed directions sharing one accumulator
vector, as in the `for(int dir=0; dir<nadir; ++dir)` loop: each direction
runs a full reverse sweep on the work vector left by the previous direction
and collects its own sensitivity buffer (started from all zeros). -/
def adjSweepDirs (alg : List AlgEl) (tape : Nat → ℚ × ℚ)
    (aseeds : List (Nat × Nat → ℚ)) (w0 : Nat → ℚ) :
    (Nat → ℚ) × List (Nat × Nat → ℚ) :=
  aseeds.foldl
    (fun st aseed =>
      let r := adjSweep alg tape aseed st.1 (fun _ => 0)
      (r.1, st.2 ++ [r.2]))
    (w0, [])

/-- Bound on the work slots an algorithm addresses: result slots of
non-output instructions, the operand slot of output markers, and both
operand slots of unary/binary instructions are below `W`.  (An output
marker's `res` and `arg.i[1]` address the caller's buffers, not the work
vector.) -/
def SlotBound (alg : List AlgEl) (W : Nat) : Prop :=
  ∀ k, k < alg.length →
    ((instrAt alg k).op = .output → (instrAt alg k).i0 < W) ∧
    ((instrAt alg k).op ≠ .output → (instrAt alg k).res < W) ∧
    ((instrAt alg k).op.isOpNode = true → (instrAt alg k).i0 < W ∧ (instrAt alg k).i1 < W)

instance (alg : List AlgEl) (W : Nat) : Decidable (SlotBound alg W) := by
  unfold SlotBound; infer_instance

/-- Output-marker positions are distinct: no two output instructions write
the same (output index, nonzero) pair. -/
def OutPosNodup (alg : List AlgEl) : Prop :=
  ∀ j, j < alg.length → ∀ k, k < alg.length →
    ((instrAt alg j).op = .output ∧ (instrAt alg k).op = .output ∧
      (instrAt alg j).res = (instrAt alg k).res ∧ (instrAt alg j).i1 = (instrAt alg k).i1) →
    j = k

instance (alg : List AlgEl) : Decidable (OutPosNodup alg) := by
  unfold OutPosNodup; infer_instance

/-- Input-marker positions are distinct: no two input instructions load the
same (input index, nonzero) pair. -/
def InPosNodup (alg : List AlgEl) : Prop :=
  ∀ j, j < alg.length → ∀ k, k < alg.length →
    ((instrAt alg j).op = .input ∧ (instrAt alg k).op = .input ∧
      (instrAt alg j).i0 = (instrAt alg k).i0 ∧ (instrAt alg j).i1 = (instrAt alg k).i1) →
    j = k

instance (alg : List AlgEl) : Decidable (InPosNodup alg) := by
  unfold InPosNodup; infer_instance

/-- Inner product of an adjoint seed with a forward sensitivity buffer over
the output nonzeros addressed by the algorithm. -/
def innerOutput (alg : List AlgEl) (a f : Nat × Nat → ℚ) : ℚ :=
  ∑ j ∈ (Finset.range alg.length).filter (fun j => (instrAt alg j).op = .output),
    a ((instrAt alg j).res, (instrAt alg j).i1) * f ((instrAt alg j).res, (instrAt alg j).i1)

/-- Inner product of an adjoint sensitivity buffer with a forward seed over
the input nonzeros addressed by the algorithm. -/
def innerInput (alg : List AlgEl) (a f : Nat × Nat → ℚ) : ℚ :=
  ∑ j ∈ (Finset.range alg.length).filter (fun j => (instrAt alg j).op = .input),
    a ((instrAt alg j).i0, (instrAt alg j).i1) * f ((instrAt alg j).i0, (instrAt alg j).i1)

/-! ### The expression node pool

SX nodes are immutable and form a DAG; node identity is pointer identity in
the source and a pool index here.  Since nodes are created bottom-up and
never mutated, every node's dependencies are strictly older, which we
represent by requiring dependency indices to be strictly smaller. -/

/-- An expression node (`SXNode`): an operation (constant, symbol/parameter,
unary or binary built-in), its dependencies as pool indices, and the
constant payload. -/
structure PNode where
  op : AOp
  deps : List Nat := []
  dval : ℚ := 0
deriving DecidableEq, Repr

/-- Placeholder node used for out-of-range pool accesses. -/
def nilNode : PNode := { op := .param }

/-- Node `i` of the pool (with a placeholder out of range). -/
def nodeAt (pool : List PNode) (i : Nat) : PNode := pool.getD i nilNode

/-- The node's dependency count, `SXNode::ndep()`. -/
def ndepOf (pool : List PNode) (i : Nat) : Nat := (nodeAt pool i).deps.length

/-- True for the operations an expression node can carry (input and output
markers exist only in linearized algorithms). -/
def AOp.nodeOp : AOp → Bool
  | .input => false
  | .output => false
  | _ => true

/-- Well-formedness of a node pool: node operations are node operations, the
dependency list has the arity of the operation, and dependencies point to
strictly smaller indices (the DAG is built bottom-up). -/
def PoolWF (pool : List PNode) : Prop :=
  ∀ i, i < pool.length →
    (nodeAt pool i).op.nodeOp = true ∧
    (nodeAt pool i).deps.length = (nodeAt pool i).op.ndeps ∧
    ∀ d ∈ (nodeAt pool i).deps, d < i

instance (pool : List PNode) : Decidable (PoolWF pool) := by
  unfold PoolWF; infer_instance

/-! ### Depth-first topological sorting (`XFunctionInternal::sort_depth_first`)

The C++ routine runs an explicit stack machine over nodes whose scratch
field `temp` marks already-scheduled nodes.  At an unscheduled node it
selects, among the not-yet-scheduled dependencies, the one with the largest
(direct) dependency count — the first such on ties, since the comparison
`ndep_i > max_deps` is strict — pushes it, and re-examines the node after
that dependency's whole subtree has been scheduled; once no unscheduled
dependency remains the node itself is appended and marked.  We embed this as
a structural recursion on the node index: the stack discipline is exactly
"fully process the selected dependency, then re-examine the node", and the
re-examination loop at a node runs at most `ndep` times because each descent
marks the selected dependency, so a fuel counter starting at `ndep` suffices
(the fuel-exhaustion branch is unreachable, see `visit_marks`). -/

/-- One iteration of the loop over `t->ndep()` computing
`dep_with_max_deps`: a marked (already scheduled) dependency is skipped; an
unmarked one replaces the current candidate exactly when its direct
dependency count is strictly larger (so the first dependency wins ties). -/
def pickStep (pool : List PNode) (marks : List Bool) (acc : Option Nat) (d : Nat) :
    Option Nat :=
  if marks.getD d false then acc
  else
    match acc with
    | none => some d
    | some best => if ndepOf pool best < ndepOf pool d then some d else acc

/-- Selection of the not-yet-added dependency with the most dependencies
(the loop over `t->ndep()` computing `dep_with_max_deps`): the first
unmarked dependency with maximal `ndep` is returned. -/
def pickDep (pool : List PNode) (marks : List Bool) (i : Nat) : Option Nat :=
  (nodeAt pool i).deps.foldl (pickStep pool marks) none

/-- Depth-first scheduling of node `i` and its unscheduled descendants.
State: the mark vector (the `temp` field of each node) and the accumulated
node order (the `nodes` vector; `none` entries are the output separators
appended by `init`, never by the DFS itself).  The C++ stack machine is
"fully process the selected dependency, then re-examine the node"; the gas
counter only bounds the nesting and re-examination depth of that loop and
is chosen large enough at every call site that the out-of-gas branch is
unreachable (`visit_marks`): a well-formed pool has dependencies at
strictly smaller indices, so descending into a dependency needs less gas,
and each re-examination of a node finds one more dependency marked. -/
def visit (pool : List PNode) : Nat → Nat → List Bool × List (Option Nat) →
    List Bool × List (Option Nat)
  | 0, _, st => st
  | gas + 1, i, st =>
      if st.1.getD i false then st
      else
        match pickDep pool st.1 i with
        | some d => visit pool gas i (visit pool gas d st)
        | none => (st.1.set i true, st.2 ++ [some i])

/-- Gas sufficient to schedule any node of the pool (see `visit_marks`). -/
def dfsGas (pool : List PNode) : Nat := 2 * pool.length + 3

/-- Initial mark vector: all nodes unscheduled. -/
def initMarks (pool : List PNode) : List Bool := List.replicate pool.length false

/-- One per-output-nonzero step of node collection: run the depth-first
sort from the entry and append a `none` separator (the null pointer marking
an output instruction). -/
def dfsOutStep (pool : List PNode) (st : List Bool × List (Option Nat)) (nid : Nat) :
    List Bool × List (Option Nat) :=
  let st' := visit pool (dfsGas pool) nid st
  (st'.1, st'.2 ++ [none])

/-- One per-input-nonzero step of node collection: append the entry when
the walk never reached it, without marking it. -/
def inpStep (st : List Bool × List (Option Nat)) (nid : Nat) :
    List Bool × List (Option Nat) :=
  if st.1.getD nid false then st else (st.1, st.2 ++ [some nid])

/-- Phase one of `SXFunctionInternal::init`: for every output nonzero (in
declaration order, which is the order of the flattened output entry list),
run the depth-first sort from that entry and append a `none` separator;
then append every input entry that the walk never reached. -/
def buildNodes (pool : List PNode) (inputv outputv : List (List Nat)) :
    List Bool × List (Option Nat) :=
  inputv.flatten.foldl inpStep
    (outputv.flatten.foldl (dfsOutStep pool) (initMarks pool, []))

/-- Position of pool node `p` in the sorted node list (the value stored into
the node's `temp` field by the "set the temporary variables to be the
corresponding place in the sorted graph" loop; positions are unique because
the sorted list never repeats a node). -/
def tempIdx (nodes : List (Option Nat)) (p : Nat) : Nat := nodes.indexOf (some p)

/-! ### Algorithm construction (`SXFunctionInternal::init`, instruction loop) -/

/-- State of the instruction-building loop: the algorithm so far, the
per-node reference counts, the recorded parameter locations (`symb_loc`),
and the current output index and nonzero (`curr_oind`, `curr_nz`). -/
structure BuildSt where
  alg : List AlgEl
  refcount : List Int
  symb : List (Nat × Nat)
  oind : Nat
  nz : Nat
deriving Repr

/-- First output index at or after `start` with a nonempty output, or the
number of outputs (the skip-empty-outputs loops of `init`). -/
def firstNonempty (outputv : List (List Nat)) (start : Nat) : Nat :=
  start + (outputv.drop start).findIdx (fun m => !m.isEmpty)

/-- Increment the reference count of sorted-node `j`
(`refcount[ae.arg.i[c]]++`). -/
def bumpRef (rc : List Int) (j : Nat) : List Int := rc.set j (rc.getD j 0 + 1)

/-- Increment the reference count of each of the instruction's operands
(the `for(int c=0; c<ndeps; ++c)` loop). -/
def bumpRefs (rc : List Int) (ae : AlgEl) : List Int :=
  (List.range ae.op.ndeps).foldl (fun rc c => bumpRef rc (ae.argSlot c)) rc

/-- One iteration of the instruction-building loop over the sorted node
list: a `none` entry becomes an output instruction addressing the current
output nonzero, a constant or parameter node becomes the corresponding
instruction, and any other node becomes a unary/binary instruction whose
operands are the `temp` positions of its dependencies.  For a unary node the
source reads `n->dep(1)` into `arg.i[1]`; that value is dead (it is neither
reference counted nor remapped, and is overwritten by the
`arg.i[1] = arg.i[0]` fixup at the end of the allocation pass), so the
embedding lets it default to the first dependency. -/
def buildStep (pool : List PNode) (nodes : List (Option Nat))
    (outputv : List (List Nat)) (st : BuildSt) (n : Option Nat) : BuildSt :=
  match n with
  | none =>
      let entry := (outputv.getD st.oind []).getD st.nz 0
      let ae : AlgEl := { op := .output, i0 := tempIdx nodes entry, i1 := st.nz, res := st.oind }
      let nz' := st.nz + 1
      let st' :=
        if (outputv.getD st.oind []).length ≤ nz' then
          { st with nz := 0, oind := firstNonempty outputv (st.oind + 1) }
        else { st with nz := nz' }
      { st' with alg := st.alg ++ [ae], refcount := bumpRefs st.refcount ae }
  | some p =>
      let nd := nodeAt pool p
      match nd.op with
      | .const =>
          { st with alg := st.alg ++ [{ op := .const, res := tempIdx nodes p, dval := nd.dval }] }
      | .param =>
          { st with alg := st.alg ++ [{ op := .param, res := tempIdx nodes p }],
                    symb := st.symb ++ [(st.alg.length, p)] }
      | op =>
          let d0 := nd.deps.getD 0 0
          let d1 := nd.deps.getD 1 d0
          let ae : AlgEl :=
            { op := op, i0 := tempIdx nodes d0, i1 := tempIdx nodes d1, res := tempIdx nodes p }
          { st with alg := st.alg ++ [ae], refcount := bumpRefs st.refcount ae }

/-- Initial state of the instruction-building loop. -/
def buildInit (nodes : List (Option Nat)) (outputv : List (List Nat)) : BuildSt :=
  { alg := [], refcount := List.replicate nodes.length 0, symb := [],
    oind := firstNonempty outputv 0, nz := 0 }

/-- Phase two of `init`: fold the instruction builder over the sorted node
list, starting at the first nonempty output. -/
def buildAlg (pool : List PNode) (nodes : List (Option Nat)) (outputv : List (List Nat)) :
    BuildSt :=
  nodes.foldl (buildStep pool nodes outputv) (buildInit nodes outputv)

/-! ### Work-slot allocation (`SXFunctionInternal::init`, allocation loop)

The allocation loop is instrumented with a ghost trace of free and
allocation events (the trace carries no information the loop uses; it only
records what happened, for the statements about reuse order).  The
free-slot stack additionally records, for each entry, the trace position of
the push; the slots, in order, are exactly the C++ `unused` stack. -/

/-- A slot event of the allocation pass: slot `slot` was freed while
processing instruction `instr` (its reference count reached zero), or slot
`slot` was assigned as result of instruction `instr` (`fresh` tells whether
it came from the counter rather than the free stack). -/
inductive AllocEv where
  | free (slot : Nat) (instr : Nat)
  | alloc (slot : Nat) (instr : Nat) (fresh : Bool)
deriving DecidableEq, Repr

/-- State of the allocation pass. -/
structure AllocSt where
  alg : List AlgEl
  refcount : List Int
  place : List Nat
  unused : List (Nat × Nat)
  worksize : Nat
  trace : List AllocEv
deriving Repr

/-- Consumption of one operand (`--refcount[ch_ind]`, pushing the operand's
slot when the count reaches zero). -/
def consumeOne (place : List Nat) (k : Nat) (el : AlgEl)
    (acc : List Int × List (Nat × Nat) × List AllocEv) (c : Nat) :
    List Int × List (Nat × Nat) × List AllocEv :=
  let rc := acc.1
  let unused := acc.2.1
  let trace := acc.2.2
  let ch := el.argSlot c
  let rc' := rc.set ch (rc.getD ch 0 - 1)
  if rc'.getD ch 0 = 0 then
    (rc', (place.getD ch 0, trace.length) :: unused,
      trace ++ [AllocEv.free (place.getD ch 0) k])
  else (rc', unused, trace)

/-- One iteration of the allocation loop: consume the operands in reverse
order (so that the first argument ends on top of the free stack), then — for
non-output instructions — assign the result slot from the top of the free
stack when live variables are enabled and the stack is nonempty, otherwise a
fresh slot from the counter; finally rewrite the operand fields through
`place` and, for single-dependency non-output instructions, set
`arg.i[1] = arg.i[0]`. -/
def allocStep (live : Bool) (st : AllocSt) (ke : Nat × AlgEl) : AllocSt :=
  let k := ke.1
  let el := ke.2
  let nd := el.op.ndeps
  let consumed := (List.range nd).reverse.foldl (consumeOne st.place k el)
    (st.refcount, st.unused, st.trace)
  let rc := consumed.1
  let unused := consumed.2.1
  let trace := consumed.2.2
  if el.op = .output then
    { alg := st.alg ++ [{ el with i0 := st.place.getD el.i0 0 }],
      refcount := rc, place := st.place, unused := unused,
      worksize := st.worksize, trace := trace }
  else
    let alloc :=
      match live, unused with
      | true, (s, _) :: rest => (s, rest, st.worksize, trace ++ [AllocEv.alloc s k false])
      | _, _ =>
          (st.worksize, unused, st.worksize + 1, trace ++ [AllocEv.alloc st.worksize k true])
    let s := alloc.1
    let place' := st.place.set el.res s
    let i0' := if 1 ≤ nd then place'.getD el.i0 0 else el.i0
    let i1' := if 2 ≤ nd then place'.getD el.i1 0 else el.i1
    { alg := st.alg ++ [{ el with i0 := i0', i1 := if nd = 1 then i0' else i1', res := s }],
      refcount := rc, place := place', unused := alloc.2.1,
      worksize := alloc.2.2.1, trace := alloc.2.2.2 }

/-- State of the allocation loop after its first `k` iterations. -/
def allocSteps (live : Bool) (alg : List AlgEl) (st0 : AllocSt) : Nat → AllocSt
  | 0 => st0
  | k + 1 =>
      if k < alg.length then
        allocStep live (allocSteps live alg st0 k) (k, instrAt alg k)
      else allocSteps live alg st0 k

/-- Phase three of `init`: run the allocation loop over the algorithm. -/
def allocPass (live : Bool) (bs : BuildSt) (nodesLen : Nat) : AllocSt :=
  allocSteps live bs.alg
    { alg := [], refcount := bs.refcount, place := List.replicate nodesLen 0,
      unused := [], worksize := 0, trace := [] }
    bs.alg.length

/-! ### Input marking and free variables (`SXFunctionInternal::init`, tail) -/

/-- After resetting the scratch fields, each parameter's algorithm position
plus one is stored in its scratch field (`it->second->temp = it->first+1`).
A value of zero means "not a recorded parameter". -/
def symbMark (symb : List (Nat × Nat)) : Nat → Nat :=
  symb.foldl (fun f pr => Function.update f pr.2 (pr.1 + 1)) (fun _ => 0)

/-- Enumeration of the declared input nonzeros: triples of input index,
nonzero index and entry node, in the order the marking loops visit them. -/
def inputPosList (inputv : List (List Nat)) : List (Nat × Nat × Nat) :=
  (inputv.enum.map (fun im => im.2.enum.map (fun ne => (im.1, ne.1, ne.2)))).flatten

/-- One step of the input-marking loops, for a single declared input
nonzero `(ind, nz, nid)`: when the entry node is a recorded parameter
(nonzero scratch field), rewrite that parameter instruction to an input
marker loading input `ind`, nonzero `nz` (the result slot is kept), and
clear the node's scratch field. -/
def markStep (st : List AlgEl × (Nat → Nat)) (t : Nat × Nat × Nat) :
    List AlgEl × (Nat → Nat) :=
  let ind := t.1
  let nz := t.2.1
  let nid := t.2.2
  let m := st.2 nid
  if 0 < m then
    (st.1.set (m - 1) { instrAt st.1 (m - 1) with op := .input, i0 := ind, i1 := nz },
      Function.update st.2 nid 0)
  else st

/-- The input-marking loops over every declared input nonzero. -/
def markInputs (inputv : List (List Nat)) (alg : List AlgEl) (mark : Nat → Nat) :
    List AlgEl × (Nat → Nat) :=
  (inputPosList inputv).foldl markStep (alg, mark)

/-- The free-variable scan: every recorded parameter whose scratch field was
not cleared by the input marking is a free variable, in `symb_loc` order. -/
def freeVarsOf (symb : List (Nat × Nat)) (mark : Nat → Nat) : List Nat :=
  (symb.filter (fun pr => mark pr.2 ≠ 0)).map (fun pr => pr.2)

/-- Result of `SXFunctionInternal::init`: the finished algorithm, the work
vector size, the free variables, the ghost allocation trace, and the sorted
node list (kept for the statements about the construction). -/
structure InitOut where
  alg : List AlgEl
  worksize : Nat
  freeVars : List Nat
  trace : List AllocEv
  nodes : List (Option Nat)
deriving Repr

/-- The full `SXFunctionInternal::init` pipeline (without the parts that do
not affect the algorithm: option handling, verbosity, JIT setup and the
numeric buffers). -/
def sxInit (pool : List PNode) (inputv outputv : List (List Nat)) (live : Bool) : InitOut :=
  let mn := buildNodes pool inputv outputv
  let nodes := mn.2
  let bs := buildAlg pool nodes outputv
  let ar := allocPass live bs nodes.length
  let mk := markInputs inputv ar.alg (symbMark bs.symb)
  { alg := mk.1, worksize := ar.worksize, freeVars := freeVarsOf bs.symb mk.2,
    trace := ar.trace, nodes := nodes }

/-- Well-formedness of the declared inputs, mirroring the checks performed
before linearization: every input entry is a parameter node of the pool
(`Xfunction input arguments must be purely symbolic`), and no node appears
twice (`The input expressions are not independent`). -/
def InputsWF (pool : List PNode) (inputv : List (List Nat)) : Prop :=
  (∀ nid ∈ inputv.flatten, nid < pool.length ∧ (nodeAt pool nid).op = .param) ∧
    inputv.flatten.Nodup

instance (pool : List PNode) (inputv : List (List Nat)) : Decidable (InputsWF pool inputv) := by
  unfold InputsWF; infer_instance

/-- Well-formedness of the declared outputs: every entry is a pool node. -/
def OutputsWF (pool : List PNode) (outputv : List (List Nat)) : Prop :=
  ∀ nid ∈ outputv.flatten, nid < pool.length

instance (pool : List PNode) (outputv : List (List Nat)) : Decidable (OutputsWF pool outputv) := by
  unfold OutputsWF; infer_instance

/-! ### Bit-vector sparsity propagation (`SXFunctionInternal::spEvaluate`)

The work array is reinterpreted as bit masks (`bvec_t`); we model a mask as
a natural number and propagation uses bitwise or.  No numeric arithmetic
appears anywhere in this sweep: the domain is masks only. -/

/-- One step of forward sparsity propagation: constants and parameters get
the all-zero mask, input markers load the input mask, output markers store
the mask, and any other instruction ors its operands' masks. -/
def spFwdStep (inp : Nat × Nat → Nat) (st : (Nat → Nat) × (Nat × Nat → Nat))
    (el : AlgEl) : (Nat → Nat) × (Nat × Nat → Nat) :=
  let w := st.1
  let out := st.2
  match el.op with
  | .const => (Function.update w el.res 0, out)
  | .param => (Function.update w el.res 0, out)
  | .input => (Function.update w el.res (inp (el.i0, el.i1)), out)
  | .output => (w, Function.update out (el.res, el.i1) (w el.i0))
  | _ => (Function.update w el.res (w el.i0 ||| w el.i1), out)

/-- One step of backward sparsity propagation (run in reverse instruction
order): constants and parameters clear their slot, input markers store the
slot's mask into the input buffer and clear the slot, output markers or the
output mask into the operand's slot, and any other instruction takes its
result mask as seed, clears the result slot, then ors the seed into each
operand's slot. -/
def spBwdStep (out : Nat × Nat → Nat) (el : AlgEl)
    (st : (Nat → Nat) × (Nat × Nat → Nat)) : (Nat → Nat) × (Nat × Nat → Nat) :=
  let w := st.1
  let inp := st.2
  match el.op with
  | .const => (Function.update w el.res 0, inp)
  | .param => (Function.update w el.res 0, inp)
  | .input => (Function.update w el.res 0, Function.update inp (el.i0, el.i1) (w el.res))
  | .output => (Function.update w el.i0 (w el.i0 ||| out (el.res, el.i1)), inp)
  | _ =>
      let seed := w el.res
      let w1 := Function.update w el.res 0
      let w2 := Function.update w1 el.i0 (w1 el.i0 ||| seed)
      let w3 := Function.update w2 el.i1 (w2 el.i1 ||| seed)
      (w3, inp)

/-- State of forward sparsity propagation after the first `k`
instructions. -/
def spFwdPrefix (alg : List AlgEl) (inp : Nat × Nat → Nat) (w0 : Nat → Nat)
    (out0 : Nat × Nat → Nat) : Nat → (Nat → Nat) × (Nat × Nat → Nat)
  | 0 => (w0, out0)
  | k + 1 =>
      if k < alg.length then
        spFwdStep inp (spFwdPrefix alg inp w0 out0 k) (instrAt alg k)
      else spFwdPrefix alg inp w0 out0 k

/-- Forward sparsity sweep over the whole algorithm. -/
def spFwdSweep (alg : List AlgEl) (inp : Nat × Nat → Nat) (w0 : Nat → Nat)
    (out0 : Nat × Nat → Nat) : (Nat → Nat) × (Nat × Nat → Nat) :=
  spFwdPrefix alg inp w0 out0 alg.length

/-- Recursion core of backward sparsity propagation (the first argument is
the number of instructions still to process, always `alg.length - k`). -/
def spBwdSuffixGo (alg : List AlgEl) (out : Nat × Nat → Nat) (w0 : Nat → Nat)
    (inp0 : Nat × Nat → Nat) : Nat → Nat → (Nat → Nat) × (Nat × Nat → Nat)
  | 0, _ => (w0, inp0)
  | gas + 1, k =>
      if k < alg.length then
        spBwdStep out (instrAt alg k) (spBwdSuffixGo alg out w0 inp0 gas (k + 1))
      else (w0, inp0)

/-- State of backward sparsity propagation having processed instructions
`alg.length - 1` down to `k` (backward propagation runs in reverse
instruction order). -/
def spBwdSuffix (alg : List AlgEl) (out : Nat × Nat → Nat) (w0 : Nat → Nat)
    (inp0 : Nat × Nat → Nat) (k : Nat) : (Nat → Nat) × (Nat × Nat → Nat) :=
  spBwdSuffixGo alg out w0 inp0 (alg.length - k) k

/-- Backward sparsity sweep over the whole algorithm (reverse order). -/
def spBwdSweep (alg : List AlgEl) (out : Nat × Nat → Nat) (w0 : Nat → Nat)
    (inp0 : Nat × Nat → Nat) : (Nat → Nat) × (Nat × Nat → Nat) :=
  spBwdSuffix alg out w0 inp0 0

/-- Specification-side reading of the backward rule under which the result
slot is guaranteed cleared once the instruction has been processed ("each
operand's bit-vector accumulates the seed of the instruction's result, the
result's bit-vector then being cleared"). -/
def BwdClearsResult (alg : List AlgEl) (out : Nat × Nat → Nat) (w0 : Nat → Nat)
    (inp0 : Nat × Nat → Nat) : Prop :=
  ∀ k, k < alg.length → 1 ≤ (instrAt alg k).op.ndeps → (instrAt alg k).op ≠ .output →
    (spBwdSuffix alg out w0 inp0 k).1 (instrAt alg k).res = 0

instance (alg : List AlgEl) (out : Nat × Nat → Nat) (w0 : Nat → Nat)
    (inp0 : Nat × Nat → Nat) : Decidable (BwdClearsResult alg out w0 inp0) := by
  unfold BwdClearsResult; infer_instance

/-! ### Seed compression (`FXInternal::evaluateCompressed`)

The per-direction seed and sensitivity bundles (the concatenated nonzeros of
all input, respectively output, matrices of one direction) are lists of
rationals; the buffers holding them are indexed by direction number.  The
underlying `evaluate` treats directions independently, which we represent by
a per-direction sensitivity map `F`.  The forward and the adjoint halves of
`evaluateCompressed` are textually identical up to swapping the input/output
roles, so they are embedded once. -/

/-- The all-zero bundle of a given length. -/
def zeroBundle (n : Nat) : List ℚ := List.replicate n 0

/-- Detection of an all-zero seed direction (the `Look out for nonzeros`
scan). -/
def isZeroBundle (v : List ℚ) : Bool := v.all (fun x => x = 0)

/-- One iteration of the compression loop at direction `dir`: record
whether the direction is all zero; if not, move it down to the next
compressed position (when different) and count it. -/
def compressStep (st : (Nat → List ℚ) × (Nat → Bool) × Nat) (dir : Nat) :
    (Nat → List ℚ) × (Nat → Bool) × Nat :=
  let seedB := st.1
  let flags := st.2.1
  let cnt := st.2.2
  let z := isZeroBundle (seedB dir)
  let flags' := Function.update flags dir z
  if z then (seedB, flags', cnt)
  else if dir ≠ cnt then (Function.update seedB cnt (seedB dir), flags', cnt + 1)
  else (seedB, flags', cnt + 1)

/-- The compression loop: scan the directions in order. -/
def compressLoop (nfdir : Nat) (st0 : (Nat → List ℚ) × (Nat → Bool) × Nat) :
    (Nat → List ℚ) × (Nat → Bool) × Nat :=
  (List.range nfdir).foldl compressStep st0

/-- The compressed evaluation: the underlying `evaluate` call computes the
sensitivity of each of the first `m` (compressed) directions from its seed
and leaves the remaining directions' buffers untouched. -/
def evalDirs (F : List ℚ → List ℚ) (m : Nat) (seedB sensB : Nat → List ℚ) :
    Nat → List ℚ :=
  fun d => if d < m then F (seedB d) else sensB d

/-- One iteration of the decompression loop at direction `dir`: a
compressed (all zero) direction's sensitivity is set to zero; otherwise the
counter is decremented and the sensitivity is copied up from the compressed
position when different. -/
def decompressStep (nOut : Nat) (flags : Nat → Bool)
    (st : (Nat → List ℚ) × Nat) (dir : Nat) : (Nat → List ℚ) × Nat :=
  let sensB := st.1
  let m := st.2
  if flags dir then (Function.update sensB dir (zeroBundle nOut), m)
  else
    let m' := m - 1
    if m' ≠ dir then (Function.update sensB dir (sensB m'), m') else (sensB, m')

/-- The decompression loop, in reverse direction order. -/
def decompressLoop (nOut nfdir : Nat) (flags : Nat → Bool)
    (st0 : (Nat → List ℚ) × Nat) : (Nat → List ℚ) × Nat :=
  (List.range nfdir).reverse.foldl (decompressStep nOut flags) st0

/-- The nonzero (uncompressible) directions among the first `n`, in order. -/
def nzDirs (seedB : Nat → List ℚ) (n : Nat) : List Nat :=
  (List.range n).filter (fun d => !(isZeroBundle (seedB d)))

/-- The full `evaluateCompressed` path for one bundle family: compress the
seed buffer, evaluate the compressed directions, decompress the
sensitivities. -/
def evaluateCompressed (F : List ℚ → List ℚ) (nOut nfdir : Nat)
    (seedB : Nat → List ℚ) (flags0 : Nat → Bool) (sensB0 : Nat → List ℚ) :
    Nat → List ℚ :=
  let c := compressLoop nfdir (seedB, flags0, 0)
  let sens1 := evalDirs F c.2.2 c.1 sensB0
  (decompressLoop nOut nfdir c.2.1 (sens1, c.2.2)).1

/-! ### Adjoint seed construction in `XFunctionInternal::jacGen` -/

/-- The adjoint-seed construction for one direction of the coloring
partition: for every element of the direction's row of `D2`, the seed
vector entry at that column is assigned one
(`aseed[dir][oind].at(c) = 1; // NOTE: should be +=, right?`). -/
def buildAdjSeedDir (row : List Nat) (seed0 : Nat → ℚ) : Nat → ℚ :=
  row.foldl (fun seed c => Function.update seed c 1) seed0

/-- Modelled from the spec: the accumulation variant the specification
prescribes for the adjoint-seed construction (each seeded entry is added
into the seed vector, so seeding the same output nonzero twice in one
direction keeps both contributions). -/
def buildAdjSeedDirSpec (row : List Nat) (seed0 : Nat → ℚ) : Nat → ℚ :=
  row.foldl (fun seed c => Function.update seed c (seed c + 1)) seed0

/-! ### Reachability and the free-variable evaluation guard -/

/-- Reachability in the node pool: `Reach pool r p` holds when `p` is `r` or
a (transitive) dependency of `r`. -/
inductive Reach (pool : List PNode) : Nat → Nat → Prop where
  | refl (i : Nat) : Reach pool i i
  | step {i j d : Nat} : Reach pool i j → d ∈ (nodeAt pool j).deps → Reach pool i d

/-- Node `p` is reachable from some declared output entry. -/
def ReachesOutput (pool : List PNode) (outputv : List (List Nat)) (p : Nat) : Prop :=
  ∃ r ∈ outputv.flatten, Reach pool r p

/-- The guard at the top of `SXFunctionInternal::evaluateGen`: when the
function has free variables, numeric evaluation fails with an error naming
them, before any instruction executes; otherwise the derivative sweeps run.
(The value pass itself contributes nothing the claims need beyond the tape,
which enters as a parameter.) -/
def evaluateGenChecked (R : InitOut) (tape : Nat → ℚ × ℚ)
    (fseeds aseeds : List (Nat × Nat → ℚ)) :
    Except (List Nat)
      (List ((Nat → ℚ) × (Nat × Nat → ℚ)) × ((Nat → ℚ) × List (Nat × Nat → ℚ))) :=
  if R.freeVars ≠ [] then .error R.freeVars
  else
    .ok (fseeds.map (fun fs => fwdSweep R.alg tape fs (fun _ => 0) (fun _ => 0)),
      adjSweepDirs R.alg tape aseeds (fun _ => 0))

/-! ### Specification-side selection rule for the depth-first descent -/

/-- Transitive dependencies of node `i` (the node itself excluded), used
only to state the specification's selection rule "descend into the operand
with the most transitive dependencies".  The gas argument (always at least
`i + 1`, dependencies having smaller indices) makes the recursion
structural. -/
def transClosureGo (pool : List PNode) : Nat → Nat → List Nat
  | 0, _ => []
  | gas + 1, i =>
      (((nodeAt pool i).deps.map
        (fun d => if d < i then transClosureGo pool gas d ++ [d] else [d])).flatten).dedup

/-- Transitive dependencies of node `i`. -/
def transClosure (pool : List PNode) (i : Nat) : List Nat :=
  transClosureGo pool (i + 1) i

/-- Number of transitive dependencies of node `i`. -/
def transDepCount (pool : List PNode) (i : Nat) : Nat := (transClosure pool i).length

/-- Specification-side variant of `pickDep` choosing the not-yet-scheduled
dependency with the most transitive dependencies. -/
def pickDepTransitive (pool : List PNode) (marks : List Bool) (i : Nat) : Option Nat :=
  (nodeAt pool i).deps.foldl
    (fun acc d =>
      if marks.getD d false then acc
      else
        match acc with
        | none => some d
        | some best =>
            if transDepCount pool best < transDepCount pool d then some d else acc)
    none

/-- Example pool distinguishing the two selection rules: node 7 depends on
node 3 (one direct dependency, three transitive dependencies: 0, 1, 2) and
on node 6 (two direct dependencies, which are also its only transitive
dependencies: 4, 5). -/
def poolC6 : List PNode :=
  [{ op := .param }, { op := .param }, { op := .binop 0, deps := [0, 1] },
   { op := .unop 0, deps := [2] }, { op := .param }, { op := .param },
   { op := .binop 0, deps := [4, 5] }, { op := .binop 0, deps := [3, 6] }]

/-! ### Trace predicates for the slot-allocation discipline -/

/-- Slot of an allocation-trace event. -/
def AllocEv.slot : AllocEv → Nat
  | .free s _ => s
  | .alloc s _ _ => s

/-- Instruction index of an allocation-trace event. -/
def AllocEv.instr : AllocEv → Nat
  | .free _ k => k
  | .alloc _ k _ => k

/-- Whether an event is a free. -/
def AllocEv.isFree : AllocEv → Bool
  | .free _ _ => true
  | _ => false

/-- Whether an event is an allocation (fresh or reusing). -/
def AllocEv.isAlloc : AllocEv → Bool
  | .alloc _ _ _ => true
  | _ => false

/-- Whether an event is a reusing allocation (taken from the free stack). -/
def AllocEv.isReuse : AllocEv → Bool
  | .alloc _ _ false => true
  | _ => false

/-- Whether an event is a fresh allocation (taken from the counter). -/
def AllocEv.isFresh : AllocEv → Bool
  | .alloc _ _ true => true
  | _ => false

/-- Event at position `q` of a trace (placeholder out of range). -/
def evAt (tr : List AllocEv) (q : Nat) : AllocEv := tr.getD q (.free 0 0)

/-- No reallocation of slot `s` at a trace position strictly between `j`
and `i`. -/
def NoRealloc (tr : List AllocEv) (s j i : Nat) : Prop :=
  ∀ q, q < i → j < q → ¬((evAt tr q).isAlloc = true ∧ (evAt tr q).slot = s)

instance (tr : List AllocEv) (s j i : Nat) : Decidable (NoRealloc tr s j i) := by
  unfold NoRealloc; infer_instance

/-- The free event at position `j'` is matched: its slot is reallocated at
some position strictly between `j'` and `i`. -/
def MatchedBefore (tr : List AllocEv) (j' i : Nat) : Prop :=
  ∃ q, q < i ∧ j' < q ∧ (evAt tr q).isAlloc = true ∧
    (evAt tr q).slot = (evAt tr j').slot

instance (tr : List AllocEv) (j' i : Nat) : Decidable (MatchedBefore tr j' i) := by
  unfold MatchedBefore; infer_instance

/-- Position `j` carries the pending free that the reusing allocation at
position `i` takes: a free of the same slot, not reallocated in between. -/
def PendingFreeFor (tr : List AllocEv) (j i : Nat) : Prop :=
  (evAt tr j).isFree = true ∧ (evAt tr j).slot = (evAt tr i).slot ∧
    NoRealloc tr ((evAt tr i).slot) j i

instance (tr : List AllocEv) (j i : Nat) : Decidable (PendingFreeFor tr j i) := by
  unfold PendingFreeFor; infer_instance

/-- Claim-side reading of the reuse discipline under which a freed slot is
reused by strictly later instructions only: every reusing allocation takes a
slot freed (and not since reallocated) at a strictly earlier instruction. -/
def ReuseStrictlyLater (tr : List AllocEv) : Prop :=
  ∀ i, i < tr.length → (evAt tr i).isReuse = true →
    ∃ j, j < i ∧ PendingFreeFor tr j i ∧ (evAt tr j).instr < (evAt tr i).instr

instance (tr : List AllocEv) : Decidable (ReuseStrictlyLater tr) := by
  unfold ReuseStrictlyLater; infer_instance

/-- Last-freed-first-reused (stack) discipline, allowing reuse by the same
instruction whose operand consumption freed the slot: every reusing
allocation takes a slot with a pending free (no reallocation in between)
from an instruction no later than the reuser, and every slot freed more
recently than that pending free has already been reallocated. -/
def LIFOWitness (tr : List AllocEv) (j i : Nat) : Prop :=
  PendingFreeFor tr j i ∧ (evAt tr j).instr ≤ (evAt tr i).instr ∧
    ∀ j', j' < i → j < j' → (evAt tr j').isFree = true → MatchedBefore tr j' i

instance (tr : List AllocEv) (j i : Nat) : Decidable (LIFOWitness tr j i) := by
  unfold LIFOWitness; infer_instance

/-- The head of the discipline: every reusing allocation has a LIFO
witness. -/
def ReuseLIFO (tr : List AllocEv) : Prop :=
  ∀ i, i < tr.length → (evAt tr i).isReuse = true → ∃ j, j < i ∧ LIFOWitness tr j i

instance (tr : List AllocEv) : Decidable (ReuseLIFO tr) := by
  unfold ReuseLIFO; infer_instance

/-- A fresh allocation happens only when no free is pending: every free
before a fresh allocation has been matched by a reallocation in between. -/
def FreshOnlyWhenEmpty (tr : List AllocEv) : Prop :=
  ∀ i, i < tr.length → (evAt tr i).isFresh = true →
    ∀ j, j < i → (evAt tr j).isFree = true → MatchedBefore tr j i

instance (tr : List AllocEv) : Decidable (FreshOnlyWhenEmpty tr) := by
  unfold FreshOnlyWhenEmpty; infer_instance

/-- A fresh allocation's slot never appeared in any earlier event. -/
def FreshAllocsNew (tr : List AllocEv) : Prop :=
  ∀ i, i < tr.length → (evAt tr i).isFresh = true →
    ∀ j, j < i → (evAt tr j).slot ≠ (evAt tr i).slot

instance (tr : List AllocEv) : Decidable (FreshAllocsNew tr) := by
  unfold FreshAllocsNew; infer_instance

/-- Every allocation is fresh (no reuse ever occurs). -/
def NoReuseEver (tr : List AllocEv) : Prop :=
  ∀ i, i < tr.length → (evAt tr i).isReuse = false

instance (tr : List AllocEv) : Decidable (NoReuseEver tr) := by
  unfold NoReuseEver; infer_instance

/-- Every allocation takes the next slot from the counter: the `i`-th
allocation event carries slot `i` (counting allocation events). -/
def FreshSeq (tr : List AllocEv) : Prop :=
  ∀ i, i < tr.length → (evAt tr i).isAlloc = true →
    (evAt tr i).slot = ((tr.take i).filter AllocEv.isAlloc).length

instance (tr : List AllocEv) : Decidable (FreshSeq tr) := by
  unfold FreshSeq; infer_instance

/-- Number of uses of sorted-node `j` as an operand of instruction `el`
(an operand appearing twice counts twice, mirroring the two reference-count
decrements). -/
def usesInEl (el : AlgEl) (j : Nat) : Nat :=
  ((List.range el.op.ndeps).filter (fun c => el.argSlot c = j)).length

/-- Number of uses of sorted-node `j` as an operand of instructions `k` and
later of the (pre-allocation) algorithm. -/
def usesFrom (alg : List AlgEl) (j k : Nat) : Nat :=
  ((alg.drop k).map (fun el => usesInEl el j)).sum

/-! ### Positions of output separators and output nonzeros -/

/-- Positions of the `none` separators in the sorted node list. -/
def noneIdxs (nodes : List (Option Nat)) : List Nat :=
  nodes.enum.filterMap (fun x => if x.2 = none then some x.1 else none)

/-- Enumeration of the output nonzero positions from output `oind`, nonzero
`nz` on: triples of output index, nonzero index and entry node (the gas
argument is always `outputv.length - oind`). -/
def outPosGo (outputv : List (List Nat)) : Nat → Nat → Nat → List (Nat × Nat × Nat)
  | 0, _, _ => []
  | gas + 1, oind, nz =>
      if oind < outputv.length then
        ((outputv.getD oind []).enum.drop nz).map (fun p => (oind, p.1, p.2)) ++
          outPosGo outputv gas (oind + 1) 0
      else []

/-- Enumeration of the output nonzero positions from `(oind, nz)` on. -/
def outPosFrom (outputv : List (List Nat)) (oind nz : Nat) : List (Nat × Nat × Nat) :=
  outPosGo outputv (outputv.length - oind) oind nz

/-- Enumeration of all output nonzero positions. -/
def outPosAll (outputv : List (List Nat)) : List (Nat × Nat × Nat) :=
  outPosFrom outputv 0 0

/-! ### Auxiliary sums for the forward/adjoint duality statement -/

/-- Partial sum, over the instructions from `k` on, of the adjoint
sensitivity recorded at each input marker times the forward seed at the
same input nonzero (the adjoint sweep records, at an input marker, the
accumulator value found when the marker is processed, which is the state
`adjSuffix (k+1)` of the reverse sweep).  The gas argument is always
`alg.length - k`. -/
def adjInSumGo (alg : List AlgEl) (tape : Nat → ℚ × ℚ) (aseed sens0 fseed : Nat × Nat → ℚ) :
    Nat → Nat → ℚ
  | 0, _ => 0
  | gas + 1, k =>
      if k < alg.length then
        (if (instrAt alg k).op = .input then
          (adjSuffix alg tape aseed (fun _ => 0) sens0 (k + 1)).1 (instrAt alg k).res *
            fseed ((instrAt alg k).i0, (instrAt alg k).i1)
        else 0) + adjInSumGo alg tape aseed sens0 fseed gas (k + 1)
      else 0

/-- Partial adjoint-input sum from instruction `k` on. -/
def adjInSumFrom (alg : List AlgEl) (tape : Nat → ℚ × ℚ)
    (aseed sens0 fseed : Nat × Nat → ℚ) (k : Nat) : ℚ :=
  adjInSumGo alg tape aseed sens0 fseed (alg.length - k) k

/-- Partial sum, over the instructions from `k` on, of the adjoint seed at
each output marker times the forward sensitivity the forward sweep stores
there (the operand-slot value of the forward state `fwdPrefix k` when the
marker executes).  The gas argument is always `alg.length - k`. -/
def outSumGo (alg : List AlgEl) (tape : Nat → ℚ × ℚ) (fseed : Nat × Nat → ℚ)
    (w0f : Nat → ℚ) (sens0f aseed : Nat × Nat → ℚ) : Nat → Nat → ℚ
  | 0, _ => 0
  | gas + 1, k =>
      if k < alg.length then
        (if (instrAt alg k).op = .output then
          aseed ((instrAt alg k).res, (instrAt alg k).i1) *
            (fwdPrefix alg tape fseed w0f sens0f k).1 (instrAt alg k).i0
        else 0) + outSumGo alg tape fseed w0f sens0f aseed gas (k + 1)
      else 0

/-- Partial output sum from instruction `k` on. -/
def outSumFrom (alg : List AlgEl) (tape : Nat → ℚ × ℚ) (fseed : Nat × Nat → ℚ)
    (w0f : Nat → ℚ) (sens0f aseed : Nat × Nat → ℚ) (k : Nat) : ℚ :=
  outSumGo alg tape fseed w0f sens0f aseed (alg.length - k) k

/-! ### Concrete witness data -/

/-- The linearized algorithm of `f(x, y) = x*y + sin(x)` with live
variables, used by the witnesses: two input loads, a multiplication into
the second slot, a sine in place of the first slot, an addition into the
second slot, one output store. -/
def algW : List AlgEl :=
  [{ op := .input, i0 := 0, i1 := 0, res := 0 },
   { op := .input, i0 := 1, i1 := 0, res := 1 },
   { op := .binop 1, i0 := 0, i1 := 1, res := 1 },
   { op := .unop 2, i0 := 0, i1 := 0, res := 0 },
   { op := .binop 0, i0 := 1, i1 := 0, res := 1 },
   { op := .output, i0 := 1, i1 := 0, res := 0 }]

/-! ### Invariants of the node-collection and construction phases -/

/-- Number of `none` separators in (a prefix of) the sorted node list. -/
def noneCount (l : List (Option Nat)) : Nat := (l.filter (fun o => o.isNone)).length

/-- The `some` entries of the sorted node list are pairwise distinct: a pool
node is scheduled at most once. -/
def SomesNodup (nodes : List (Option Nat)) : Prop :=
  ∀ t1 t2 p, nodes.getD t1 none = some p → nodes.getD t2 none = some p → t1 = t2

/-- Every scheduled node's dependencies are scheduled strictly earlier. -/
def DepsBefore (pool : List PNode) (nodes : List (Option Nat)) : Prop :=
  ∀ t p, nodes.getD t none = some p → ∀ d ∈ (nodeAt pool p).deps,
    ∃ t', t' < t ∧ nodes.getD t' none = some d

/-- Every scheduled node is a pool node. -/
def EntriesLt (pool : List PNode) (nodes : List (Option Nat)) : Prop :=
  ∀ t p, nodes.getD t none = some p → p < pool.length

/-- Every `none` separator is preceded by an occurrence of the output
nonzero entry it stands for (the separators stand for the flattened output
entries, in order). -/
def SepOK (nodes : List (Option Nat)) (flat : List Nat) : Prop :=
  ∀ k, k < nodes.length → nodes.getD k none = none →
    ∃ t, t < k ∧ nodes.getD t none = some (flat.getD (noneCount (nodes.take k)) 0)

/-- Invariant of the depth-first scheduling state: the mark vector covers
the pool, marked nodes are exactly the scheduled ones, scheduled nodes are
pool nodes with their dependencies scheduled earlier, and no node is
scheduled twice. -/
def DfsInv (pool : List PNode) (st : List Bool × List (Option Nat)) : Prop :=
  st.1.length = pool.length ∧
  (∀ p, st.1.getD p false = true → ∃ t, t < st.2.length ∧ st.2.getD t none = some p) ∧
  (∀ t p, st.2.getD t none = some p →
    st.1.getD p false = true ∧ p < pool.length ∧
      ∀ d ∈ (nodeAt pool p).deps, ∃ t', t' < t ∧ st.2.getD t' none = some d) ∧
  SomesNodup st.2

/-- Number of unmarked nodes with index at most `i` (the termination
measure of the depth-first walk). -/
def unmarkedCount (marks : List Bool) (i : Nat) : Nat :=
  ((Finset.range (i + 1)).filter (fun p => marks.getD p false = false)).card

/-- The marked set is closed under dependencies (a node is marked only once
all its dependencies are). -/
def DepClosedMarks (pool : List PNode) (marks : List Bool) : Prop :=
  ∀ p, marks.getD p false = true → ∀ d ∈ (nodeAt pool p).deps, marks.getD d false = true

/-- The instruction the building loop emits for scheduled node `p` (the
`some` branch of `buildStep`). -/
def buildEl (pool : List PNode) (nodes : List (Option Nat)) (p : Nat) : AlgEl :=
  let nd := nodeAt pool p
  match nd.op with
  | .const => { op := .const, res := tempIdx nodes p, dval := nd.dval }
  | .param => { op := .param, res := tempIdx nodes p }
  | op =>
      let d0 := nd.deps.getD 0 0
      let d1 := nd.deps.getD 1 d0
      { op := op, i0 := tempIdx nodes d0, i1 := tempIdx nodes d1, res := tempIdx nodes p }

/-- Advance of the output counter past one nonzero: the next nonzero of the
same output, or the first nonzero of the next nonempty output. -/
def outAdvance (outputv : List (List Nat)) (oind nz : Nat) : Nat × Nat :=
  if (outputv.getD oind []).length ≤ nz + 1 then (firstNonempty outputv (oind + 1), 0)
  else (oind, nz + 1)

/-- Invariant of the output counter after `m` separators: the remaining
output nonzero positions are the enumeration's drop, and while positions
remain the counter addresses a real nonzero of a real output. -/
def CounterInv (outputv : List (List Nat)) (oind nz m : Nat) : Prop :=
  outPosFrom outputv oind nz = (outPosAll outputv).drop m ∧
    (m < (outPosAll outputv).length →
      oind < outputv.length ∧ nz < (outputv.getD oind []).length)

/-- The parameter locations recorded while building instructions for a node
list: one entry per scheduled parameter node, carrying its position. -/
def symbOf (pool : List PNode) (l : List (Option Nat)) : List (Nat × Nat) :=
  l.enum.filterMap (fun x =>
    match x.2 with
    | some p => if (nodeAt pool p).op = .param then some (x.1, p) else none
    | none => none)

/-- Remaining reference-count contribution of the not-yet-consumed operand
indices `cs` of instruction `el` to sorted position `j`. -/
def pendUses (el : AlgEl) (cs : List Nat) (j : Nat) : Int :=
  ((cs.filter (fun c => el.argSlot c = j)).length : Int)

/-- Structural invariant of the ghost allocation trace and the free-slot
stack: event instructions are bounded, every stack entry records a pending
(unmatched) free with no reallocation of its slot since, stack positions
decrease from the top, every unmatched free is on the stack, stack slots
are distinct and below the high-water mark, and the trace so far satisfies
the LIFO reuse discipline with fresh allocations only on an empty stack. -/
def TraceStackInv (bound worksize : Nat) (trace : List AllocEv)
    (unused : List (Nat × Nat)) : Prop :=
  (∀ q, q < trace.length → (evAt trace q).instr < bound) ∧
  (∀ e ∈ unused, e.2 < trace.length ∧ (evAt trace e.2).isFree = true ∧
    (evAt trace e.2).slot = e.1 ∧
    ∀ q, e.2 < q → q < trace.length →
      ¬((evAt trace q).isAlloc = true ∧ (evAt trace q).slot = e.1)) ∧
  List.Pairwise (fun a b : Nat × Nat => b.2 < a.2) unused ∧
  (∀ j, j < trace.length → (evAt trace j).isFree = true →
    ((evAt trace j).slot, j) ∈ unused ∨ MatchedBefore trace j trace.length) ∧
  (unused.map (fun e => e.1)).Nodup ∧
  (∀ e ∈ unused, e.1 < worksize) ∧
  ReuseLIFO trace ∧ FreshOnlyWhenEmpty trace

/-- Liveness invariant of the slot map: processed non-output instructions
hold slots below the high-water mark, live instructions (with remaining
uses) hold pairwise distinct slots, and no live slot is on the free
stack. -/
def LiveInv (alg : List AlgEl) (n : Nat) (rc : List Int) (place : List Nat)
    (worksize : Nat) (unused : List (Nat × Nat)) : Prop :=
  (∀ j, j < n → (instrAt alg j).op ≠ .output → place.getD j 0 < worksize) ∧
  (∀ j1 j2, j1 < n → (instrAt alg j1).op ≠ .output → 0 < rc.getD j1 0 →
    j2 < n → (instrAt alg j2).op ≠ .output → 0 < rc.getD j2 0 →
    place.getD j1 0 = place.getD j2 0 → j1 = j2) ∧
  (∀ e ∈ unused, ∀ j, j < n → (instrAt alg j).op ≠ .output → 0 < rc.getD j 0 →
    place.getD j 0 ≠ e.1)

/-- Full invariant of the live-variable allocation loop after `n` steps. -/
def AllocInvLive (alg : List AlgEl) (n : Nat) (st : AllocSt) : Prop :=
  TraceStackInv n st.worksize st.trace st.unused ∧
  LiveInv alg n st.refcount st.place st.worksize st.unused ∧
  (∀ j, st.refcount.getD j 0 = (usesFrom alg j n : Int)) ∧
  st.refcount.length = alg.length

/-- Pool of `sin(x)`: one parameter and one unary operation on it. -/
def poolSin : List PNode :=
  [{ op := .param }, { op := .unop 2, deps := [0] }]

/-- Node pool of `f(x, y) = x*y + sin(x)`: two parameters, their product,
the sine of the first, and the sum of the last two. -/
def poolW : List PNode :=
  [{ op := .param }, { op := .param }, { op := .binop 1, deps := [0, 1] },
   { op := .unop 2, deps := [0] }, { op := .binop 0, deps := [2, 3] }]

/-- Pool with a free variable: the output depends on parameter 1, which is
not declared as an input. -/
def poolFree : List PNode :=
  [{ op := .param }, { op := .param }, { op := .binop 0, deps := [0, 1] }]

/-! ## Theorems -/

/-! ### C8: adjoint seed construction in `jacGen` overwrites -/

/-- C8: the claim states that `jacGen` accumulates adjoint seeds, so that
seeding the same output nonzero twice in one direction keeps both
contributions.  The code instead assigns (`aseed[dir][oind].at(c) = 1`,
flagged in the source itself by `// NOTE: should be +=, right?`): on a
direction row seeding nonzero 0 twice, the code-faithful construction
leaves 1 where the accumulation the specification prescribes yields 2. -/
theorem c8_jacgen_adjoint_seed_overwritten :
    buildAdjSeedDir [0, 0] (fun _ => 0) 0 = 1 ∧
      buildAdjSeedDirSpec [0, 0] (fun _ => 0) 0 = 2 := by
  constructor
  · simp [buildAdjSeedDir, Function.update]
  · norm_num [buildAdjSeedDirSpec, Function.update]

/-! ### C4: bit-vector sparsity propagation -/

theorem spFwdPrefix_succ (alg : List AlgEl) (inp : Nat × Nat → Nat) (w0 : Nat → Nat)
    (out0 : Nat × Nat → Nat) (k : Nat) (h : k < alg.length) :
    spFwdPrefix alg inp w0 out0 (k + 1) =
      spFwdStep inp (spFwdPrefix alg inp w0 out0 k) (instrAt alg k) := by
  simp [spFwdPrefix, h]

theorem spBwdSuffixGo_eq (alg : List AlgEl) (out : Nat × Nat → Nat) (w0 : Nat → Nat)
    (inp0 : Nat × Nat → Nat) (gas k : Nat) (h : k < alg.length) :
    spBwdSuffixGo alg out w0 inp0 (gas + 1) k =
      spBwdStep out (instrAt alg k) (spBwdSuffixGo alg out w0 inp0 gas (k + 1)) := by
  simp [spBwdSuffixGo, h]

theorem spBwdSuffix_eq (alg : List AlgEl) (out : Nat × Nat → Nat) (w0 : Nat → Nat)
    (inp0 : Nat × Nat → Nat) (k : Nat) (h : k < alg.length) :
    spBwdSuffix alg out w0 inp0 k =
      spBwdStep out (instrAt alg k) (spBwdSuffix alg out w0 inp0 (k + 1)) := by
  unfold spBwdSuffix
  have h1 : alg.length - k = (alg.length - (k + 1)) + 1 := by omega
  rw [h1, spBwdSuffixGo_eq alg out w0 inp0 _ k h]

/-- Pointwise value of the backward-propagation update sequence of a
unary/binary instruction: save the seed, clear the result slot, then or the
seed into each operand slot.  The closed form shows the clearing happens
before the accumulation, so a slot that is both an operand and the result
ends up holding the seed. -/
theorem spBwd_default_pointwise (A : Nat → Nat) (r a0 a1 s : Nat) :
    Function.update
      (Function.update (Function.update A r 0) a0 (Function.update A r 0 a0 ||| A r)) a1
      (Function.update (Function.update A r 0) a0 (Function.update A r 0 a0 ||| A r) a1 ||| A r)
      s = ((if s = r then 0 else A s) ||| (if s = a0 ∨ s = a1 then A r else 0)) := by
  simp only [Function.update_apply]
  split_ifs <;> simp_all [Nat.or_assoc, Nat.or_self, Nat.or_zero, Nat.zero_or]

/-- C4 (amended): sparsity propagation over the bit-vector domain.  In the
forward direction a unary/binary instruction's result mask is the bitwise
or of its operand masks and constants/symbols get the all-zero mask; in the
backward direction each operand slot accumulates (ors in) the seed of the
instruction's result, the result's slot being cleared *before* the operand
accumulation — so an in-place instruction (an operand sharing the result's
slot) leaves the seed, not zero, in that slot.  No numeric derivative value
is formed: the whole sweep is defined over masks. -/
theorem c4_sparsity_bitvector_propagation (alg : List AlgEl) (inp out : Nat × Nat → Nat)
    (w0 wb0 : Nat → Nat) (out0 inp0 : Nat × Nat → Nat) (k : Nat) (hk : k < alg.length) :
    (((instrAt alg k).op = .const ∨ (instrAt alg k).op = .param) →
      (spFwdPrefix alg inp w0 out0 (k + 1)).1 =
        Function.update (spFwdPrefix alg inp w0 out0 k).1 (instrAt alg k).res 0) ∧
    ((instrAt alg k).op.isOpNode = true →
      (spFwdPrefix alg inp w0 out0 (k + 1)).1 =
        Function.update (spFwdPrefix alg inp w0 out0 k).1 (instrAt alg k).res
          ((spFwdPrefix alg inp w0 out0 k).1 (instrAt alg k).i0 |||
            (spFwdPrefix alg inp w0 out0 k).1 (instrAt alg k).i1)) ∧
    (((instrAt alg k).op = .const ∨ (instrAt alg k).op = .param) →
      (spBwdSuffix alg out wb0 inp0 k).1 =
        Function.update (spBwdSuffix alg out wb0 inp0 (k + 1)).1 (instrAt alg k).res 0) ∧
    ((instrAt alg k).op.isOpNode = true →
      ∀ s, (spBwdSuffix alg out wb0 inp0 k).1 s =
        ((if s = (instrAt alg k).res then 0 else (spBwdSuffix alg out wb0 inp0 (k + 1)).1 s) |||
          (if s = (instrAt alg k).i0 ∨ s = (instrAt alg k).i1 then
            (spBwdSuffix alg out wb0 inp0 (k + 1)).1 (instrAt alg k).res
          else 0))) := by
  have hfwd := spFwdPrefix_succ alg inp w0 out0 k hk
  have hbwd := spBwdSuffix_eq alg out wb0 inp0 k hk
  set el := instrAt alg k with hel
  refine ⟨?_, ?_, ?_, ?_⟩
  · rintro (h | h) <;> simp [hfwd, spFwdStep, h]
  · intro h
    rcases hop : el.op with _ | _ | _ | _ | u | b <;> simp [hop, AOp.isOpNode] at h <;>
      simp [hfwd, spFwdStep, hop]
  · rintro (h | h) <;> simp [hbwd, spBwdStep, h]
  · intro h
    rcases hop : el.op with _ | _ | _ | _ | u | b <;> simp [hop, AOp.isOpNode] at h <;>
    · intro s
      rw [hbwd]
      simp only [spBwdStep, hop]
      exact spBwd_default_pointwise _ el.res el.i0 el.i1 s

/-- Witness for C4 at the multiplication instruction of the `x*y + sin(x)`
algorithm: its forward sparsity mask is the or of its operand masks. -/
theorem c4_sparsity_bitvector_propagation_witness :
    (spFwdPrefix algW (fun p => p.1 + 1) (fun _ => 0) (fun _ => 0) 3).1 =
      Function.update (spFwdPrefix algW (fun p => p.1 + 1) (fun _ => 0) (fun _ => 0) 2).1
        (instrAt algW 2).res
        ((spFwdPrefix algW (fun p => p.1 + 1) (fun _ => 0) (fun _ => 0) 2).1 (instrAt algW 2).i0 |||
          (spFwdPrefix algW (fun p => p.1 + 1) (fun _ => 0) (fun _ => 0) 2).1 (instrAt algW 2).i1) :=
  (c4_sparsity_bitvector_propagation algW (fun p => p.1 + 1) (fun _ => 0) (fun _ => 0)
    (fun _ => 0) (fun _ => 0) (fun _ => 0) 2 (by decide)).2.1 (by decide)

/-- C4 counterexample to the claim as stated: on the algorithm
`[@0 = unary(@0); output[0][0] = @0]` with adjoint sparsity seed 1 on the
output, the backward sweep leaves the processed instruction's result slot
holding the seed (1), not zero: the code clears the result slot before
or-ing the seed into the operand slots, and here the operand shares the
result's slot. -/
theorem c4_counterexample :
    ¬ BwdClearsResult
      [{ op := .unop 0, i0 := 0, i1 := 0, res := 0 }, { op := .output, i0 := 0, i1 := 0, res := 0 }]
      (fun p => if p = (0, 0) then 1 else 0) (fun _ => 0) (fun _ => 0) := by
  decide

/-! ### C5: seed compression is invisible -/

theorem compressLoop_succ (n : Nat) (st0 : (Nat → List ℚ) × (Nat → Bool) × Nat) :
    compressLoop (n + 1) st0 = compressStep (compressLoop n st0) n := by
  unfold compressLoop
  rw [List.range_succ, List.foldl_append]
  rfl

theorem nzDirs_succ (seedB : Nat → List ℚ) (n : Nat) :
    nzDirs seedB (n + 1) =
      nzDirs seedB n ++ if isZeroBundle (seedB n) then [] else [n] := by
  unfold nzDirs
  rw [List.range_succ, List.filter_append]
  rcases h : isZeroBundle (seedB n) <;> simp [h]

theorem nzDirs_le (seedB : Nat → List ℚ) (n : Nat) : (nzDirs seedB n).length ≤ n := by
  have := List.length_filter_le (fun d => !(isZeroBundle (seedB d))) (List.range n)
  simpa [nzDirs] using this

theorem getD_concat_self {α : Type} (l : List α) (x d : α) :
    (l ++ [x]).getD l.length d = x := by
  rw [List.getD_append_right _ _ _ _ (le_refl l.length)]
  simp

theorem isZeroBundle_eq (v : List ℚ) (h : isZeroBundle v = true) :
    v = zeroBundle v.length := by
  induction v with
  | nil => rfl
  | cons a t ih =>
      simp only [isZeroBundle, List.all_cons, Bool.and_eq_true, decide_eq_true_eq] at h
      simp only [zeroBundle, List.length_cons, List.replicate_succ]
      rw [h.1]
      exact congrArg (List.cons 0) (ih h.2)

theorem compress_invariant (seed0 : Nat → List ℚ) (flags0 : Nat → Bool) (n : Nat) :
    (compressLoop n (seed0, flags0, 0)).2.2 = (nzDirs seed0 n).length ∧
    (∀ i, i < (nzDirs seed0 n).length →
      (compressLoop n (seed0, flags0, 0)).1 i = seed0 ((nzDirs seed0 n).getD i 0)) ∧
    (∀ d, n ≤ d → (compressLoop n (seed0, flags0, 0)).1 d = seed0 d) ∧
    (∀ d, d < n → (compressLoop n (seed0, flags0, 0)).2.1 d = isZeroBundle (seed0 d)) := by
  induction n with
  | zero => exact ⟨rfl, fun i h => absurd h (by simp [nzDirs]), fun d _ => rfl,
      fun d h => absurd h (Nat.not_lt_zero d)⟩
  | succ n ih =>
    obtain ⟨h1, h2, h3, h4⟩ := ih
    rw [compressLoop_succ]
    set st := compressLoop n (seed0, flags0, 0) with hst
    have hmn : st.2.2 ≤ n := le_trans (le_of_eq h1) (nzDirs_le seed0 n)
    have hseedn : st.1 n = seed0 n := h3 n (le_refl n)
    by_cases hz : isZeroBundle (seed0 n) = true
    · have hstep : compressStep st n = (st.1, Function.update st.2.1 n true, st.2.2) := by
        simp only [compressStep, hseedn, hz, if_true]
      have hnz : nzDirs seed0 (n + 1) = nzDirs seed0 n := by rw [nzDirs_succ, hz]; simp
      rw [hstep, hnz]
      refine ⟨h1, fun i hi => h2 i hi, fun d hd => h3 d (by omega), ?_⟩
      intro d hd
      show Function.update st.2.1 n true d = isZeroBundle (seed0 d)
      rcases Nat.lt_succ_iff_lt_or_eq.mp hd with hd' | hd'
      · rw [Function.update_apply, if_neg (by omega)]
        exact h4 d hd'
      · subst hd'
        rw [Function.update_apply, if_pos rfl, hz]
    · have hzf : isZeroBundle (seed0 n) = false := Bool.eq_false_iff.mpr hz
      have hnz : nzDirs seed0 (n + 1) = nzDirs seed0 n ++ [n] := by
        rw [nzDirs_succ, hzf]
        simp
      by_cases hnm : n = st.2.2
      · have hstep : compressStep st n =
            (st.1, Function.update st.2.1 n false, st.2.2 + 1) := by
          simp only [compressStep, hseedn, hzf, Bool.false_eq_true, if_false]
          rw [if_neg (not_not_intro hnm)]
        rw [hstep, hnz]
        refine ⟨?_, ?_, fun d hd => h3 d (by omega), ?_⟩
        · show st.2.2 + 1 = (nzDirs seed0 n ++ [n]).length
          simp [h1]
        · intro i hi
          show st.1 i = seed0 ((nzDirs seed0 n ++ [n]).getD i 0)
          have hi2 : i < (nzDirs seed0 n).length + 1 := by simpa using hi
          rcases Nat.lt_succ_iff_lt_or_eq.mp hi2 with hi' | hi'
          · rw [List.getD_append _ _ _ _ hi']
            exact h2 i hi'
          · subst hi'
            rw [getD_concat_self, ← h1, ← hnm]
            exact hseedn
        · intro d hd
          show Function.update st.2.1 n false d = isZeroBundle (seed0 d)
          rcases Nat.lt_succ_iff_lt_or_eq.mp hd with hd' | hd'
          · rw [Function.update_apply, if_neg (by omega)]
            exact h4 d hd'
          · subst hd'
            rw [Function.update_apply, if_pos rfl, hzf]
      · have hstep : compressStep st n =
            (Function.update st.1 st.2.2 (seed0 n), Function.update st.2.1 n false,
              st.2.2 + 1) := by
          simp only [compressStep, hseedn, hzf, Bool.false_eq_true, if_false]
          rw [if_pos hnm]
        rw [hstep, hnz]
        refine ⟨?_, ?_, ?_, ?_⟩
        · show st.2.2 + 1 = (nzDirs seed0 n ++ [n]).length
          simp [h1]
        · intro i hi
          show Function.update st.1 st.2.2 (seed0 n) i = seed0 ((nzDirs seed0 n ++ [n]).getD i 0)
          have hi2 : i < (nzDirs seed0 n).length + 1 := by simpa using hi
          rcases Nat.lt_succ_iff_lt_or_eq.mp hi2 with hi' | hi'
          · rw [Function.update_apply, if_neg (by omega), List.getD_append _ _ _ _ hi']
            exact h2 i hi'
          · subst hi'
            rw [getD_concat_self, Function.update_apply, if_pos (by omega)]
        · intro d hd
          show Function.update st.1 st.2.2 (seed0 n) d = seed0 d
          rw [Function.update_apply, if_neg (by omega)]
          exact h3 d (by omega)
        · intro d hd
          show Function.update st.2.1 n false d = isZeroBundle (seed0 d)
          rcases Nat.lt_succ_iff_lt_or_eq.mp hd with hd' | hd'
          · rw [Function.update_apply, if_neg (by omega)]
            exact h4 d hd'
          · subst hd'
            rw [Function.update_apply, if_pos rfl, hzf]

theorem decompressLoop_succ (nOut n : Nat) (flags : Nat → Bool)
    (st0 : (Nat → List ℚ) × Nat) :
    decompressLoop nOut (n + 1) flags st0 =
      decompressLoop nOut n flags (decompressStep nOut flags st0 n) := by
  unfold decompressLoop
  rw [List.range_succ, List.reverse_append]
  rfl

theorem decompress_invariant (F : List ℚ → List ℚ) (nIn nOut : Nat) (seed0 : Nat → List ℚ)
    (flags : Nat → Bool) (hF0 : F (zeroBundle nIn) = zeroBundle nOut) :
    ∀ n, (∀ d, d < n → flags d = isZeroBundle (seed0 d)) →
      (∀ d, d < n → (seed0 d).length = nIn) →
      ∀ st : (Nat → List ℚ) × Nat,
        st.2 = (nzDirs seed0 n).length →
        (∀ i, i < st.2 → st.1 i = F (seed0 ((nzDirs seed0 n).getD i 0))) →
        (∀ dir, dir < n → (decompressLoop nOut n flags st).1 dir = F (seed0 dir)) ∧
        (∀ p, n ≤ p → (decompressLoop nOut n flags st).1 p = st.1 p) := by
  intro n
  induction n with
  | zero =>
      intro _ _ st _ _
      exact ⟨fun dir h => absurd h (Nat.not_lt_zero dir), fun p _ => rfl⟩
  | succ n ih =>
    intro hfl hlen st hcnt hvals
    rw [decompressLoop_succ]
    have hfl' : ∀ d, d < n → flags d = isZeroBundle (seed0 d) := fun d hd => hfl d (by omega)
    have hlen' : ∀ d, d < n → (seed0 d).length = nIn := fun d hd => hlen d (by omega)
    have hnle : (nzDirs seed0 n).length ≤ n := nzDirs_le seed0 n
    by_cases hz : isZeroBundle (seed0 n) = true
    · -- compressed direction: the sensitivity is reconstructed as zero
      have hnz : nzDirs seed0 (n + 1) = nzDirs seed0 n := by rw [nzDirs_succ, hz]; simp
      have hflag : flags n = true := by rw [hfl n (by omega), hz]
      have hstep : decompressStep nOut flags st n =
          (Function.update st.1 n (zeroBundle nOut), st.2) := by
        simp only [decompressStep, hflag, if_true]
      rw [hstep]
      have hcnt' : st.2 = (nzDirs seed0 n).length := by rw [hcnt, hnz]
      have hvals' : ∀ i, i < st.2 →
          Function.update st.1 n (zeroBundle nOut) i =
            F (seed0 ((nzDirs seed0 n).getD i 0)) := by
        intro i hi
        rw [Function.update_apply, if_neg (by omega)]
        rw [hnz] at hvals
        exact hvals i hi
      obtain ⟨P1, P2⟩ := ih hfl' hlen' (Function.update st.1 n (zeroBundle nOut), st.2)
        hcnt' hvals'
      constructor
      · intro dir hdir
        rcases Nat.lt_succ_iff_lt_or_eq.mp hdir with hd' | hd'
        · exact P1 dir hd'
        · subst hd'
          rw [P2 dir (le_refl dir)]
          show Function.update st.1 dir (zeroBundle nOut) dir = F (seed0 dir)
          rw [Function.update_apply, if_pos rfl]
          have hv : seed0 dir = zeroBundle nIn := by
            have := isZeroBundle_eq (seed0 dir) hz
            rwa [hlen dir (by omega)] at this
          rw [hv, hF0]
      · intro p hp
        rw [P2 p (by omega)]
        show Function.update st.1 n (zeroBundle nOut) p = st.1 p
        rw [Function.update_apply, if_neg (by omega)]
    · -- uncompressed direction: the sensitivity is copied from the
      -- compressed position (or is already in place)
      have hzf : isZeroBundle (seed0 n) = false := Bool.eq_false_iff.mpr hz
      have hnz : nzDirs seed0 (n + 1) = nzDirs seed0 n ++ [n] := by
        rw [nzDirs_succ, hzf]
        simp
      have hflag : flags n = false := by rw [hfl n (by omega), hzf]
      have hm : st.2 = (nzDirs seed0 n).length + 1 := by
        rw [hcnt, hnz]
        simp
      have hlast : (nzDirs seed0 (n + 1)).getD (nzDirs seed0 n).length 0 = n := by
        rw [hnz, getD_concat_self]
      by_cases hnm : st.2 - 1 = n
      · -- all earlier directions nonzero: the value is already in place
        have hstep : decompressStep nOut flags st n = (st.1, st.2 - 1) := by
          simp only [decompressStep, hflag, Bool.false_eq_true, if_false]
          rw [if_neg (not_not_intro hnm)]
        rw [hstep]
        have hcnt' : st.2 - 1 = (nzDirs seed0 n).length := by omega
        have hvals' : ∀ i, i < st.2 - 1 →
            st.1 i = F (seed0 ((nzDirs seed0 n).getD i 0)) := by
          intro i hi
          have := hvals i (by omega)
          rwa [hnz, List.getD_append _ _ _ _ (by omega)] at this
        obtain ⟨P1, P2⟩ := ih hfl' hlen' (st.1, st.2 - 1) hcnt' hvals'
        constructor
        · intro dir hdir
          rcases Nat.lt_succ_iff_lt_or_eq.mp hdir with hd' | hd'
          · exact P1 dir hd'
          · subst hd'
            rw [P2 dir (le_refl dir)]
            show st.1 dir = F (seed0 dir)
            have hv := hvals (st.2 - 1) (by omega)
            rw [hcnt', hlast] at hv
            have hdl : dir = (nzDirs seed0 dir).length := by omega
            conv_lhs => rw [hdl]
            exact hv
        · intro p hp
          exact P2 p (by omega)
      · -- the value is copied up from the compressed position
        have hstep : decompressStep nOut flags st n =
            (Function.update st.1 n (st.1 (st.2 - 1)), st.2 - 1) := by
          simp only [decompressStep, hflag, Bool.false_eq_true, if_false]
          rw [if_pos hnm]
        rw [hstep]
        have hcnt' : st.2 - 1 = (nzDirs seed0 n).length := by omega
        have hvals' : ∀ i, i < st.2 - 1 →
            Function.update st.1 n (st.1 (st.2 - 1)) i =
              F (seed0 ((nzDirs seed0 n).getD i 0)) := by
          intro i hi
          rw [Function.update_apply, if_neg (by omega)]
          have := hvals i (by omega)
          rwa [hnz, List.getD_append _ _ _ _ (by omega)] at this
        obtain ⟨P1, P2⟩ := ih hfl' hlen'
          (Function.update st.1 n (st.1 (st.2 - 1)), st.2 - 1) hcnt' hvals'
        constructor
        · intro dir hdir
          rcases Nat.lt_succ_iff_lt_or_eq.mp hdir with hd' | hd'
          · exact P1 dir hd'
          · subst hd'
            rw [P2 dir (le_refl dir)]
            show Function.update st.1 dir (st.1 (st.2 - 1)) dir = F (seed0 dir)
            rw [Function.update_apply, if_pos rfl]
            have hv := hvals (st.2 - 1) (by omega)
            rw [hcnt', hlast] at hv
            rw [hcnt']
            exact hv
        · intro p hp
          rw [P2 p (by omega)]
          show Function.update st.1 n (st.1 (st.2 - 1)) p = st.1 p
          rw [Function.update_apply, if_neg (by omega)]

/-- C5: the compressed evaluation path (detect all-zero seed directions,
remove them before the sweep, reconstruct their sensitivities as zero
afterwards) produces exactly the sensitivity each direction would get from
an uncompressed direction-wise evaluation, for every direction.  `F` is the
per-direction sensitivity map of the underlying `evaluate` call (which
treats directions independently); the only property used is that a zero
seed produces a zero sensitivity. -/
theorem c5_compression_invisible (F : List ℚ → List ℚ) (nIn nOut nfdir : Nat)
    (seedB : Nat → List ℚ) (flags0 : Nat → Bool) (sensB0 : Nat → List ℚ)
    (hlen : ∀ d, d < nfdir → (seedB d).length = nIn)
    (hF0 : F (zeroBundle nIn) = zeroBundle nOut) :
    ∀ dir, dir < nfdir →
      evaluateCompressed F nOut nfdir seedB flags0 sensB0 dir = F (seedB dir) := by
  intro dir hdir
  obtain ⟨h1, h2, h3, h4⟩ := compress_invariant seedB flags0 nfdir
  unfold evaluateCompressed
  set c := compressLoop nfdir (seedB, flags0, 0) with hc
  have hfl : ∀ d, d < nfdir → c.2.1 d = isZeroBundle (seedB d) := h4
  have hvals : ∀ i, i < (evalDirs F c.2.2 c.1 sensB0, c.2.2).2 →
      (evalDirs F c.2.2 c.1 sensB0, c.2.2).1 i =
        F (seedB ((nzDirs seedB nfdir).getD i 0)) := by
    intro i hi
    show evalDirs F c.2.2 c.1 sensB0 i = _
    unfold evalDirs
    rw [if_pos hi, h2 i (by omega)]
  obtain ⟨P1, _⟩ := decompress_invariant F nIn nOut seedB c.2.1 hF0 nfdir hfl hlen
    (evalDirs F c.2.2 c.1 sensB0, c.2.2) (by simpa using h1) hvals
  exact P1 dir hdir

/-- Witness for C5 on concrete data: three directions of length-one seed
bundles, the middle one all zero, evaluated through a concrete linear `F`
(sum of the entries). -/
theorem c5_compression_invisible_witness :
    (∀ d, d < 3 → (([[(1 : ℚ)], [0], [2]].getD d []).length = 1)) ∧
      ((fun v : List ℚ => [v.sum]) (zeroBundle 1) = zeroBundle 1) ∧
      ∀ dir, dir < 3 →
        evaluateCompressed (fun v : List ℚ => [v.sum]) 1 3
          (fun d => [[(1 : ℚ)], [0], [2]].getD d []) (fun _ => false) (fun _ => [37]) dir =
          (fun v : List ℚ => [v.sum]) ([[(1 : ℚ)], [0], [2]].getD dir []) := by
    refine ⟨by decide, by norm_num [zeroBundle], ?_⟩
    exact c5_compression_invisible (fun v : List ℚ => [v.sum]) 1 1 3
      (fun d => [[(1 : ℚ)], [0], [2]].getD d []) (fun _ => false) (fun _ => [37])
      (by decide) (by norm_num [zeroBundle])

/-! ### C2: adjoint accumulators end every sweep at exactly zero -/

theorem fwdPrefix_succ (alg : List AlgEl) (tape : Nat → ℚ × ℚ) (fseed : Nat × Nat → ℚ)
    (w0 : Nat → ℚ) (sens0 : Nat × Nat → ℚ) (k : Nat) (h : k < alg.length) :
    fwdPrefix alg tape fseed w0 sens0 (k + 1) =
      fwdStep tape fseed (fwdPrefix alg tape fseed w0 sens0 k) (k, instrAt alg k) := by
  simp [fwdPrefix, h]

theorem adjSuffix_eq (alg : List AlgEl) (tape : Nat → ℚ × ℚ) (aseed : Nat × Nat → ℚ)
    (w0 : Nat → ℚ) (sens0 : Nat × Nat → ℚ) (k : Nat) (h : k < alg.length) :
    adjSuffix alg tape aseed w0 sens0 k =
      adjStep tape aseed (k, instrAt alg k) (adjSuffix alg tape aseed w0 sens0 (k + 1)) := by
  unfold adjSuffix
  have h1 : alg.length - k = (alg.length - (k + 1)) + 1 := by omega
  rw [h1]
  simp [adjSuffixGo, h]

theorem adjSuffix_base (alg : List AlgEl) (tape : Nat → ℚ × ℚ) (aseed : Nat × Nat → ℚ)
    (w0 : Nat → ℚ) (sens0 : Nat × Nat → ℚ) (k : Nat) (h : alg.length ≤ k) :
    adjSuffix alg tape aseed w0 sens0 k = (w0, sens0) := by
  unfold adjSuffix
  have h1 : alg.length - k = 0 := by omega
  rw [h1]
  rfl

theorem writesBefore_succ (alg : List AlgEl) (k s : Nat) :
    WritesBefore alg (k + 1) s ↔
      WritesBefore alg k s ∨
        ((instrAt alg k).op ≠ .output ∧ (instrAt alg k).res = s) := by
  constructor
  · rintro ⟨j, hj, hop, hres⟩
    rcases Nat.lt_succ_iff_lt_or_eq.mp hj with h | h
    · exact Or.inl ⟨j, h, hop, hres⟩
    · subst h
      exact Or.inr ⟨hop, hres⟩
  · rintro (⟨j, hj, hop, hres⟩ | ⟨hop, hres⟩)
    · exact ⟨j, by omega, hop, hres⟩
    · exact ⟨k, by omega, hop, hres⟩

theorem instrAt_mem (alg : List AlgEl) (k : Nat) (h : k < alg.length) :
    instrAt alg k ∈ alg := by
  unfold instrAt
  rw [List.getD_eq_getElem alg nilEl h]
  exact List.getElem_mem h

theorem adjStep_const (tape : Nat → ℚ × ℚ) (aseed : Nat × Nat → ℚ) (k : Nat) (el : AlgEl)
    (st : (Nat → ℚ) × (Nat × Nat → ℚ)) (h : el.op = .const) :
    adjStep tape aseed (k, el) st = (Function.update st.1 el.res 0, st.2) := by
  unfold adjStep
  dsimp only
  rw [h]

theorem adjStep_input (tape : Nat → ℚ × ℚ) (aseed : Nat × Nat → ℚ) (k : Nat) (el : AlgEl)
    (st : (Nat → ℚ) × (Nat × Nat → ℚ)) (h : el.op = .input) :
    adjStep tape aseed (k, el) st =
      (Function.update st.1 el.res 0, Function.update st.2 (el.i0, el.i1) (st.1 el.res)) := by
  unfold adjStep
  dsimp only
  rw [h]

theorem adjStep_output (tape : Nat → ℚ × ℚ) (aseed : Nat × Nat → ℚ) (k : Nat) (el : AlgEl)
    (st : (Nat → ℚ) × (Nat × Nat → ℚ)) (h : el.op = .output) :
    adjStep tape aseed (k, el) st =
      (Function.update st.1 el.i0 (st.1 el.i0 + aseed (el.res, el.i1)), st.2) := by
  unfold adjStep
  dsimp only
  rw [h]

theorem adjStep_node (tape : Nat → ℚ × ℚ) (aseed : Nat × Nat → ℚ) (k : Nat) (el : AlgEl)
    (st : (Nat → ℚ) × (Nat × Nat → ℚ)) (h : el.op.isOpNode = true) :
    adjStep tape aseed (k, el) st =
      (Function.update
        (Function.update (Function.update st.1 el.res 0) el.i0
          (Function.update st.1 el.res 0 el.i0 + (tape k).1 * st.1 el.res)) el.i1
        (Function.update (Function.update st.1 el.res 0) el.i0
          (Function.update st.1 el.res 0 el.i0 + (tape k).1 * st.1 el.res) el.i1 +
            (tape k).2 * st.1 el.res), st.2) := by
  rcases hop : el.op with _ | _ | _ | _ | u | b <;> simp [AOp.isOpNode, hop] at h <;>
    (unfold adjStep; dsimp only; rw [hop])

/-- Core invariant of the adjoint sweep: starting from an all-zero
accumulator vector, after processing the instructions from `k` on (in
reverse order) every slot that no instruction before `k` writes holds
exactly zero — each instruction zeroes its own result slot when processed,
and propagated contributions only ever land in slots that topological
validity guarantees were written earlier. -/
theorem adj_work_zero_from (alg : List AlgEl) (tape : Nat → ℚ × ℚ)
    (aseed sens0 : Nat × Nat → ℚ) (htv : TopoValid alg) (huf : UnaryFix alg)
    (hnp : NoParams alg) :
    ∀ k s, ¬ WritesBefore alg k s →
      (adjSuffix alg tape aseed (fun _ => 0) sens0 k).1 s = 0 := by
  have main : ∀ m k, alg.length - k ≤ m → ∀ s, ¬ WritesBefore alg k s →
      (adjSuffix alg tape aseed (fun _ => 0) sens0 k).1 s = 0 := by
    intro m
    induction m with
    | zero =>
        intro k hk s _
        rw [adjSuffix_base alg tape aseed _ sens0 k (by omega)]
    | succ m ih =>
        intro k hk s hs
        by_cases hlt : k < alg.length
        · rw [adjSuffix_eq alg tape aseed _ sens0 k hlt]
          set A := adjSuffix alg tape aseed (fun _ => 0) sens0 (k + 1) with hA
          set el := instrAt alg k with hel
          have ihs : ∀ s', ¬ WritesBefore alg (k + 1) s' → A.1 s' = 0 := by
            intro s' hs'
            exact ih (k + 1) (by omega) s' hs'
          have hnotres : el.op ≠ .output → s ≠ el.res → ¬ WritesBefore alg (k + 1) s := by
            intro hout hsres hwb
            rcases (writesBefore_succ alg k s).mp hwb with h | ⟨_, hres⟩
            · exact hs h
            · exact hsres hres.symm
          rcases hop : el.op with _ | _ | _ | _ | u | b
          · -- constant: the step clears its own slot
            rw [adjStep_const tape aseed k el A hop]
            by_cases hrs : s = el.res
            · show Function.update A.1 el.res 0 s = 0
              rw [Function.update_apply, if_pos hrs]
            · show Function.update A.1 el.res 0 s = 0
              rw [Function.update_apply, if_neg hrs]
              exact ihs s (hnotres (by rw [hop]; simp) hrs)
          · -- input marker: drains and clears its slot
            rw [adjStep_input tape aseed k el A hop]
            by_cases hrs : s = el.res
            · show Function.update A.1 el.res 0 s = 0
              rw [Function.update_apply, if_pos hrs]
            · show Function.update A.1 el.res 0 s = 0
              rw [Function.update_apply, if_neg hrs]
              exact ihs s (hnotres (by rw [hop]; simp) hrs)
          · -- output marker: adds the seed into a slot that has a writer
            rw [adjStep_output tape aseed k el A hop]
            have harg : WritesBefore alg k el.i0 :=
              htv k hlt 0 (by rw [← hel, hop]; simp [AOp.ndeps])
            by_cases hi0 : s = el.i0
            · exact absurd (hi0 ▸ harg) hs
            · show Function.update A.1 el.i0 (A.1 el.i0 + aseed (el.res, el.i1)) s = 0
              rw [Function.update_apply, if_neg hi0]
              apply ihs s
              intro hwb
              rcases (writesBefore_succ alg k s).mp hwb with h | ⟨hnout, _⟩
              · exact hs h
              · exact hnout hop
          · -- parameters cannot occur
            exact absurd hop (hnp el (instrAt_mem alg k hlt))
          · -- unary operation
            have harg0 : WritesBefore alg k el.i0 :=
              htv k hlt 0 (by rw [← hel, hop]; simp [AOp.ndeps])
            have h10 : el.i1 = el.i0 :=
              huf k hlt (by rw [← hel, hop]; simp [AOp.ndeps]) (by rw [← hel, hop]; simp)
            have harg1 : WritesBefore alg k el.i1 := h10 ▸ harg0
            rw [adjStep_node tape aseed k el A (by rw [hop]; rfl)]
            by_cases hi1 : s = el.i1
            · exact absurd (hi1 ▸ harg1) hs
            · by_cases hi0 : s = el.i0
              · exact absurd (hi0 ▸ harg0) hs
              · show Function.update
                    (Function.update (Function.update A.1 el.res 0) el.i0
                      (Function.update A.1 el.res 0 el.i0 + (tape k).1 * A.1 el.res)) el.i1
                    (Function.update (Function.update A.1 el.res 0) el.i0
                      (Function.update A.1 el.res 0 el.i0 + (tape k).1 * A.1 el.res) el.i1 +
                        (tape k).2 * A.1 el.res) s = 0
                rw [Function.update_apply, if_neg hi1, Function.update_apply, if_neg hi0]
                by_cases hrs : s = el.res
                · rw [Function.update_apply, if_pos hrs]
                · rw [Function.update_apply, if_neg hrs]
                  exact ihs s (hnotres (by rw [hop]; simp) hrs)
          · -- binary operation
            have harg0 : WritesBefore alg k el.i0 :=
              htv k hlt 0 (by rw [← hel, hop]; simp [AOp.ndeps])
            have harg1 : WritesBefore alg k el.i1 :=
              htv k hlt 1 (by rw [← hel, hop]; simp [AOp.ndeps])
            rw [adjStep_node tape aseed k el A (by rw [hop]; rfl)]
            by_cases hi1 : s = el.i1
            · exact absurd (hi1 ▸ harg1) hs
            · by_cases hi0 : s = el.i0
              · exact absurd (hi0 ▸ harg0) hs
              · show Function.update
                    (Function.update (Function.update A.1 el.res 0) el.i0
                      (Function.update A.1 el.res 0 el.i0 + (tape k).1 * A.1 el.res)) el.i1
                    (Function.update (Function.update A.1 el.res 0) el.i0
                      (Function.update A.1 el.res 0 el.i0 + (tape k).1 * A.1 el.res) el.i1 +
                        (tape k).2 * A.1 el.res) s = 0
                rw [Function.update_apply, if_neg hi1, Function.update_apply, if_neg hi0]
                by_cases hrs : s = el.res
                · rw [Function.update_apply, if_pos hrs]
                · rw [Function.update_apply, if_neg hrs]
                  exact ihs s (hnotres (by rw [hop]; simp) hrs)
        · rw [adjSuffix_base alg tape aseed _ sens0 k (by omega)]
  intro k s hs
  exact main (alg.length - k) k (le_refl _) s hs

/-- A full adjoint sweep started from an all-zero accumulator vector ends
with an all-zero accumulator vector. -/
theorem adjSweep_work_zero (alg : List AlgEl) (tape : Nat → ℚ × ℚ)
    (aseed sens0 : Nat × Nat → ℚ) (htv : TopoValid alg) (huf : UnaryFix alg)
    (hnp : NoParams alg) :
    (adjSweep alg tape aseed (fun _ => 0) sens0).1 = fun _ => 0 := by
  funext s
  exact adj_work_zero_from alg tape aseed sens0 htv huf hnp 0 s
    (fun ⟨j, hj, _, _⟩ => absurd hj (Nat.not_lt_zero j))

/-- C2: for every algorithm satisfying the invariants the linearizer
establishes (topological validity, the unary `arg.i[1] = arg.i[0]` fixup,
no remaining parameter instructions — evaluation refuses to run otherwise),
every tape and every list of adjoint seed directions: the multi-direction
adjoint pass, started from the once-per-call `fill(work, 0)`, leaves every
accumulator entry exactly zero after every direction, and consequently each
direction's sensitivities are those of a sweep started from an all-zero
accumulator vector. -/
theorem c2_adjoint_accumulators_end_zero (alg : List AlgEl) (tape : Nat → ℚ × ℚ)
    (aseeds : List (Nat × Nat → ℚ)) (htv : TopoValid alg) (huf : UnaryFix alg)
    (hnp : NoParams alg) :
    (adjSweepDirs alg tape aseeds (fun _ => 0)).1 = (fun _ => 0) ∧
      (adjSweepDirs alg tape aseeds (fun _ => 0)).2 =
        aseeds.map (fun a => (adjSweep alg tape a (fun _ => 0) (fun _ => 0)).2) := by
  induction aseeds using List.reverseRecOn with
  | nil => exact ⟨rfl, rfl⟩
  | append_singleton l a ih =>
      obtain ⟨ih1, ih2⟩ := ih
      unfold adjSweepDirs at ih1 ih2 ⊢
      rw [List.foldl_append, List.foldl_cons, List.foldl_nil]
      constructor
      · show (adjSweep alg tape a (l.foldl _ ((fun _ => 0), [])).1 (fun _ => 0)).1 = _
        rw [ih1]
        exact adjSweep_work_zero alg tape a (fun _ => 0) htv huf hnp
      · show (l.foldl _ ((fun _ => 0), [])).2 ++
            [(adjSweep alg tape a (l.foldl _ ((fun _ => 0), [])).1 (fun _ => 0)).2] = _
        rw [ih1, ih2, List.map_append, List.map_singleton]

/-- Witness for C2 on the concrete `x*y + sin(x)` algorithm with two
adjoint directions and a nonzero tape. -/
theorem c2_adjoint_accumulators_end_zero_witness :
    (TopoValid algW ∧ UnaryFix algW ∧ NoParams algW) ∧
      ((adjSweepDirs algW (fun k => ((k : ℚ) + 1, 2)) [fun _ => 1, fun _ => 3]
          (fun _ => 0)).1 = fun _ => 0) := by
  refine ⟨⟨by decide, by decide, by decide⟩, ?_⟩
  exact (c2_adjoint_accumulators_end_zero algW (fun k => ((k : ℚ) + 1, 2))
    [fun _ => 1, fun _ => 3] (by decide) (by decide) (by decide)).1

/-! ### C3: forward/adjoint duality over a shared tape -/

theorem sum_mul_update (W : Nat) (f g : Nat → ℚ) (r : Nat) (hr : r < W) (v : ℚ) :
    ∑ s ∈ Finset.range W, Function.update f r v s * g s =
      (∑ s ∈ Finset.range W, f s * g s) - f r * g r + v * g r := by
  have hmem : r ∈ Finset.range W := Finset.mem_range.mpr hr
  have h1 : ∀ s ∈ Finset.range W, Function.update f r v s * g s =
      Function.update (fun t => f t * g t) r (v * g r) s := by
    intro s _
    rcases eq_or_ne s r with h | h
    · subst h
      simp
    · simp [Function.update_apply, h]
  rw [Finset.sum_congr rfl h1, Finset.sum_update_of_mem hmem, ← Finset.erase_eq]
  have h2 : (∑ x ∈ (Finset.range W).erase r, f x * g x) + f r * g r =
      ∑ x ∈ Finset.range W, f x * g x :=
    Finset.sum_erase_add (Finset.range W) (fun t => f t * g t) hmem
  linarith [h2]

theorem sum_mul_update_zero (W : Nat) (f g : Nat → ℚ) (r : Nat) (hr : r < W) :
    ∑ s ∈ Finset.range W, Function.update f r 0 s * g s =
      (∑ s ∈ Finset.range W, f s * g s) - f r * g r := by
  rw [sum_mul_update W f g r hr 0]
  ring

theorem sum_mul_update_add (W : Nat) (f g : Nat → ℚ) (r : Nat) (hr : r < W) (d : ℚ) :
    ∑ s ∈ Finset.range W, Function.update f r (f r + d) s * g s =
      (∑ s ∈ Finset.range W, f s * g s) + d * g r := by
  rw [sum_mul_update W f g r hr (f r + d)]
  ring

theorem sum_update_snd (W : Nat) (f g : Nat → ℚ) (r : Nat) (hr : r < W) (v : ℚ) :
    ∑ s ∈ Finset.range W, f s * Function.update g r v s =
      (∑ s ∈ Finset.range W, f s * g s) - f r * g r + f r * v := by
  have hmem : r ∈ Finset.range W := Finset.mem_range.mpr hr
  have h1 : ∀ s ∈ Finset.range W, f s * Function.update g r v s =
      Function.update (fun t => f t * g t) r (f r * v) s := by
    intro s _
    rcases eq_or_ne s r with h | h
    · subst h
      simp
    · simp [Function.update_apply, h]
  rw [Finset.sum_congr rfl h1, Finset.sum_update_of_mem hmem, ← Finset.erase_eq]
  have h2 : (∑ x ∈ (Finset.range W).erase r, f x * g x) + f r * g r =
      ∑ x ∈ Finset.range W, f x * g x :=
    Finset.sum_erase_add (Finset.range W) (fun t => f t * g t) hmem
  linarith [h2]

theorem fwdStep_const (tape : Nat → ℚ × ℚ) (fseed : Nat × Nat → ℚ) (k : Nat) (el : AlgEl)
    (st : (Nat → ℚ) × (Nat × Nat → ℚ)) (h : el.op = .const) :
    fwdStep tape fseed st (k, el) = (Function.update st.1 el.res 0, st.2) := by
  unfold fwdStep
  dsimp only
  rw [h]

theorem fwdStep_input (tape : Nat → ℚ × ℚ) (fseed : Nat × Nat → ℚ) (k : Nat) (el : AlgEl)
    (st : (Nat → ℚ) × (Nat × Nat → ℚ)) (h : el.op = .input) :
    fwdStep tape fseed st (k, el) =
      (Function.update st.1 el.res (fseed (el.i0, el.i1)), st.2) := by
  unfold fwdStep
  dsimp only
  rw [h]

theorem fwdStep_output (tape : Nat → ℚ × ℚ) (fseed : Nat × Nat → ℚ) (k : Nat) (el : AlgEl)
    (st : (Nat → ℚ) × (Nat × Nat → ℚ)) (h : el.op = .output) :
    fwdStep tape fseed st (k, el) =
      (st.1, Function.update st.2 (el.res, el.i1) (st.1 el.i0)) := by
  unfold fwdStep
  dsimp only
  rw [h]

theorem fwdStep_node (tape : Nat → ℚ × ℚ) (fseed : Nat × Nat → ℚ) (k : Nat) (el : AlgEl)
    (st : (Nat → ℚ) × (Nat × Nat → ℚ)) (h : el.op.isOpNode = true) :
    fwdStep tape fseed st (k, el) =
      (Function.update st.1 el.res ((tape k).1 * st.1 el.i0 + (tape k).2 * st.1 el.i1),
        st.2) := by
  rcases hop : el.op with _ | _ | _ | _ | u | b <;> simp [AOp.isOpNode, hop] at h <;>
    (unfold fwdStep; dsimp only; rw [hop])

theorem adjInSumFrom_eq (alg : List AlgEl) (tape : Nat → ℚ × ℚ)
    (aseed sens0 fseed : Nat × Nat → ℚ) (k : Nat) (h : k < alg.length) :
    adjInSumFrom alg tape aseed sens0 fseed k =
      (if (instrAt alg k).op = .input then
        (adjSuffix alg tape aseed (fun _ => 0) sens0 (k + 1)).1 (instrAt alg k).res *
          fseed ((instrAt alg k).i0, (instrAt alg k).i1)
      else 0) + adjInSumFrom alg tape aseed sens0 fseed (k + 1) := by
  unfold adjInSumFrom
  have h1 : alg.length - k = (alg.length - (k + 1)) + 1 := by omega
  rw [h1]
  simp [adjInSumGo, h]

theorem adjInSumFrom_base (alg : List AlgEl) (tape : Nat → ℚ × ℚ)
    (aseed sens0 fseed : Nat × Nat → ℚ) (k : Nat) (h : alg.length ≤ k) :
    adjInSumFrom alg tape aseed sens0 fseed k = 0 := by
  unfold adjInSumFrom
  have h1 : alg.length - k = 0 := by omega
  rw [h1]
  rfl

theorem outSumFrom_eq (alg : List AlgEl) (tape : Nat → ℚ × ℚ) (fseed : Nat × Nat → ℚ)
    (w0f : Nat → ℚ) (sens0f aseed : Nat × Nat → ℚ) (k : Nat) (h : k < alg.length) :
    outSumFrom alg tape fseed w0f sens0f aseed k =
      (if (instrAt alg k).op = .output then
        aseed ((instrAt alg k).res, (instrAt alg k).i1) *
          (fwdPrefix alg tape fseed w0f sens0f k).1 (instrAt alg k).i0
      else 0) + outSumFrom alg tape fseed w0f sens0f aseed (k + 1) := by
  unfold outSumFrom
  have h1 : alg.length - k = (alg.length - (k + 1)) + 1 := by omega
  rw [h1]
  simp [outSumGo, h]

theorem outSumFrom_base (alg : List AlgEl) (tape : Nat → ℚ × ℚ) (fseed : Nat × Nat → ℚ)
    (w0f : Nat → ℚ) (sens0f aseed : Nat × Nat → ℚ) (k : Nat) (h : alg.length ≤ k) :
    outSumFrom alg tape fseed w0f sens0f aseed k = 0 := by
  unfold outSumFrom
  have h1 : alg.length - k = 0 := by omega
  rw [h1]
  rfl

/-- The bilinear invariant behind forward/adjoint duality: at every
boundary `k`, the inner product of the adjoint state (having processed
instructions from `k` on, backwards) with the forward state (having
processed instructions up to `k`) plus the adjoint-side partial inner
product equals the forward-side partial inner product. -/
theorem duality_invariant (alg : List AlgEl) (tape : Nat → ℚ × ℚ)
    (fseed aseed : Nat × Nat → ℚ) (w0f : Nat → ℚ) (sens0f sens0a : Nat × Nat → ℚ)
    (W : Nat) (hnp : NoParams alg) (hsb : SlotBound alg W) :
    ∀ k,
      (∑ s ∈ Finset.range W,
        (adjSuffix alg tape aseed (fun _ => 0) sens0a k).1 s *
          (fwdPrefix alg tape fseed w0f sens0f k).1 s) +
        adjInSumFrom alg tape aseed sens0a fseed k =
      outSumFrom alg tape fseed w0f sens0f aseed k := by
  have main : ∀ m k, alg.length - k ≤ m →
      (∑ s ∈ Finset.range W,
        (adjSuffix alg tape aseed (fun _ => 0) sens0a k).1 s *
          (fwdPrefix alg tape fseed w0f sens0f k).1 s) +
        adjInSumFrom alg tape aseed sens0a fseed k =
      outSumFrom alg tape fseed w0f sens0f aseed k := by
    intro m
    induction m with
    | zero =>
        intro k hk
        rw [adjSuffix_base alg tape aseed _ sens0a k (by omega),
          adjInSumFrom_base alg tape aseed sens0a fseed k (by omega),
          outSumFrom_base alg tape fseed w0f sens0f aseed k (by omega)]
        simp
    | succ m ih =>
        intro k hk
        by_cases hlt : k < alg.length
        · have hI := ih (k + 1) (by omega)
          rw [adjSuffix_eq alg tape aseed _ sens0a k hlt,
            adjInSumFrom_eq alg tape aseed sens0a fseed k hlt,
            outSumFrom_eq alg tape fseed w0f sens0f aseed k hlt]
          rw [fwdPrefix_succ alg tape fseed w0f sens0f k hlt] at hI
          set A := (adjSuffix alg tape aseed (fun _ => 0) sens0a (k + 1)) with hA
          set F := (fwdPrefix alg tape fseed w0f sens0f k) with hF
          set el := instrAt alg k with hel
          rcases hop : el.op with _ | _ | _ | _ | u | b
          · -- constant
            have hr : el.res < W := ((hsb k hlt).2.1) (by rw [← hel, hop]; simp)
            rw [adjStep_const tape aseed k el A hop]
            rw [fwdStep_const tape fseed k el F hop] at hI
            show (∑ s ∈ Finset.range W, Function.update A.1 el.res 0 s * F.1 s) + _ = _
            rw [sum_mul_update_zero W A.1 F.1 el.res hr]
            have hI2 : (∑ s ∈ Finset.range W, A.1 s * Function.update F.1 el.res 0 s) +
                adjInSumFrom alg tape aseed sens0a fseed (k + 1) =
                outSumFrom alg tape fseed w0f sens0f aseed (k + 1) := hI
            rw [sum_update_snd W A.1 F.1 el.res hr 0] at hI2
            rw [if_neg (by simp), if_neg (by simp)]
            linarith [hI2]
          · -- input marker
            have hr : el.res < W := ((hsb k hlt).2.1) (by rw [← hel, hop]; simp)
            rw [adjStep_input tape aseed k el A hop]
            rw [fwdStep_input tape fseed k el F hop] at hI
            show (∑ s ∈ Finset.range W, Function.update A.1 el.res 0 s * F.1 s) + _ = _
            rw [sum_mul_update_zero W A.1 F.1 el.res hr]
            have hI2 : (∑ s ∈ Finset.range W,
                A.1 s * Function.update F.1 el.res (fseed (el.i0, el.i1)) s) +
                adjInSumFrom alg tape aseed sens0a fseed (k + 1) =
                outSumFrom alg tape fseed w0f sens0f aseed (k + 1) := hI
            rw [sum_update_snd W A.1 F.1 el.res hr (fseed (el.i0, el.i1))] at hI2
            rw [if_pos rfl, if_neg (by simp)]
            linarith [hI2]
          · -- output marker
            have ha : el.i0 < W := ((hsb k hlt).1) (by rw [← hel, hop])
            rw [adjStep_output tape aseed k el A hop]
            rw [fwdStep_output tape fseed k el F hop] at hI
            show (∑ s ∈ Finset.range W,
                Function.update A.1 el.i0 (A.1 el.i0 + aseed (el.res, el.i1)) s * F.1 s) +
                _ = _
            rw [sum_mul_update_add W A.1 F.1 el.i0 ha (aseed (el.res, el.i1))]
            have hI2 : (∑ s ∈ Finset.range W, A.1 s * F.1 s) +
                adjInSumFrom alg tape aseed sens0a fseed (k + 1) =
                outSumFrom alg tape fseed w0f sens0f aseed (k + 1) := hI
            rw [if_neg (by simp), if_pos rfl]
            linarith [hI2]
          · -- parameters cannot occur
            exact absurd hop (hnp el (hel ▸ instrAt_mem alg k hlt))
          · -- unary operation
            have hnode : el.op.isOpNode = true := by rw [hop]; rfl
            have hr : el.res < W := ((hsb k hlt).2.1) (by rw [← hel, hop]; simp)
            have ha0 : el.i0 < W := (((hsb k hlt).2.2) (by rw [← hel, hop]; rfl)).1
            have ha1 : el.i1 < W := (((hsb k hlt).2.2) (by rw [← hel, hop]; rfl)).2
            rw [adjStep_node tape aseed k el A hnode]
            rw [fwdStep_node tape fseed k el F hnode] at hI
            show (∑ s ∈ Finset.range W,
                Function.update
                  (Function.update (Function.update A.1 el.res 0) el.i0
                    (Function.update A.1 el.res 0 el.i0 + (tape k).1 * A.1 el.res)) el.i1
                  (Function.update (Function.update A.1 el.res 0) el.i0
                    (Function.update A.1 el.res 0 el.i0 + (tape k).1 * A.1 el.res) el.i1 +
                      (tape k).2 * A.1 el.res) s * F.1 s) + _ = _
            rw [sum_mul_update_add W _ F.1 el.i1 ha1 ((tape k).2 * A.1 el.res),
              sum_mul_update_add W _ F.1 el.i0 ha0 ((tape k).1 * A.1 el.res),
              sum_mul_update_zero W A.1 F.1 el.res hr]
            have hI2 : (∑ s ∈ Finset.range W, A.1 s *
                Function.update F.1 el.res ((tape k).1 * F.1 el.i0 + (tape k).2 * F.1 el.i1) s) +
                adjInSumFrom alg tape aseed sens0a fseed (k + 1) =
                outSumFrom alg tape fseed w0f sens0f aseed (k + 1) := hI
            rw [sum_update_snd W A.1 F.1 el.res hr] at hI2
            rw [if_neg (by simp), if_neg (by simp)]
            linarith [hI2]
          · -- binary operation
            have hnode : el.op.isOpNode = true := by rw [hop]; rfl
            have hr : el.res < W := ((hsb k hlt).2.1) (by rw [← hel, hop]; simp)
            have ha0 : el.i0 < W := (((hsb k hlt).2.2) (by rw [← hel, hop]; rfl)).1
            have ha1 : el.i1 < W := (((hsb k hlt).2.2) (by rw [← hel, hop]; rfl)).2
            rw [adjStep_node tape aseed k el A hnode]
            rw [fwdStep_node tape fseed k el F hnode] at hI
            show (∑ s ∈ Finset.range W,
                Function.update
                  (Function.update (Function.update A.1 el.res 0) el.i0
                    (Function.update A.1 el.res 0 el.i0 + (tape k).1 * A.1 el.res)) el.i1
                  (Function.update (Function.update A.1 el.res 0) el.i0
                    (Function.update A.1 el.res 0 el.i0 + (tape k).1 * A.1 el.res) el.i1 +
                      (tape k).2 * A.1 el.res) s * F.1 s) + _ = _
            rw [sum_mul_update_add W _ F.1 el.i1 ha1 ((tape k).2 * A.1 el.res),
              sum_mul_update_add W _ F.1 el.i0 ha0 ((tape k).1 * A.1 el.res),
              sum_mul_update_zero W A.1 F.1 el.res hr]
            have hI2 : (∑ s ∈ Finset.range W, A.1 s *
                Function.update F.1 el.res ((tape k).1 * F.1 el.i0 + (tape k).2 * F.1 el.i1) s) +
                adjInSumFrom alg tape aseed sens0a fseed (k + 1) =
                outSumFrom alg tape fseed w0f sens0f aseed (k + 1) := hI
            rw [sum_update_snd W A.1 F.1 el.res hr] at hI2
            rw [if_neg (by simp), if_neg (by simp)]
            linarith [hI2]
        · rw [adjSuffix_base alg tape aseed _ sens0a k (by omega),
            adjInSumFrom_base alg tape aseed sens0a fseed k (by omega),
            outSumFrom_base alg tape fseed w0f sens0f aseed k (by omega)]
          simp
  intro k
  exact main (alg.length - k) k (le_refl _)

theorem fwdStep_param (tape : Nat → ℚ × ℚ) (fseed : Nat × Nat → ℚ) (k : Nat) (el : AlgEl)
    (st : (Nat → ℚ) × (Nat × Nat → ℚ)) (h : el.op = .param) :
    fwdStep tape fseed st (k, el) =
      (Function.update st.1 el.res ((tape k).1 * st.1 el.i0 + (tape k).2 * st.1 el.i1),
        st.2) := by
  unfold fwdStep
  dsimp only
  rw [h]

theorem adjStep_param (tape : Nat → ℚ × ℚ) (aseed : Nat × Nat → ℚ) (k : Nat) (el : AlgEl)
    (st : (Nat → ℚ) × (Nat × Nat → ℚ)) (h : el.op = .param) :
    adjStep tape aseed (k, el) st =
      (Function.update
        (Function.update (Function.update st.1 el.res 0) el.i0
          (Function.update st.1 el.res 0 el.i0 + (tape k).1 * st.1 el.res)) el.i1
        (Function.update (Function.update st.1 el.res 0) el.i0
          (Function.update st.1 el.res 0 el.i0 + (tape k).1 * st.1 el.res) el.i1 +
            (tape k).2 * st.1 el.res), st.2) := by
  unfold adjStep
  dsimp only
  rw [h]

/-- The forward sweep writes the sensitivity buffer only at output markers,
at their own (output index, nonzero) position. -/
theorem fwdPrefix_sens_frame (alg : List AlgEl) (tape : Nat → ℚ × ℚ)
    (fseed : Nat × Nat → ℚ) (w0f : Nat → ℚ) (sens0f : Nat × Nat → ℚ) (m : Nat)
    (hm : m < alg.length) (p : Nat × Nat)
    (h : ¬((instrAt alg m).op = .output ∧
      ((instrAt alg m).res, (instrAt alg m).i1) = p)) :
    (fwdPrefix alg tape fseed w0f sens0f (m + 1)).2 p =
      (fwdPrefix alg tape fseed w0f sens0f m).2 p := by
  rw [fwdPrefix_succ alg tape fseed w0f sens0f m hm]
  set F := fwdPrefix alg tape fseed w0f sens0f m
  rcases hop : (instrAt alg m).op with _ | _ | _ | _ | u | b
  · rw [fwdStep_const tape fseed m _ F hop]
  · rw [fwdStep_input tape fseed m _ F hop]
  · rw [fwdStep_output tape fseed m _ F hop]
    show Function.update F.2 ((instrAt alg m).res, (instrAt alg m).i1) (F.1 (instrAt alg m).i0) p = F.2 p
    rw [Function.update_apply, if_neg]
    intro hp
    exact h ⟨hop, hp.symm⟩
  · rw [fwdStep_param tape fseed m _ F hop]
  · rw [fwdStep_node tape fseed m _ F (by rw [hop]; rfl)]
  · rw [fwdStep_node tape fseed m _ F (by rw [hop]; rfl)]

/-- Once an output marker has stored its forward sensitivity, no later
instruction overwrites it unless another output marker addresses the same
position. -/
theorem fwd_sens_stable (alg : List AlgEl) (tape : Nat → ℚ × ℚ)
    (fseed : Nat × Nat → ℚ) (w0f : Nat → ℚ) (sens0f : Nat × Nat → ℚ) (j : Nat) :
    ∀ m, j + 1 ≤ m → m ≤ alg.length →
      (∀ q, q < m → j < q → ¬((instrAt alg q).op = .output ∧
        (instrAt alg q).res = (instrAt alg j).res ∧
        (instrAt alg q).i1 = (instrAt alg j).i1)) →
      (fwdPrefix alg tape fseed w0f sens0f m).2 ((instrAt alg j).res, (instrAt alg j).i1) =
        (fwdPrefix alg tape fseed w0f sens0f (j + 1)).2
          ((instrAt alg j).res, (instrAt alg j).i1) := by
  intro m
  induction m with
  | zero => intro h1 _ _; omega
  | succ m ihm =>
      intro h1 h2 h3
      rcases Nat.lt_or_ge j m with hjm | hjm
      · rw [fwdPrefix_sens_frame alg tape fseed w0f sens0f m (by omega) _ ?_]
        · exact ihm (by omega) (by omega) (fun q hq hjq => h3 q (by omega) hjq)
        · intro ⟨ho, hp⟩
          exact h3 m (by omega) hjm ⟨ho, by injection hp with a b; exact ⟨a, b⟩⟩
      · have : j + 1 = m + 1 := by omega
        rw [this]

/-- Value stored by an output marker during the forward sweep. -/
theorem fwd_sens_at_output (alg : List AlgEl) (tape : Nat → ℚ × ℚ)
    (fseed : Nat × Nat → ℚ) (w0f : Nat → ℚ) (sens0f : Nat × Nat → ℚ) (j : Nat)
    (hj : j < alg.length) (hop : (instrAt alg j).op = .output) :
    (fwdPrefix alg tape fseed w0f sens0f (j + 1)).2
        ((instrAt alg j).res, (instrAt alg j).i1) =
      (fwdPrefix alg tape fseed w0f sens0f j).1 (instrAt alg j).i0 := by
  rw [fwdPrefix_succ alg tape fseed w0f sens0f j hj,
    fwdStep_output tape fseed j _ _ hop]
  exact Function.update_same _ _ _

/-- Final forward sensitivity at an output marker's position, given that
output positions are unique. -/
theorem fwd_sens_final (alg : List AlgEl) (tape : Nat → ℚ × ℚ)
    (fseed : Nat × Nat → ℚ) (w0f : Nat → ℚ) (sens0f : Nat × Nat → ℚ)
    (hout : OutPosNodup alg) (j : Nat) (hj : j < alg.length)
    (hop : (instrAt alg j).op = .output) :
    (fwdSweep alg tape fseed w0f sens0f).2 ((instrAt alg j).res, (instrAt alg j).i1) =
      (fwdPrefix alg tape fseed w0f sens0f j).1 (instrAt alg j).i0 := by
  unfold fwdSweep
  rw [fwd_sens_stable alg tape fseed w0f sens0f j alg.length (by omega) (le_refl _) ?_,
    fwd_sens_at_output alg tape fseed w0f sens0f j hj hop]
  intro q hq hjq ⟨ho, hres, hi1⟩
  have := hout j hj q hq ⟨hop, ho, hres.symm, hi1.symm⟩
  omega

/-- The adjoint sweep writes the sensitivity buffer only at input markers,
at their own (input index, nonzero) position. -/
theorem adjSuffix_sens_frame (alg : List AlgEl) (tape : Nat → ℚ × ℚ)
    (aseed : Nat × Nat → ℚ) (sens0a : Nat × Nat → ℚ) (m : Nat)
    (hm : m < alg.length) (p : Nat × Nat)
    (h : ¬((instrAt alg m).op = .input ∧
      ((instrAt alg m).i0, (instrAt alg m).i1) = p)) :
    (adjSuffix alg tape aseed (fun _ => 0) sens0a m).2 p =
      (adjSuffix alg tape aseed (fun _ => 0) sens0a (m + 1)).2 p := by
  rw [adjSuffix_eq alg tape aseed _ sens0a m hm]
  set A := adjSuffix alg tape aseed (fun _ => 0) sens0a (m + 1)
  rcases hop : (instrAt alg m).op with _ | _ | _ | _ | u | b
  · rw [adjStep_const tape aseed m _ A hop]
  · rw [adjStep_input tape aseed m _ A hop]
    show Function.update A.2 ((instrAt alg m).i0, (instrAt alg m).i1) (A.1 (instrAt alg m).res) p = A.2 p
    rw [Function.update_apply, if_neg]
    intro hp
    exact h ⟨hop, hp.symm⟩
  · rw [adjStep_output tape aseed m _ A hop]
  · rw [adjStep_param tape aseed m _ A hop]
  · rw [adjStep_node tape aseed m _ A (by rw [hop]; rfl)]
  · rw [adjStep_node tape aseed m _ A (by rw [hop]; rfl)]

/-- The adjoint sensitivity an input marker records stays in place through
the rest of the reverse sweep (instructions before the marker), given that
input positions are unique. -/
theorem adj_sens_stable (alg : List AlgEl) (tape : Nat → ℚ × ℚ)
    (aseed : Nat × Nat → ℚ) (sens0a : Nat × Nat → ℚ) (j : Nat) (hj : j < alg.length) :
    ∀ i k, k + i = j →
      (∀ q, q < j → k ≤ q → ¬((instrAt alg q).op = .input ∧
        (instrAt alg q).i0 = (instrAt alg j).i0 ∧
        (instrAt alg q).i1 = (instrAt alg j).i1)) →
      (adjSuffix alg tape aseed (fun _ => 0) sens0a k).2
          ((instrAt alg j).i0, (instrAt alg j).i1) =
        (adjSuffix alg tape aseed (fun _ => 0) sens0a j).2
          ((instrAt alg j).i0, (instrAt alg j).i1) := by
  intro i
  induction i with
  | zero =>
      intro k hk _
      rw [show k = j from by omega]
  | succ i ihi =>
      intro k hk h3
      rw [adjSuffix_sens_frame alg tape aseed sens0a k (by omega) _ ?_]
      · exact ihi (k + 1) (by omega) (fun q hq hkq => h3 q hq (by omega))
      · intro ⟨ho, hp⟩
        exact h3 k (by omega) (le_refl k) ⟨ho, by injection hp with a b; exact ⟨a, b⟩⟩

/-- Value recorded by an input marker during the adjoint sweep: the
accumulator contents just before the marker is processed. -/
theorem adj_sens_at_input (alg : List AlgEl) (tape : Nat → ℚ × ℚ)
    (aseed : Nat × Nat → ℚ) (sens0a : Nat × Nat → ℚ) (j : Nat)
    (hj : j < alg.length) (hop : (instrAt alg j).op = .input) :
    (adjSuffix alg tape aseed (fun _ => 0) sens0a j).2
        ((instrAt alg j).i0, (instrAt alg j).i1) =
      (adjSuffix alg tape aseed (fun _ => 0) sens0a (j + 1)).1 (instrAt alg j).res := by
  rw [adjSuffix_eq alg tape aseed _ sens0a j hj, adjStep_input tape aseed j _ _ hop]
  exact Function.update_same _ _ _

/-- Final adjoint sensitivity at an input marker's position. -/
theorem adj_sens_final (alg : List AlgEl) (tape : Nat → ℚ × ℚ)
    (aseed : Nat × Nat → ℚ) (sens0a : Nat × Nat → ℚ) (hin : InPosNodup alg)
    (j : Nat) (hj : j < alg.length) (hop : (instrAt alg j).op = .input) :
    (adjSweep alg tape aseed (fun _ => 0) sens0a).2
        ((instrAt alg j).i0, (instrAt alg j).i1) =
      (adjSuffix alg tape aseed (fun _ => 0) sens0a (j + 1)).1 (instrAt alg j).res := by
  unfold adjSweep
  rw [adj_sens_stable alg tape aseed sens0a j hj j 0 (by omega) ?_,
    adj_sens_at_input alg tape aseed sens0a j hj hop]
  intro q hq _ ⟨ho, hi0, hi1⟩
  have := hin j hj q (by omega) ⟨hop, ho, hi0.symm, hi1.symm⟩
  omega

/-- The adjoint-input partial sum as a finite sum over instruction
positions. -/
theorem adjInSumFrom_finset (alg : List AlgEl) (tape : Nat → ℚ × ℚ)
    (aseed sens0a fseed : Nat × Nat → ℚ) :
    ∀ i k, k + i = alg.length →
      adjInSumFrom alg tape aseed sens0a fseed k =
        ∑ j ∈ Finset.Ico k alg.length,
          (if (instrAt alg j).op = .input then
            (adjSuffix alg tape aseed (fun _ => 0) sens0a (j + 1)).1 (instrAt alg j).res *
              fseed ((instrAt alg j).i0, (instrAt alg j).i1)
          else 0) := by
  intro i
  induction i with
  | zero =>
      intro k hk
      rw [adjInSumFrom_base alg tape aseed sens0a fseed k (by omega),
        show Finset.Ico k alg.length = ∅ from by
          rw [Finset.Ico_eq_empty_iff]; omega]
      simp
  | succ i ihi =>
      intro k hk
      rw [adjInSumFrom_eq alg tape aseed sens0a fseed k (by omega),
        Finset.sum_eq_sum_Ico_succ_bot (by omega : k < alg.length), ihi (k + 1) (by omega)]

/-- The output partial sum as a finite sum over instruction positions. -/
theorem outSumFrom_finset (alg : List AlgEl) (tape : Nat → ℚ × ℚ)
    (fseed : Nat × Nat → ℚ) (w0f : Nat → ℚ) (sens0f aseed : Nat × Nat → ℚ) :
    ∀ i k, k + i = alg.length →
      outSumFrom alg tape fseed w0f sens0f aseed k =
        ∑ j ∈ Finset.Ico k alg.length,
          (if (instrAt alg j).op = .output then
            aseed ((instrAt alg j).res, (instrAt alg j).i1) *
              (fwdPrefix alg tape fseed w0f sens0f j).1 (instrAt alg j).i0
          else 0) := by
  intro i
  induction i with
  | zero =>
      intro k hk
      rw [outSumFrom_base alg tape fseed w0f sens0f aseed k (by omega),
        show Finset.Ico k alg.length = ∅ from by
          rw [Finset.Ico_eq_empty_iff]; omega]
      simp
  | succ i ihi =>
      intro k hk
      rw [outSumFrom_eq alg tape fseed w0f sens0f aseed k (by omega),
        Finset.sum_eq_sum_Ico_succ_bot (by omega : k < alg.length), ihi (k + 1) (by omega)]

/-- C3: forward/adjoint duality.  For every algorithm satisfying the
linearizer's invariants, every tape of local partials (shared by both
sweeps), every forward seed bundle and every adjoint seed bundle: the inner
product of the adjoint seed with the forward sensitivities (over the output
nonzeros the algorithm addresses) equals the inner product of the adjoint
sensitivities with the forward seed (over the input nonzeros).  The adjoint
sweep starts from the zero-filled accumulator vector; the forward sweep may
start from any work vector (it never reads a slot it has not written). -/
theorem c3_forward_adjoint_duality (alg : List AlgEl) (tape : Nat → ℚ × ℚ)
    (fseed aseed : Nat × Nat → ℚ) (w0f : Nat → ℚ) (sens0f sens0a : Nat × Nat → ℚ)
    (W : Nat) (htv : TopoValid alg) (huf : UnaryFix alg) (hnp : NoParams alg)
    (hsb : SlotBound alg W) (hout : OutPosNodup alg) (hin : InPosNodup alg) :
    innerOutput alg aseed (fwdSweep alg tape fseed w0f sens0f).2 =
      innerInput alg (adjSweep alg tape aseed (fun _ => 0) sens0a).2 fseed := by
  have hinv := duality_invariant alg tape fseed aseed w0f sens0f sens0a W hnp hsb 0
  have hzero : ∀ s, (adjSuffix alg tape aseed (fun _ => 0) sens0a 0).1 s = 0 :=
    fun s => adj_work_zero_from alg tape aseed sens0a htv huf hnp 0 s
      (fun ⟨j, hj, _, _⟩ => absurd hj (Nat.not_lt_zero j))
  have hzs : (∑ s ∈ Finset.range W,
      (adjSuffix alg tape aseed (fun _ => 0) sens0a 0).1 s *
        (fwdPrefix alg tape fseed w0f sens0f 0).1 s) = 0 := by
    apply Finset.sum_eq_zero
    intro s _
    rw [hzero s, zero_mul]
  rw [hzs, zero_add] at hinv
  have hO : innerOutput alg aseed (fwdSweep alg tape fseed w0f sens0f).2 =
      outSumFrom alg tape fseed w0f sens0f aseed 0 := by
    rw [outSumFrom_finset alg tape fseed w0f sens0f aseed alg.length 0 (by omega)]
    unfold innerOutput
    rw [Finset.sum_filter, Finset.range_eq_Ico]
    apply Finset.sum_congr rfl
    intro j hj
    by_cases hop : (instrAt alg j).op = AOp.output
    · rw [if_pos hop, if_pos hop,
        fwd_sens_final alg tape fseed w0f sens0f hout j (by
          have := Finset.mem_Ico.mp hj
          omega) hop]
    · rw [if_neg hop, if_neg hop]
  have hA : innerInput alg (adjSweep alg tape aseed (fun _ => 0) sens0a).2 fseed =
      adjInSumFrom alg tape aseed sens0a fseed 0 := by
    rw [adjInSumFrom_finset alg tape aseed sens0a fseed alg.length 0 (by omega)]
    unfold innerInput
    rw [Finset.sum_filter, Finset.range_eq_Ico]
    apply Finset.sum_congr rfl
    intro j hj
    by_cases hop : (instrAt alg j).op = AOp.input
    · rw [if_pos hop, if_pos hop,
        adj_sens_final alg tape aseed sens0a hin j (by
          have := Finset.mem_Ico.mp hj
          omega) hop]
    · rw [if_neg hop, if_neg hop]
  rw [hO, hA, hinv]

/-- Witness for C3 on the concrete `x*y + sin(x)` algorithm with a nonzero
tape, forward seed and adjoint seed. -/
theorem c3_forward_adjoint_duality_witness :
    (TopoValid algW ∧ UnaryFix algW ∧ NoParams algW ∧ SlotBound algW 2 ∧
      OutPosNodup algW ∧ InPosNodup algW) ∧
      innerOutput algW (fun p => (p.1 : ℚ) + 1)
          (fwdSweep algW (fun k => ((k : ℚ) + 1, 2)) (fun p => (p.2 : ℚ) + 3)
            (fun _ => 5) (fun _ => 7)).2 =
        innerInput algW
          (adjSweep algW (fun k => ((k : ℚ) + 1, 2)) (fun p => (p.1 : ℚ) + 1)
            (fun _ => 0) (fun _ => 11)).2 (fun p => (p.2 : ℚ) + 3) := by
  refine ⟨⟨by decide, by decide, by decide, by decide, by decide, by decide⟩, ?_⟩
  exact c3_forward_adjoint_duality algW (fun k => ((k : ℚ) + 1, 2))
    (fun p => (p.2 : ℚ) + 3) (fun p => (p.1 : ℚ) + 1) (fun _ => 5) (fun _ => 7)
    (fun _ => 11) 2 (by decide) (by decide) (by decide) (by decide) (by decide) (by decide)

theorem pickStep_marked (pool : List PNode) (marks : List Bool) (acc : Option Nat)
    (d : Nat) (h : marks.getD d false = true) : pickStep pool marks acc d = acc := by
  unfold pickStep
  rw [if_pos h]

theorem pickStep_of_none (pool : List PNode) (marks : List Bool) (d : Nat)
    (h : marks.getD d false = false) : pickStep pool marks none d = some d := by
  unfold pickStep
  rw [if_neg (by rw [h]; exact Bool.false_ne_true)]

theorem pickStep_some_lt (pool : List PNode) (marks : List Bool) (best d : Nat)
    (h : marks.getD d false = false) (hlt : ndepOf pool best < ndepOf pool d) :
    pickStep pool marks (some best) d = some d := by
  unfold pickStep
  rw [if_neg (by rw [h]; exact Bool.false_ne_true)]
  dsimp only
  rw [if_pos hlt]

theorem pickStep_some_ge (pool : List PNode) (marks : List Bool) (best d : Nat)
    (h : marks.getD d false = false) (hge : ¬ ndepOf pool best < ndepOf pool d) :
    pickStep pool marks (some best) d = some best := by
  unfold pickStep
  rw [if_neg (by rw [h]; exact Bool.false_ne_true)]
  dsimp only
  rw [if_neg hge]

/-- Running the selection loop from a candidate yields a final candidate
with at least as many direct dependencies. -/
theorem pick_dominates (pool : List PNode) (marks : List Bool) (l : List Nat) :
    ∀ b, ∃ d, List.foldl (pickStep pool marks) (some b) l = some d ∧
      ndepOf pool b ≤ ndepOf pool d := by
  induction l with
  | nil => intro b; exact ⟨b, rfl, le_refl _⟩
  | cons x l ih =>
      intro b
      rw [List.foldl_cons]
      by_cases hm : marks.getD x false = true
      · rw [pickStep_marked pool marks (some b) x hm]
        exact ih b
      · have hm' : marks.getD x false = false := Bool.eq_false_iff.mpr hm
        by_cases hlt : ndepOf pool b < ndepOf pool x
        · rw [pickStep_some_lt pool marks b x hm' hlt]
          obtain ⟨d, hd, hle⟩ := ih x
          exact ⟨d, hd, le_trans (le_of_lt hlt) hle⟩
        · rw [pickStep_some_ge pool marks b x hm' hlt]
          exact ih b

/-- The selection loop's result has at least as many direct dependencies as
every unmarked element of the remaining list. -/
theorem pick_mem_le (pool : List PNode) (marks : List Bool) (l : List Nat) :
    ∀ acc e, e ∈ l → marks.getD e false = false →
      ∃ d, List.foldl (pickStep pool marks) acc l = some d ∧
        ndepOf pool e ≤ ndepOf pool d := by
  induction l with
  | nil => intro acc e he; cases he
  | cons x l ih =>
      intro acc e hmem hunm
      rw [List.foldl_cons]
      rcases List.mem_cons.mp hmem with heq | hmem'
      · subst heq
        cases acc with
        | none =>
            rw [pickStep_of_none pool marks e hunm]
            exact pick_dominates pool marks l e
        | some best =>
            by_cases hlt : ndepOf pool best < ndepOf pool e
            · rw [pickStep_some_lt pool marks best e hunm hlt]
              exact pick_dominates pool marks l e
            · rw [pickStep_some_ge pool marks best e hunm hlt]
              obtain ⟨d, hd, hle⟩ := pick_dominates pool marks l best
              exact ⟨d, hd, le_trans (Nat.le_of_not_lt hlt) hle⟩
      · exact ih (pickStep pool marks acc x) e hmem' hunm

/-- Soundness of the selection loop: a returned candidate is the initial
one or an unmarked element of the list. -/
theorem pick_sound (pool : List PNode) (marks : List Bool) (l : List Nat) :
    ∀ acc d, List.foldl (pickStep pool marks) acc l = some d →
      acc = some d ∨ (d ∈ l ∧ marks.getD d false = false) := by
  induction l with
  | nil => intro acc d h; exact Or.inl h
  | cons x l ih =>
      intro acc d h
      rw [List.foldl_cons] at h
      rcases ih _ d h with hacc | ⟨hmem, hunm⟩
      · by_cases hm : marks.getD x false = true
        · rw [pickStep_marked pool marks acc x hm] at hacc
          exact Or.inl hacc
        · have hm' : marks.getD x false = false := Bool.eq_false_iff.mpr hm
          cases acc with
          | none =>
              rw [pickStep_of_none pool marks x hm'] at hacc
              injection hacc with hxd
              subst hxd
              exact Or.inr ⟨List.mem_cons_self x l, hm'⟩
          | some best =>
              by_cases hlt : ndepOf pool best < ndepOf pool x
              · rw [pickStep_some_lt pool marks best x hm' hlt] at hacc
                injection hacc with hxd
                subst hxd
                exact Or.inr ⟨List.mem_cons_self x l, hm'⟩
              · rw [pickStep_some_ge pool marks best x hm' hlt] at hacc
                exact Or.inl hacc
      · exact Or.inr ⟨List.mem_cons_of_mem x hmem, hunm⟩

/-- The selection loop returns `none` only from `none` and only when every
element of the list is marked. -/
theorem pick_none (pool : List PNode) (marks : List Bool) (l : List Nat) :
    ∀ acc, List.foldl (pickStep pool marks) acc l = none →
      acc = none ∧ ∀ d ∈ l, marks.getD d false = true := by
  induction l with
  | nil => intro acc h; exact ⟨h, fun d hd => absurd hd (List.not_mem_nil d)⟩
  | cons x l ih =>
      intro acc h
      rw [List.foldl_cons] at h
      obtain ⟨hstep, hall⟩ := ih _ h
      by_cases hm : marks.getD x false = true
      · rw [pickStep_marked pool marks acc x hm] at hstep
        refine ⟨hstep, fun d hd => ?_⟩
        rcases List.mem_cons.mp hd with heq | hmem
        · subst heq; exact hm
        · exact hall d hmem
      · exfalso
        have hm' : marks.getD x false = false := Bool.eq_false_iff.mpr hm
        cases acc with
        | none =>
            rw [pickStep_of_none pool marks x hm'] at hstep
            exact Option.noConfusion hstep
        | some best =>
            by_cases hlt : ndepOf pool best < ndepOf pool x
            · rw [pickStep_some_lt pool marks best x hm' hlt] at hstep
              exact Option.noConfusion hstep
            · rw [pickStep_some_ge pool marks best x hm' hlt] at hstep
              exact Option.noConfusion hstep

/-- One step of `visit` at an unscheduled node, expressed through
`pickDep`. -/
theorem visit_succ (pool : List PNode) (gas i : Nat)
    (st : List Bool × List (Option Nat)) :
    visit pool (gas + 1) i st =
      if st.1.getD i false then st
      else
        match pickDep pool st.1 i with
        | some d => visit pool gas i (visit pool gas d st)
        | none => (st.1.set i true, st.2 ++ [some i]) := rfl

/-- C6 (corrected): in the default depth-first linearization, at a node
with at least one not-yet-scheduled operand the traversal descends next
into the not-yet-scheduled operand with the most **direct** dependencies —
`sort_depth_first` compares `dep(i)->ndep()`, the immediate dependency
count, not the size of the transitive dependency cone as the specification
states (see the counterexample), taking the first operand on ties.  The
selected operand is an unscheduled operand of maximal direct dependency
count, the traversal recurses into exactly that operand (re-examining the
node afterwards), and no operand is selected only when all operands are
already scheduled. -/
theorem c6_dfs_descends_max_direct_ndep (pool : List PNode) (marks : List Bool)
    (i : Nat) :
    (∀ d, pickDep pool marks i = some d →
      d ∈ (nodeAt pool i).deps ∧ marks.getD d false = false ∧
        ∀ e ∈ (nodeAt pool i).deps, marks.getD e false = false →
          ndepOf pool e ≤ ndepOf pool d) ∧
    (pickDep pool marks i = none →
      ∀ d ∈ (nodeAt pool i).deps, marks.getD d false = true) ∧
    ∀ gas st d, st.1.getD i false = false → pickDep pool st.1 i = some d →
      visit pool (gas + 1) i st = visit pool gas i (visit pool gas d st) := by
  refine ⟨?_, ?_, ?_⟩
  · intro d hd
    unfold pickDep at hd
    rcases pick_sound pool marks _ none d hd with hacc | ⟨hmem, hunm⟩
    · exact Option.noConfusion hacc
    · refine ⟨hmem, hunm, ?_⟩
      intro e hemem heunm
      obtain ⟨d2, hd2, hle⟩ := pick_mem_le pool marks _ none e hemem heunm
      rw [hd] at hd2
      injection hd2 with hdd
      rw [hdd]
      exact hle
  · intro h d hd
    unfold pickDep at h
    exact (pick_none pool marks _ none h).2 d hd
  · intro gas st d hunm hpick
    rw [visit_succ pool gas i st,
      if_neg (by rw [hunm]; exact Bool.false_ne_true), hpick]

/-- Witness for C6 on `poolC6`: with nothing scheduled, the operand the
traversal selects at node 7 is operand 6, an unscheduled operand of maximal
direct dependency count. -/
theorem c6_dfs_descends_max_direct_ndep_witness :
    pickDep poolC6 (initMarks poolC6) 7 = some 6 ∧
      (6 ∈ (nodeAt poolC6 7).deps ∧ (initMarks poolC6).getD 6 false = false ∧
        ∀ e ∈ (nodeAt poolC6 7).deps, (initMarks poolC6).getD e false = false →
          ndepOf poolC6 e ≤ ndepOf poolC6 6) :=
  ⟨by decide, (c6_dfs_descends_max_direct_ndep poolC6 (initMarks poolC6) 7).1 6 (by decide)⟩

/-- C6 counterexample to the specification's wording: at node 7 of
`poolC6`, operand 3 has three transitive dependencies and operand 6 only
two, yet the code selects operand 6 (the one with more **direct**
dependencies) and the depth-first walk schedules node 6's cone before node
3's. -/
theorem c6_counterexample :
    pickDep poolC6 (initMarks poolC6) 7 = some 6 ∧
      pickDepTransitive poolC6 (initMarks poolC6) 7 = some 3 ∧
      transDepCount poolC6 6 < transDepCount poolC6 3 ∧
      (visit poolC6 (dfsGas poolC6) 7 (initMarks poolC6, [])).2 =
        [some 4, some 5, some 6, some 0, some 1, some 2, some 3, some 7] := by
  decide

theorem instrAt_set_ne (l : List AlgEl) (i k : Nat) (v : AlgEl) (h : k ≠ i) :
    instrAt (l.set i v) k = instrAt l k := by
  simp [instrAt, List.getD_eq_getElem?_getD, List.getElem?_set_ne (Ne.symm h)]

theorem instrAt_set_self (l : List AlgEl) (i : Nat) (v : AlgEl) (h : i < l.length) :
    instrAt (l.set i v) i = v := by
  simp [instrAt, List.getD_eq_getElem?_getD, List.getElem?_set_self, h]

theorem instrAt_append_left (l l' : List AlgEl) (k : Nat) (h : k < l.length) :
    instrAt (l ++ l') k = instrAt l k := by
  simp [instrAt, List.getD_eq_getElem?_getD, List.getElem?_append_left h]

theorem instrAt_concat_self (l : List AlgEl) (v : AlgEl) :
    instrAt (l ++ [v]) l.length = v := getD_concat_self l v nilEl

/-- The allocation step appends exactly one instruction, with the same
operation; for a single-dependency non-output instruction the appended
instruction's second operand equals its first. -/
theorem allocStep_alg (live : Bool) (st : AllocSt) (k : Nat) (el : AlgEl) :
    ∃ e, (allocStep live st (k, el)).alg = st.alg ++ [e] ∧ e.op = el.op ∧
      (el.op ≠ .output → el.op.ndeps = 1 → e.i1 = e.i0) := by
  unfold allocStep
  dsimp only
  by_cases hout : el.op = .output
  · rw [if_pos hout]
    exact ⟨_, rfl, rfl, fun h _ => absurd hout h⟩
  · rw [if_neg hout]
    refine ⟨_, rfl, rfl, ?_⟩
    intro _ h1
    show (if el.op.ndeps = 1 then _ else _) = _
    rw [if_pos h1]

/-- After `n` iterations of the allocation loop: one instruction per
processed position, operations preserved, and every single-dependency
non-output instruction has equal operand fields. -/
theorem allocSteps_succ (live : Bool) (alg : List AlgEl) (st0 : AllocSt) (n : Nat) :
    allocSteps live alg st0 (n + 1) =
      if n < alg.length then
        allocStep live (allocSteps live alg st0 n) (n, instrAt alg n)
      else allocSteps live alg st0 n := rfl

theorem allocSteps_alg_spec (live : Bool) (alg : List AlgEl) (st0 : AllocSt)
    (h0 : st0.alg = []) :
    ∀ n, (allocSteps live alg st0 n).alg.length = min n alg.length ∧
      ∀ k, k < min n alg.length →
        (instrAt (allocSteps live alg st0 n).alg k).op = (instrAt alg k).op ∧
        ((instrAt alg k).op ≠ .output → (instrAt alg k).op.ndeps = 1 →
          (instrAt (allocSteps live alg st0 n).alg k).i1 =
            (instrAt (allocSteps live alg st0 n).alg k).i0) := by
  intro n
  induction n with
  | zero => simp [allocSteps, h0]
  | succ n ih =>
      rw [allocSteps_succ]
      by_cases hn : n < alg.length
      · rw [if_pos hn]
        obtain ⟨e, he, hop, hi⟩ := allocStep_alg live (allocSteps live alg st0 n) n (instrAt alg n)
        have hlen : (allocSteps live alg st0 n).alg.length = n := by
          rw [ih.1]; omega
        constructor
        · rw [he, List.length_append, hlen]
          simp
          omega
        · intro k hk
          rcases Nat.lt_or_ge k n with hkn | hkn
          · rw [he, instrAt_append_left _ _ k (by omega)]
            exact ih.2 k (by omega)
          · have hkeq : k = n := by omega
            subst hkeq
            rw [he]
            have hhd : instrAt ((allocSteps live alg st0 k).alg ++ [e]) k = e := by
              nth_rewrite 2 [← hlen]
              exact instrAt_concat_self _ e
            rw [hhd]
            exact ⟨hop, hi⟩
      · rw [if_neg hn]
        have : min (n + 1) alg.length = min n alg.length := by omega
        rw [this]
        exact ih

/-- The input-marking loops preserve the instruction count and every result
slot, and only ever rewrite an instruction into an input marker. -/
theorem markInputs_instr (inputv : List (List Nat)) (alg : List AlgEl) (mark : Nat → Nat) :
    (markInputs inputv alg mark).1.length = alg.length ∧
      ∀ k, (instrAt (markInputs inputv alg mark).1 k).res = (instrAt alg k).res ∧
        (instrAt (markInputs inputv alg mark).1 k = instrAt alg k ∨
          (instrAt (markInputs inputv alg mark).1 k).op = .input) := by
  unfold markInputs
  generalize hl : inputPosList inputv = l
  clear hl
  suffices h : ∀ (l : List (Nat × Nat × Nat)) (st : List AlgEl × (Nat → Nat)),
      st.1.length = alg.length →
      (∀ k, (instrAt st.1 k).res = (instrAt alg k).res ∧
        (instrAt st.1 k = instrAt alg k ∨ (instrAt st.1 k).op = .input)) →
      (l.foldl markStep st).1.length = alg.length ∧
        ∀ k, (instrAt (l.foldl markStep st).1 k).res = (instrAt alg k).res ∧
          (instrAt (l.foldl markStep st).1 k = instrAt alg k ∨
            (instrAt (l.foldl markStep st).1 k).op = .input) by
    exact h l (alg, mark) rfl (fun k => ⟨rfl, Or.inl rfl⟩)
  intro l
  induction l with
  | nil => intro st h1 h2; exact ⟨h1, h2⟩
  | cons t l ih =>
      intro st h1 h2
      rw [List.foldl_cons]
      refine ih (markStep st t) ?_ ?_
      · unfold markStep
        dsimp only
        split_ifs with hm
        · simp [h1]
        · exact h1
      · intro k
        unfold markStep
        dsimp only
        split_ifs with hm
        · dsimp only
          by_cases hk : k = st.2 t.2.2 - 1
          · subst hk
            by_cases hrange : st.2 t.2.2 - 1 < st.1.length
            · rw [instrAt_set_self _ _ _ hrange]
              exact ⟨(h2 _).1, Or.inr rfl⟩
            · rw [List.set_eq_of_length_le (by omega)]
              exact h2 _
          · rw [instrAt_set_ne _ _ _ _ hk]
            exact h2 k
        · exact h2 k

/-- C10: after `SXFunctionInternal::init` completes, every instruction
whose operation has exactly one dependency and is not an output marker has
its second operand slot equal to its first (`arg.i[1] == arg.i[0]`, the
fixup at the end of the allocation loop), which lets the numeric forward
sweep evaluate `d0*w[i0] + d1*w[i1]` uniformly for unary and binary
operations. -/
theorem c10_unary_second_operand_copied (pool : List PNode)
    (inputv outputv : List (List Nat)) (live : Bool) :
    UnaryFix (sxInit pool inputv outputv live).alg := by
  intro k hk hnd hnout
  have hmk := markInputs_instr inputv
    (allocPass live (buildAlg pool (buildNodes pool inputv outputv).2 outputv)
      (buildNodes pool inputv outputv).2.length).alg
    (symbMark (buildAlg pool (buildNodes pool inputv outputv).2 outputv).symb)
  have halg : (sxInit pool inputv outputv live).alg =
      (markInputs inputv
        (allocPass live (buildAlg pool (buildNodes pool inputv outputv).2 outputv)
          (buildNodes pool inputv outputv).2.length).alg
        (symbMark (buildAlg pool (buildNodes pool inputv outputv).2 outputv).symb)).1 := rfl
  rw [halg] at hk hnd hnout ⊢
  rcases (hmk.2 k).2 with hsame | hinp
  · rw [hsame] at hnd hnout ⊢
    have hsp := allocSteps_alg_spec live
      (buildAlg pool (buildNodes pool inputv outputv).2 outputv).alg
      { alg := [],
        refcount := (buildAlg pool (buildNodes pool inputv outputv).2 outputv).refcount,
        place := List.replicate (buildNodes pool inputv outputv).2.length 0,
        unused := [], worksize := 0, trace := [] } rfl
      (buildAlg pool (buildNodes pool inputv outputv).2 outputv).alg.length
    have hk' : k < (buildAlg pool (buildNodes pool inputv outputv).2 outputv).alg.length := by
      have h1 := hmk.1
      have h2 : (allocPass live (buildAlg pool (buildNodes pool inputv outputv).2 outputv)
          (buildNodes pool inputv outputv).2.length).alg.length =
          min (buildAlg pool (buildNodes pool inputv outputv).2 outputv).alg.length
            (buildAlg pool (buildNodes pool inputv outputv).2 outputv).alg.length := hsp.1
      omega
    obtain ⟨hop, hfix⟩ := hsp.2 k (by omega)
    exact hfix (by rw [← hop]; exact hnout) (by rw [← hop]; exact hnd)
  · rw [hinp] at hnd
    exact absurd hnd (by simp [AOp.ndeps])

theorem getD_append_left_gen {α : Type} (l l' : List α) (k : Nat) (d : α)
    (h : k < l.length) : (l ++ l').getD k d = l.getD k d := by
  simp [List.getD_eq_getElem?_getD, List.getElem?_append_left h]

theorem optGetD_lt (l : List (Option Nat)) (t : Nat) (p : Nat)
    (h : l.getD t none = some p) : t < l.length := by
  by_contra hc
  rw [List.getD_eq_default _ _ (by omega)] at h
  exact Option.noConfusion h

theorem getD_set_ne_bool (l : List Bool) (i k : Nat) (v : Bool) (h : k ≠ i) :
    (l.set i v).getD k false = l.getD k false := by
  simp [List.getD_eq_getElem?_getD, List.getElem?_set_ne (Ne.symm h)]

theorem getD_set_self_bool (l : List Bool) (i : Nat) (v : Bool) (h : i < l.length) :
    (l.set i v).getD i false = v := by
  simp [List.getD_eq_getElem?_getD, List.getElem?_set_self, h]

theorem noneCount_append (l l' : List (Option Nat)) :
    noneCount (l ++ l') = noneCount l + noneCount l' := by
  simp [noneCount, List.filter_append]

theorem noneCount_concat_some (l : List (Option Nat)) (x : Nat) :
    noneCount (l ++ [some x]) = noneCount l := by
  simp [noneCount, List.filter_append, Option.isNone]

theorem noneCount_concat_none (l : List (Option Nat)) :
    noneCount (l ++ [none]) = noneCount l + 1 := by
  simp [noneCount, List.filter_append, Option.isNone]

theorem visit_marks_length (pool : List PNode) :
    ∀ gas i st, (visit pool gas i st).1.length = st.1.length := by
  intro gas
  induction gas with
  | zero => intro i st; rfl
  | succ gas ih =>
      intro i st
      rw [visit_succ]
      by_cases hm : st.1.getD i false = true
      · rw [if_pos hm]
      · rw [if_neg hm]
        rcases hp : pickDep pool st.1 i with _ | d
        · exact List.length_set st.1 i true
        · dsimp only
          rw [ih, ih]

theorem visit_marks_mono (pool : List PNode) :
    ∀ gas i st p, st.1.getD p false = true →
      (visit pool gas i st).1.getD p false = true := by
  intro gas
  induction gas with
  | zero => intro i st p h; exact h
  | succ gas ih =>
      intro i st p h
      rw [visit_succ]
      by_cases hm : st.1.getD i false = true
      · rw [if_pos hm]; exact h
      · rw [if_neg hm]
        rcases hp : pickDep pool st.1 i with _ | d
        · dsimp only
          by_cases hpi : p = i
          · subst hpi
            by_cases hi : p < st.1.length
            · rw [getD_set_self_bool _ _ _ hi]
            · rw [List.set_eq_of_length_le (by omega)]
              exact h
          · rw [getD_set_ne_bool _ _ _ _ hpi]
            exact h
        · dsimp only
          exact ih i _ p (ih d st p h)

theorem visit_order (pool : List PNode) :
    ∀ gas i st, ∃ tail, (visit pool gas i st).2 = st.2 ++ tail ∧ noneCount tail = 0 := by
  intro gas
  induction gas with
  | zero => intro i st; exact ⟨[], (List.append_nil st.2).symm, rfl⟩
  | succ gas ih =>
      intro i st
      rw [visit_succ]
      by_cases hm : st.1.getD i false = true
      · rw [if_pos hm]
        exact ⟨[], (List.append_nil st.2).symm, rfl⟩
      · rw [if_neg hm]
        rcases hp : pickDep pool st.1 i with _ | d
        · exact ⟨[some i], rfl, rfl⟩
        · obtain ⟨t1, h1, n1⟩ := ih d st
          obtain ⟨t2, h2, n2⟩ := ih i (visit pool gas d st)
          exact ⟨t1 ++ t2, by rw [h2, h1, List.append_assoc],
            by rw [noneCount_append, n1, n2]⟩

/-- The depth-first walk preserves the scheduling invariant. -/
theorem visit_inv (pool : List PNode) (hwf : PoolWF pool) :
    ∀ gas i st, i < pool.length → DfsInv pool st → DfsInv pool (visit pool gas i st) := by
  intro gas
  induction gas with
  | zero => intro i st _ h; exact h
  | succ gas ih =>
      intro i st hi hinv
      rw [visit_succ]
      by_cases hm : st.1.getD i false = true
      · rw [if_pos hm]; exact hinv
      · rw [if_neg hm]
        rcases hp : pickDep pool st.1 i with _ | d
        · obtain ⟨hlen, hmem, hent, hnd⟩ := hinv
          have hall : ∀ d ∈ (nodeAt pool i).deps, st.1.getD d false = true := by
            unfold pickDep at hp
            exact (pick_none pool st.1 _ none hp).2
          have hmarked : ∀ p, (st.1.set i true).getD p false = true →
              p = i ∨ st.1.getD p false = true := by
            intro p hp'
            by_cases hpi : p = i
            · exact Or.inl hpi
            · rw [getD_set_ne_bool _ _ _ _ hpi] at hp'
              exact Or.inr hp'
          have hmono : ∀ p, st.1.getD p false = true →
              (st.1.set i true).getD p false = true := by
            intro p hp'
            by_cases hpi : p = i
            · subst hpi
              by_cases hr : p < st.1.length
              · rw [getD_set_self_bool _ _ _ hr]
              · rw [List.set_eq_of_length_le (by omega)]
                exact hp'
            · rw [getD_set_ne_bool _ _ _ _ hpi]
              exact hp'
          have hnotin : ∀ t, ¬ st.2.getD t none = some i := by
            intro t hto
            exact hm (hent t i hto).1
          refine ⟨?_, ?_, ?_, ?_⟩
          · dsimp only
            rw [List.length_set]
            exact hlen
          · intro p hp'
            rcases hmarked p hp' with hpi | hold
            · subst hpi
              refine ⟨st.2.length, by simp [List.length_append], ?_⟩
              exact getD_concat_self st.2 (some p) none
            · obtain ⟨t, ht, hto⟩ := hmem p hold
              refine ⟨t, by simp [List.length_append]; omega, ?_⟩
              rw [getD_append_left_gen _ _ _ _ ht]
              exact hto
          · intro t p htp
            by_cases ht : t < st.2.length
            · rw [getD_append_left_gen _ _ _ _ ht] at htp
              obtain ⟨h1, h2, h3⟩ := hent t p htp
              refine ⟨hmono p h1, h2, ?_⟩
              intro d hd
              obtain ⟨t', ht', hto'⟩ := h3 d hd
              refine ⟨t', ht', ?_⟩
              rw [getD_append_left_gen _ _ _ _ (optGetD_lt _ _ _ hto')]
              exact hto'
            · have htlen : t < st.2.length + 1 := by
                have h1 := optGetD_lt _ t p htp
                rw [List.length_append] at h1
                simpa using h1
              have hteq : t = st.2.length := by omega
              subst hteq
              rw [getD_concat_self] at htp
              injection htp with hip
              subst hip
              refine ⟨?_, hi, ?_⟩
              · dsimp only
                by_cases hr : i < st.1.length
                · exact getD_set_self_bool _ _ _ hr
                · exact absurd (hlen ▸ hi) hr
              · intro d hd
                obtain ⟨t', ht', hto'⟩ := hmem d (hall d hd)
                refine ⟨t', ht', ?_⟩
                rw [getD_append_left_gen _ _ _ _ ht']
                exact hto'
          · intro t1 t2 p h1 h2
            have hb1 := optGetD_lt _ t1 p h1
            have hb2 := optGetD_lt _ t2 p h2
            rw [List.length_append] at hb1 hb2
            by_cases hc1 : t1 < st.2.length <;> by_cases hc2 : t2 < st.2.length
            · rw [getD_append_left_gen _ _ _ _ hc1] at h1
              rw [getD_append_left_gen _ _ _ _ hc2] at h2
              exact hnd t1 t2 p h1 h2
            · have ht2 : t2 = st.2.length := by simp at hb2; omega
              subst ht2
              rw [getD_concat_self] at h2
              injection h2 with hip
              subst hip
              rw [getD_append_left_gen _ _ _ _ hc1] at h1
              exact absurd h1 (hnotin t1)
            · have ht1 : t1 = st.2.length := by simp at hb1; omega
              subst ht1
              rw [getD_concat_self] at h1
              injection h1 with hip
              subst hip
              rw [getD_append_left_gen _ _ _ _ hc2] at h2
              exact absurd h2 (hnotin t2)
            · have ht1 : t1 = st.2.length := by simp at hb1; omega
              have ht2 : t2 = st.2.length := by simp at hb2; omega
              rw [ht1, ht2]
        · have hdinfo := pick_sound pool st.1 _ none d
            (by unfold pickDep at hp; exact hp)
          rcases hdinfo with habs | ⟨hdm, hdu⟩
          · exact Option.noConfusion habs
          · have hdi : d < i := (hwf i hi).2.2 d hdm
            exact ih i (visit pool gas d st) hi (ih d st (by omega) hinv)

theorem unmarkedCount_mono_idx (marks : List Bool) (d i : Nat) (hdi : d ≤ i) :
    unmarkedCount marks d ≤ unmarkedCount marks i := by
  unfold unmarkedCount
  apply Finset.card_le_card
  intro x hx
  rw [Finset.mem_filter] at hx ⊢
  exact ⟨Finset.mem_range.mpr (by have := Finset.mem_range.mp hx.1; omega), hx.2⟩

theorem unmarkedCount_lt_idx (marks : List Bool) (d i : Nat) (hdi : d < i)
    (hiu : marks.getD i false = false) :
    unmarkedCount marks d < unmarkedCount marks i := by
  unfold unmarkedCount
  have hsub : (Finset.range (d + 1)).filter (fun p => marks.getD p false = false) ⊆
      ((Finset.range (i + 1)).filter (fun p => marks.getD p false = false)).erase i := by
    intro x hx
    rw [Finset.mem_filter] at hx
    rw [Finset.mem_erase, Finset.mem_filter]
    have hxd := Finset.mem_range.mp hx.1
    exact ⟨by omega, Finset.mem_range.mpr (by omega), hx.2⟩
  have hmem : i ∈ (Finset.range (i + 1)).filter (fun p => marks.getD p false = false) := by
    rw [Finset.mem_filter]
    exact ⟨Finset.mem_range.mpr (by omega), hiu⟩
  calc ((Finset.range (d + 1)).filter (fun p => marks.getD p false = false)).card
      ≤ (((Finset.range (i + 1)).filter (fun p => marks.getD p false = false)).erase i).card :=
        Finset.card_le_card hsub
    _ < ((Finset.range (i + 1)).filter (fun p => marks.getD p false = false)).card := by
        rw [Finset.card_erase_of_mem hmem]
        have := Finset.card_pos.mpr ⟨i, hmem⟩
        omega

theorem unmarkedCount_lt_mark (marks marks' : List Bool) (d i : Nat) (hdi : d ≤ i)
    (hmono : ∀ p, marks.getD p false = true → marks'.getD p false = true)
    (hdu : marks.getD d false = false) (hdm : marks'.getD d false = true) :
    unmarkedCount marks' i < unmarkedCount marks i := by
  unfold unmarkedCount
  have hsub : (Finset.range (i + 1)).filter (fun p => marks'.getD p false = false) ⊆
      ((Finset.range (i + 1)).filter (fun p => marks.getD p false = false)).erase d := by
    intro x hx
    rw [Finset.mem_filter] at hx
    rw [Finset.mem_erase, Finset.mem_filter]
    refine ⟨?_, hx.1, ?_⟩
    · intro hxd
      subst hxd
      rw [hdm] at hx
      exact Bool.noConfusion hx.2
    · rcases hu : marks.getD x false with _ | _
      · rfl
      · rw [hmono x hu] at hx
        exact Bool.noConfusion hx.2
  have hmem : d ∈ (Finset.range (i + 1)).filter (fun p => marks.getD p false = false) := by
    rw [Finset.mem_filter]
    exact ⟨Finset.mem_range.mpr (by omega), hdu⟩
  calc ((Finset.range (i + 1)).filter (fun p => marks'.getD p false = false)).card
      ≤ (((Finset.range (i + 1)).filter (fun p => marks.getD p false = false)).erase d).card :=
        Finset.card_le_card hsub
    _ < ((Finset.range (i + 1)).filter (fun p => marks.getD p false = false)).card := by
        rw [Finset.card_erase_of_mem hmem]
        have := Finset.card_pos.mpr ⟨d, hmem⟩
        omega

/-- Adequacy of the gas bound: the depth-first walk marks its target
whenever the gas exceeds twice the number of unmarked nodes up to the
target. -/
theorem visit_marks (pool : List PNode) (hwf : PoolWF pool) :
    ∀ gas i st, i < pool.length → st.1.length = pool.length →
      2 * unmarkedCount st.1 i + 1 ≤ gas →
      (visit pool gas i st).1.getD i false = true := by
  intro gas
  induction gas with
  | zero => intro i st _ _ hg; omega
  | succ gas ih =>
      intro i st hi hlen hg
      rw [visit_succ]
      by_cases hm : st.1.getD i false = true
      · rw [if_pos hm]; exact hm
      · rw [if_neg hm]
        have hmf : st.1.getD i false = false := Bool.eq_false_iff.mpr hm
        rcases hp : pickDep pool st.1 i with _ | d
        · dsimp only
          exact getD_set_self_bool _ _ _ (by omega)
        · have hdinfo := pick_sound pool st.1 _ none d
            (by unfold pickDep at hp; exact hp)
          rcases hdinfo with habs | ⟨hdm, hdu⟩
          · exact Option.noConfusion habs
          · have hdi : d < i := (hwf i hi).2.2 d hdm
            have hud : unmarkedCount st.1 d < unmarkedCount st.1 i :=
              unmarkedCount_lt_idx st.1 d i hdi hmf
            have hmarkd : (visit pool gas d st).1.getD d false = true :=
              ih d st (by omega) hlen (by omega)
            have hu' : unmarkedCount (visit pool gas d st).1 i < unmarkedCount st.1 i :=
              unmarkedCount_lt_mark st.1 (visit pool gas d st).1 d i (by omega)
                (fun p hp' => visit_marks_mono pool gas d st p hp') hdu hmarkd
            exact ih i (visit pool gas d st) hi
              ((visit_marks_length pool gas d st).trans hlen) (by omega)

theorem unmarkedCount_le (marks : List Bool) (i : Nat) :
    unmarkedCount marks i ≤ i + 1 := by
  unfold unmarkedCount
  calc ((Finset.range (i + 1)).filter (fun p => marks.getD p false = false)).card
      ≤ (Finset.range (i + 1)).card := Finset.card_le_card (Finset.filter_subset _ _)
    _ = i + 1 := Finset.card_range (i + 1)

theorem getD_append_right_gen {α : Type} (l l' : List α) (k : Nat) (d : α)
    (h : l.length ≤ k) : (l ++ l').getD k d = l'.getD (k - l.length) d := by
  rw [List.getD_append_right _ _ _ _ h]

theorem noneCount_zero_no_none (l : List (Option Nat)) (h : noneCount l = 0) :
    ∀ j, j < l.length → l.getD j none ≠ none := by
  intro j hj hn
  have hmem : (none : Option Nat) ∈ l := by
    rw [List.getD_eq_getElem l none hj] at hn
    exact hn ▸ List.getElem_mem hj
  have : (none : Option Nat) ∈ l.filter (fun o => o.isNone) :=
    List.mem_filter.mpr ⟨hmem, rfl⟩
  rw [List.eq_nil_of_length_eq_zero h] at this
  exact List.not_mem_nil _ this

theorem getD_replicate_false (n p : Nat) :
    (List.replicate n false).getD p false = false := by
  rcases Nat.lt_or_ge p n with h | h
  · simp [List.getD_eq_getElem?_getD, List.getElem?_replicate, h]
  · rw [List.getD_eq_default _ _ (by simpa using h)]

theorem dfsInv_init (pool : List PNode) : DfsInv pool (initMarks pool, []) := by
  refine ⟨by simp [initMarks], ?_, ?_, ?_⟩
  · intro p hp
    rw [show ((initMarks pool, ([] : List (Option Nat))).1 : List Bool) =
      List.replicate pool.length false from rfl, getD_replicate_false] at hp
    exact Bool.noConfusion hp
  · intro t p htp
    exact absurd htp (by simp [List.getD])
  · intro t1 t2 p h1 _
    exact absurd h1 (by simp [List.getD])

theorem dfsInv_append_none (pool : List PNode) (st : List Bool × List (Option Nat))
    (h : DfsInv pool st) : DfsInv pool (st.1, st.2 ++ [none]) := by
  obtain ⟨hlen, hmem, hent, hnd⟩ := h
  have hside : ∀ t p, (st.2 ++ [none]).getD t none = some p → t < st.2.length ∧
      st.2.getD t none = some p := by
    intro t p htp
    by_cases ht : t < st.2.length
    · rw [getD_append_left_gen _ _ _ _ ht] at htp
      exact ⟨ht, htp⟩
    · exfalso
      have hb := optGetD_lt _ t p htp
      rw [List.length_append] at hb
      have hteq : t = st.2.length := by simp at hb; omega
      subst hteq
      rw [getD_concat_self] at htp
      exact Option.noConfusion htp
  refine ⟨hlen, ?_, ?_, ?_⟩
  · intro p hp
    obtain ⟨t, ht, hto⟩ := hmem p hp
    refine ⟨t, by simp [List.length_append]; omega, ?_⟩
    rw [getD_append_left_gen _ _ _ _ ht]
    exact hto
  · intro t p htp
    obtain ⟨ht, hto⟩ := hside t p htp
    obtain ⟨h1, h2, h3⟩ := hent t p hto
    refine ⟨h1, h2, ?_⟩
    intro d hd
    obtain ⟨t', ht', hto'⟩ := h3 d hd
    refine ⟨t', ht', ?_⟩
    rw [getD_append_left_gen _ _ _ _ (optGetD_lt _ _ _ hto')]
    exact hto'
  · intro t1 t2 p h1 h2
    exact hnd t1 t2 p (hside t1 p h1).2 (hside t2 p h2).2

/-- Invariant of phase one of node collection: after any prefix of the
output nonzeros, the scheduling invariant holds, there is one separator per
processed nonzero, and each separator is preceded by an occurrence of its
nonzero's entry node. -/
theorem phase1_spec (pool : List PNode) (hwf : PoolWF pool) (flat : List Nat)
    (hout : ∀ nid ∈ flat, nid < pool.length) :
    ∀ pre suf, flat = pre ++ suf →
      DfsInv pool (pre.foldl (dfsOutStep pool) (initMarks pool, [])) ∧
      noneCount (pre.foldl (dfsOutStep pool) (initMarks pool, [])).2 = pre.length ∧
      SepOK (pre.foldl (dfsOutStep pool) (initMarks pool, [])).2 flat := by
  intro pre
  induction pre using List.reverseRecOn with
  | nil =>
      intro suf hps
      refine ⟨dfsInv_init pool, rfl, ?_⟩
      intro k hk _
      exact absurd hk (by simp)
  | append_singleton pre x ihp =>
      intro suf hps
      obtain ⟨hinv, hcount, hsep⟩ := ihp (x :: suf) (by rw [hps, List.append_assoc]; rfl)
      set st := pre.foldl (dfsOutStep pool) (initMarks pool, []) with hst
      have hfold : (pre ++ [x]).foldl (dfsOutStep pool) (initMarks pool, []) =
          dfsOutStep pool st x := by
        rw [List.foldl_append, List.foldl_cons, List.foldl_nil]
      rw [hfold]
      have hx : x < pool.length := hout x (by rw [hps]; exact List.mem_append_left _ (List.mem_append_right _ (List.mem_cons_self x [])))
      set st' := visit pool (dfsGas pool) x st with hst'
      have hinv' : DfsInv pool st' := visit_inv pool hwf (dfsGas pool) x st hx hinv
      have hxm : st'.1.getD x false = true := by
        apply visit_marks pool hwf (dfsGas pool) x st hx hinv.1
        have h1 := unmarkedCount_le st.1 x
        unfold dfsGas
        omega
      obtain ⟨tail, htail, hntail⟩ := visit_order pool (dfsGas pool) x st
      have hstep : dfsOutStep pool st x = (st'.1, st'.2 ++ [none]) := rfl
      rw [hstep]
      refine ⟨dfsInv_append_none pool st' hinv', ?_, ?_⟩
      · rw [List.length_append]
        show noneCount (st'.2 ++ [none]) = pre.length + 1
        rw [noneCount_concat_none, htail, noneCount_append, hntail, hcount]
      · intro k hk hknone
        rw [List.length_append] at hk
        simp at hk
        by_cases hkold : k < st.2.length
        · have hks : (st'.2 ++ [none]).getD k none = st.2.getD k none := by
            rw [getD_append_left_gen _ _ _ _ (by rw [htail, List.length_append]; omega),
              htail, getD_append_left_gen _ _ _ _ hkold]
          rw [hks] at hknone
          obtain ⟨t, ht, hto⟩ := hsep k hkold hknone
          have htake : (st'.2 ++ [none]).take k = st.2.take k := by
            rw [List.take_append_of_le_length (by rw [htail, List.length_append]; omega),
              htail, List.take_append_of_le_length (by omega)]
          rw [htake]
          refine ⟨t, ht, ?_⟩
          rw [getD_append_left_gen _ _ _ _ (by rw [htail, List.length_append]; omega),
            htail, getD_append_left_gen _ _ _ _ (by omega)]
          exact hto
        · by_cases hkmid : k < st'.2.length
          · exfalso
            have hks : (st'.2 ++ [none]).getD k none = tail.getD (k - st.2.length) none := by
              rw [getD_append_left_gen _ _ _ _ hkmid, htail,
                getD_append_right_gen _ _ _ _ (by omega)]
            rw [hks] at hknone
            refine noneCount_zero_no_none tail hntail (k - st.2.length) ?_ hknone
            rw [htail, List.length_append] at hkmid
            omega
          · have hkeq : k = st'.2.length := by omega
            subst hkeq
            have htake : (st'.2 ++ [none]).take st'.2.length = st'.2 := List.take_left _ _
            rw [htake]
            have hcnt : noneCount st'.2 = pre.length := by
              rw [htail, noneCount_append, hntail, hcount]
              omega
            rw [hcnt]
            have hflat : flat.getD pre.length 0 = x := by
              rw [hps, List.append_assoc, getD_append_right_gen _ _ _ _ (le_refl _),
                Nat.sub_self]
              rfl
            rw [hflat]
            obtain ⟨t, ht, hto⟩ := hinv'.2.1 x hxm
            refine ⟨t, ht, ?_⟩
            rw [getD_append_left_gen _ _ _ _ ht]
            exact hto

/-- Invariant of phase two of node collection: the marks never change, and
the appended tail consists of distinct, unmarked declared input entries. -/
theorem phase2_spec (stF : List Bool × List (Option Nat)) (iflat : List Nat)
    (hnd : iflat.Nodup) :
    ∀ pre suf, iflat = pre ++ suf →
      (pre.foldl inpStep stF).1 = stF.1 ∧
      ∃ extra, (pre.foldl inpStep stF).2 = stF.2 ++ extra ∧ noneCount extra = 0 ∧
        (∀ t p, extra.getD t none = some p → p ∈ pre ∧ stF.1.getD p false = false) ∧
        (∀ t1 t2 p, extra.getD t1 none = some p → extra.getD t2 none = some p →
          t1 = t2) := by
  intro pre
  induction pre using List.reverseRecOn with
  | nil =>
      intro suf hps
      refine ⟨rfl, [], (List.append_nil stF.2).symm, rfl, ?_, ?_⟩
      · intro t p htp
        exact absurd htp (by simp [List.getD])
      · intro t1 t2 p h1 _
        exact absurd h1 (by simp [List.getD])
  | append_singleton pre x ihp =>
      intro suf hps
      obtain ⟨hm, extra, hex, hnc, hentry, hednd⟩ :=
        ihp (x :: suf) (by rw [hps, List.append_assoc]; rfl)
      have hxpre : x ∉ pre := by
        have h1 : (pre ++ x :: suf).Nodup := by
          have h2 := hps ▸ hnd
          rw [List.append_assoc] at h2
          exact h2
        intro hmem
        exact (List.nodup_append.mp h1).2.2 hmem (List.mem_cons_self x suf)
      have hfold : (pre ++ [x]).foldl inpStep stF = inpStep (pre.foldl inpStep stF) x := by
        rw [List.foldl_append, List.foldl_cons, List.foldl_nil]
      rw [hfold]
      set st := pre.foldl inpStep stF with hst
      unfold inpStep
      by_cases hxm : st.1.getD x false = true
      · rw [if_pos hxm]
        refine ⟨hm, extra, hex, hnc, ?_, hednd⟩
        intro t p htp
        obtain ⟨h1, h2⟩ := hentry t p htp
        exact ⟨List.mem_append_left _ h1, h2⟩
      · rw [if_neg hxm]
        have hxu : stF.1.getD x false = false := by
          rw [hm] at hxm
          exact Bool.eq_false_iff.mpr hxm
        have hxextra : ∀ t, ¬ extra.getD t none = some x := by
          intro t hto
          exact hxpre (hentry t x hto).1
        refine ⟨hm, extra ++ [some x], ?_, ?_, ?_, ?_⟩
        · show st.2 ++ [some x] = _
          rw [hex, List.append_assoc]
        · rw [noneCount_concat_some]
          exact hnc
        · intro t p htp
          by_cases ht : t < extra.length
          · rw [getD_append_left_gen _ _ _ _ ht] at htp
            obtain ⟨h1, h2⟩ := hentry t p htp
            exact ⟨List.mem_append_left _ h1, h2⟩
          · have hb := optGetD_lt _ t p htp
            rw [List.length_append] at hb
            have hteq : t = extra.length := by simp at hb; omega
            subst hteq
            rw [getD_concat_self] at htp
            injection htp with hip
            subst hip
            exact ⟨List.mem_append_right _ (List.mem_cons_self _ _), hxu⟩
        · intro t1 t2 p h1 h2
          have hb1 := optGetD_lt _ t1 p h1
          have hb2 := optGetD_lt _ t2 p h2
          rw [List.length_append] at hb1 hb2
          by_cases hc1 : t1 < extra.length <;> by_cases hc2 : t2 < extra.length
          · rw [getD_append_left_gen _ _ _ _ hc1] at h1
            rw [getD_append_left_gen _ _ _ _ hc2] at h2
            exact hednd t1 t2 p h1 h2
          · have ht2 : t2 = extra.length := by simp at hb2; omega
            subst ht2
            rw [getD_concat_self] at h2
            injection h2 with hip
            subst hip
            rw [getD_append_left_gen _ _ _ _ hc1] at h1
            exact absurd h1 (hxextra t1)
          · have ht1 : t1 = extra.length := by simp at hb1; omega
            subst ht1
            rw [getD_concat_self] at h1
            injection h1 with hip
            subst hip
            rw [getD_append_left_gen _ _ _ _ hc2] at h2
            exact absurd h2 (hxextra t2)
          · have ht1 : t1 = extra.length := by simp at hb1; omega
            have ht2 : t2 = extra.length := by simp at hb2; omega
            rw [ht1, ht2]

/-- Well-formedness of the sorted node list produced by node collection:
no node scheduled twice, dependencies scheduled strictly earlier, all
entries pool nodes, each separator preceded by its output entry, and one
separator per output nonzero. -/
theorem buildNodes_wf (pool : List PNode) (inputv outputv : List (List Nat))
    (hwf : PoolWF pool) (hin : InputsWF pool inputv) (hout : OutputsWF pool outputv) :
    SomesNodup (buildNodes pool inputv outputv).2 ∧
    DepsBefore pool (buildNodes pool inputv outputv).2 ∧
    EntriesLt pool (buildNodes pool inputv outputv).2 ∧
    SepOK (buildNodes pool inputv outputv).2 outputv.flatten ∧
    noneCount (buildNodes pool inputv outputv).2 = outputv.flatten.length := by
  obtain ⟨hinvF, hcountF, hsepF⟩ := phase1_spec pool hwf outputv.flatten hout
    outputv.flatten [] (List.append_nil _).symm
  obtain ⟨hmF, extra, hex, hnc, hentry, hednd⟩ :=
    phase2_spec (outputv.flatten.foldl (dfsOutStep pool) (initMarks pool, []))
      inputv.flatten hin.2 inputv.flatten [] (List.append_nil _).symm
  set stF := outputv.flatten.foldl (dfsOutStep pool) (initMarks pool, []) with hstF
  have hN : (buildNodes pool inputv outputv).2 = stF.2 ++ extra := hex
  have hsplit : ∀ t p, (stF.2 ++ extra).getD t none = some p →
      (t < stF.2.length ∧ stF.2.getD t none = some p) ∨
      (stF.2.length ≤ t ∧ extra.getD (t - stF.2.length) none = some p) := by
    intro t p htp
    by_cases ht : t < stF.2.length
    · rw [getD_append_left_gen _ _ _ _ ht] at htp
      exact Or.inl ⟨ht, htp⟩
    · rw [getD_append_right_gen _ _ _ _ (by omega)] at htp
      exact Or.inr ⟨by omega, htp⟩
  refine ⟨?_, ?_, ?_, ?_, ?_⟩
  · intro t1 t2 p h1 h2
    rw [hN] at h1 h2
    rcases hsplit t1 p h1 with ⟨hc1, ho1⟩ | ⟨hc1, ho1⟩ <;>
      rcases hsplit t2 p h2 with ⟨hc2, ho2⟩ | ⟨hc2, ho2⟩
    · exact hinvF.2.2.2 t1 t2 p ho1 ho2
    · exact absurd (hinvF.2.2.1 t1 p ho1).1 (by rw [(hentry _ p ho2).2]; exact Bool.noConfusion)
    · exact absurd (hinvF.2.2.1 t2 p ho2).1 (by rw [(hentry _ p ho1).2]; exact Bool.noConfusion)
    · have := hednd (t1 - stF.2.length) (t2 - stF.2.length) p ho1 ho2
      omega
  · intro t p htp d hd
    rw [hN] at htp
    rcases hsplit t p htp with ⟨hc, ho⟩ | ⟨hc, ho⟩
    · obtain ⟨t', ht', hto'⟩ := (hinvF.2.2.1 t p ho).2.2 d hd
      refine ⟨t', ht', ?_⟩
      rw [hN, getD_append_left_gen _ _ _ _ (optGetD_lt _ _ _ hto')]
      exact hto'
    · exfalso
      have hpmem := (hentry _ p ho).1
      have hparam := (hin.1 p hpmem).2
      have hdeps := (hwf p (hin.1 p hpmem).1).2.1
      rw [hparam] at hdeps
      rw [List.eq_nil_of_length_eq_zero hdeps] at hd
      exact List.not_mem_nil d hd
  · intro t p htp
    rw [hN] at htp
    rcases hsplit t p htp with ⟨hc, ho⟩ | ⟨hc, ho⟩
    · exact (hinvF.2.2.1 t p ho).2.1
    · exact (hin.1 p (hentry _ p ho).1).1
  · intro k hk hknone
    rw [hN] at hknone
    have hkF : k < stF.2.length := by
      by_contra hc
      rw [getD_append_right_gen _ _ _ _ (by omega)] at hknone
      have hklen : k - stF.2.length < extra.length := by
        rw [hN, List.length_append] at hk
        omega
      exact noneCount_zero_no_none extra hnc _ hklen hknone
    rw [getD_append_left_gen _ _ _ _ hkF] at hknone
    obtain ⟨t, ht, hto⟩ := hsepF k hkF hknone
    have htake : (buildNodes pool inputv outputv).2.take k = stF.2.take k := by
      rw [hN, List.take_append_of_le_length (by omega)]
    rw [htake]
    refine ⟨t, ht, ?_⟩
    rw [hN, getD_append_left_gen _ _ _ _ (by omega)]
    exact hto
  · rw [hN, noneCount_append, hnc, hcountF]
    omega

theorem outPosFrom_nil (outputv : List (List Nat)) (oind nz : Nat)
    (h : outputv.length ≤ oind) : outPosFrom outputv oind nz = [] := by
  unfold outPosFrom
  rw [show outputv.length - oind = 0 from by omega]
  rfl

theorem outPosGo_succ (outputv : List (List Nat)) (g oind nz : Nat) :
    outPosGo outputv (g + 1) oind nz =
      if oind < outputv.length then
        ((outputv.getD oind []).enum.drop nz).map (fun p => (oind, p.1, p.2)) ++
          outPosGo outputv g (oind + 1) 0
      else [] := rfl

theorem outPosFrom_cons (outputv : List (List Nat)) (oind nz : Nat)
    (ho : oind < outputv.length) (hn : nz < (outputv.getD oind []).length) :
    outPosFrom outputv oind nz =
      (oind, nz, (outputv.getD oind []).getD nz 0) :: outPosFrom outputv oind (nz + 1) := by
  unfold outPosFrom
  have hg : outputv.length - oind = (outputv.length - (oind + 1)) + 1 := by omega
  rw [hg]
  have hdrop : (outputv.getD oind []).enum.drop nz =
      (nz, (outputv.getD oind []).getD nz 0) :: (outputv.getD oind []).enum.drop (nz + 1) := by
    have hb : nz < (outputv.getD oind []).enum.length := by simpa using hn
    rw [List.drop_eq_getElem_cons hb]
    have h1 : (outputv.getD oind []).enum[nz] =
        (nz, (outputv.getD oind []).getD nz 0) := by
      rw [List.getD_eq_getElem _ _ hn]
      exact List.getElem_enum _ _ _
    rw [h1]
  rw [outPosGo_succ, outPosGo_succ, if_pos ho, if_pos ho, hdrop, List.map_cons,
    List.cons_append]

theorem outPosFrom_row_done (outputv : List (List Nat)) (oind nz : Nat)
    (ho : oind < outputv.length) (hn : (outputv.getD oind []).length ≤ nz) :
    outPosFrom outputv oind nz = outPosFrom outputv (oind + 1) 0 := by
  unfold outPosFrom
  have hg : outputv.length - oind = (outputv.length - (oind + 1)) + 1 := by omega
  rw [hg, outPosGo_succ, if_pos ho, List.drop_eq_nil_of_le (by simpa using hn),
    List.map_nil, List.nil_append]

theorem drop_getD_cons (outputv : List (List Nat)) (oind : Nat)
    (h : oind < outputv.length) :
    outputv.drop oind = (outputv.getD oind []) :: outputv.drop (oind + 1) := by
  rw [List.getD_eq_getElem _ _ h]
  exact List.drop_eq_getElem_cons h

theorem outPosFrom_firstNonempty (outputv : List (List Nat)) :
    ∀ g oind, outputv.length - oind = g →
      outPosFrom outputv oind 0 = outPosFrom outputv (firstNonempty outputv oind) 0 := by
  intro g
  induction g with
  | zero =>
      intro oind hg
      have h1 : firstNonempty outputv oind = oind := by
        unfold firstNonempty
        rw [List.drop_eq_nil_of_le (by omega)]
        rfl
      rw [h1]
  | succ g ihg =>
      intro oind hg
      have ho : oind < outputv.length := by omega
      by_cases hrow : (outputv.getD oind []).isEmpty = true
      · have hrlen : (outputv.getD oind []).length = 0 := by
          rcases hr : outputv.getD oind [] with _ | ⟨a, l⟩
          · rfl
          · rw [hr] at hrow
            exact Bool.noConfusion hrow
        have h1 : outPosFrom outputv oind 0 = outPosFrom outputv (oind + 1) 0 :=
          outPosFrom_row_done outputv oind 0 ho (by omega)
        have h2 : firstNonempty outputv oind = firstNonempty outputv (oind + 1) := by
          unfold firstNonempty
          rw [drop_getD_cons outputv oind ho, List.findIdx_cons, hrow]
          show oind + ((outputv.drop (oind + 1)).findIdx _ + 1) = _
          omega
        rw [h1, h2]
        exact ihg (oind + 1) (by omega)
      · have h1 : firstNonempty outputv oind = oind := by
          unfold firstNonempty
          rw [drop_getD_cons outputv oind ho, List.findIdx_cons,
            Bool.eq_false_iff.mpr hrow]
          rfl
        rw [h1]

theorem firstNonempty_row (outputv : List (List Nat)) (s : Nat)
    (h : firstNonempty outputv s < outputv.length) :
    0 < (outputv.getD (firstNonempty outputv s) []).length := by
  have hs : s ≤ firstNonempty outputv s := by
    unfold firstNonempty
    omega
  have hlt : (outputv.drop s).findIdx (fun m => !m.isEmpty) < (outputv.drop s).length := by
    rw [List.length_drop]
    unfold firstNonempty at h
    omega
  have hp : (fun m : List Nat => !m.isEmpty)
      ((outputv.drop s)[(outputv.drop s).findIdx (fun m => !m.isEmpty)]) = true :=
    @List.findIdx_getElem _ (fun m => !m.isEmpty) (outputv.drop s) hlt
  have hidx : (outputv.drop s)[(outputv.drop s).findIdx (fun m => !m.isEmpty)] =
      outputv.getD (firstNonempty outputv s) [] := by
    rw [List.getElem_drop, List.getD_eq_getElem _ _ h]
    rfl
  rw [hidx] at hp
  rcases hr : outputv.getD (firstNonempty outputv s) [] with _ | ⟨a, l⟩
  · rw [hr] at hp
    exact Bool.noConfusion hp
  · simp

theorem outPosFrom_ne_nil (outputv : List (List Nat)) (oind nz : Nat)
    (h : outPosFrom outputv oind nz ≠ []) : oind < outputv.length := by
  by_contra hc
  exact h (outPosFrom_nil outputv oind nz (by omega))

theorem outPosFrom_thirds (outputv : List (List Nat)) :
    ∀ g oind, outputv.length - oind = g →
      (outPosFrom outputv oind 0).map (fun t => t.2.2) = (outputv.drop oind).flatten := by
  intro g
  induction g with
  | zero =>
      intro oind hg
      rw [outPosFrom_nil outputv oind 0 (by omega), List.drop_eq_nil_of_le (by omega)]
      rfl
  | succ g ihg =>
      intro oind hg
      have ho : oind < outputv.length := by omega
      have hrow : ∀ nrem nz, (outputv.getD oind []).length - nz = nrem →
          (outPosFrom outputv oind nz).map (fun t => t.2.2) =
            ((outputv.getD oind []).drop nz) ++ (outputv.drop (oind + 1)).flatten := by
        intro nrem
        induction nrem with
        | zero =>
            intro nz hnz
            rw [outPosFrom_row_done outputv oind nz ho (by omega),
              List.drop_eq_nil_of_le (by omega), List.nil_append]
            exact ihg (oind + 1) (by omega)
        | succ nrem ihn =>
            intro nz hnz
            rw [outPosFrom_cons outputv oind nz ho (by omega), List.map_cons,
              ihn (nz + 1) (by omega),
              List.drop_eq_getElem_cons (show nz < (outputv.getD oind []).length by omega),
              ← List.getD_eq_getElem _ _ (show nz < (outputv.getD oind []).length by omega)]
            rfl
      have hall := hrow (outputv.getD oind []).length 0 (by omega)
      rw [List.drop_zero] at hall
      rw [hall, drop_getD_cons outputv oind ho]
      rfl

theorem outPosAll_thirds (outputv : List (List Nat)) :
    (outPosAll outputv).map (fun t => t.2.2) = outputv.flatten := by
  have h := outPosFrom_thirds outputv outputv.length 0 (by omega)
  rw [List.drop_zero] at h
  exact h

theorem outPosAll_length (outputv : List (List Nat)) :
    (outPosAll outputv).length = outputv.flatten.length := by
  rw [← outPosAll_thirds, List.length_map]

theorem outPosAll_getD_third (outputv : List (List Nat)) (m : Nat)
    (hm : m < (outPosAll outputv).length) :
    ((outPosAll outputv).getD m (0, 0, 0)).2.2 = outputv.flatten.getD m 0 := by
  have hm' : m < outputv.flatten.length := by rw [← outPosAll_length]; exact hm
  rw [List.getD_eq_getElem _ _ hm, List.getD_eq_getElem _ _ hm']
  have hm2 : m < ((outPosAll outputv).map (fun t => t.2.2)).length := by
    rw [outPosAll_thirds]
    exact hm'
  have h1 : outputv.flatten[m] =
      ((outPosAll outputv).map (fun t => t.2.2))[m] := by
    congr 1
    rw [outPosAll_thirds]
  rw [h1, List.getElem_map]

/-- The output counter starts valid: at the first nonempty output with no
separators consumed. -/
theorem counterInv_init (outputv : List (List Nat)) :
    CounterInv outputv (firstNonempty outputv 0) 0 0 := by
  have hdrop : outPosFrom outputv (firstNonempty outputv 0) 0 =
      (outPosAll outputv).drop 0 := by
    rw [List.drop_zero]
    exact (outPosFrom_firstNonempty outputv outputv.length 0 (by omega)).symm
  refine ⟨hdrop, ?_⟩
  intro hm
  have hne : outPosFrom outputv (firstNonempty outputv 0) 0 ≠ [] := by
    rw [hdrop, List.drop_zero]
    intro hnil
    rw [hnil] at hm
    exact absurd hm (by simp)
  have ho := outPosFrom_ne_nil outputv _ 0 hne
  exact ⟨ho, firstNonempty_row outputv 0 ho⟩

/-- One separator's worth of progress of the output counter: the addressed
entry is the next flattened output nonzero, and the advanced counter is
valid for one more separator. -/
theorem counterInv_step (outputv : List (List Nat)) (oind nz m : Nat)
    (hci : CounterInv outputv oind nz m) (hm : m < (outPosAll outputv).length) :
    (outputv.getD oind []).getD nz 0 = outputv.flatten.getD m 0 ∧
    CounterInv outputv (outAdvance outputv oind nz).1 (outAdvance outputv oind nz).2
      (m + 1) := by
  obtain ⟨hdrop, hnorm⟩ := hci
  obtain ⟨ho, hn⟩ := hnorm hm
  have hcons := outPosFrom_cons outputv oind nz ho hn
  have hhead : (outPosAll outputv).getD m (0, 0, 0) =
      (oind, nz, (outputv.getD oind []).getD nz 0) := by
    have h2 : (outPosAll outputv).drop m =
        (oind, nz, (outputv.getD oind []).getD nz 0) :: outPosFrom outputv oind (nz + 1) := by
      rw [← hdrop, hcons]
    have h3 : ((outPosAll outputv).drop m).getD 0 (0, 0, 0) =
        (outPosAll outputv).getD m (0, 0, 0) := by
      rw [List.getD_eq_getElem?_getD, List.getD_eq_getElem?_getD, List.getElem?_drop,
        Nat.add_zero]
    rw [← h3, h2]
    rfl
  have hentry : (outputv.getD oind []).getD nz 0 = outputv.flatten.getD m 0 := by
    rw [← outPosAll_getD_third outputv m hm, hhead]
  have hdrop' : outPosFrom outputv oind (nz + 1) = (outPosAll outputv).drop (m + 1) := by
    have h1 : (outPosAll outputv).drop (m + 1) = ((outPosAll outputv).drop m).drop 1 := by
      rw [List.drop_drop]
    rw [h1, ← hdrop, hcons]
    rfl
  refine ⟨hentry, ?_, ?_⟩
  · unfold outAdvance
    by_cases hrow : (outputv.getD oind []).length ≤ nz + 1
    · rw [if_pos hrow]
      show outPosFrom outputv (firstNonempty outputv (oind + 1)) 0 = _
      rw [← outPosFrom_firstNonempty outputv (outputv.length - (oind + 1)) (oind + 1) rfl,
        ← outPosFrom_row_done outputv oind (nz + 1) ho hrow]
      exact hdrop'
    · rw [if_neg hrow]
      exact hdrop'
  · intro hm'
    have hne : outPosFrom outputv (outAdvance outputv oind nz).1
        (outAdvance outputv oind nz).2 ≠ [] := by
      have heq : outPosFrom outputv (outAdvance outputv oind nz).1
          (outAdvance outputv oind nz).2 = (outPosAll outputv).drop (m + 1) := by
        unfold outAdvance
        by_cases hrow : (outputv.getD oind []).length ≤ nz + 1
        · rw [if_pos hrow]
          show outPosFrom outputv (firstNonempty outputv (oind + 1)) 0 = _
          rw [← outPosFrom_firstNonempty outputv (outputv.length - (oind + 1)) (oind + 1) rfl,
            ← outPosFrom_row_done outputv oind (nz + 1) ho hrow]
          exact hdrop'
        · rw [if_neg hrow]
          exact hdrop'
      rw [heq]
      intro hnil
      have := congrArg List.length hnil
      rw [List.length_drop] at this
      simp at this
      omega
    have ho' := outPosFrom_ne_nil outputv _ _ hne
    refine ⟨ho', ?_⟩
    unfold outAdvance at ho' hne ⊢
    by_cases hrow : (outputv.getD oind []).length ≤ nz + 1
    · rw [if_pos hrow] at ho' ⊢
      dsimp only at ho' ⊢
      exact firstNonempty_row outputv (oind + 1) ho'
    · rw [if_neg hrow] at ho' ⊢
      dsimp only at ho' ⊢
      omega

/-- The instruction-building step on a scheduled node: one instruction is
appended (`buildEl`), the output counter is untouched, and a parameter node
records its location. -/
theorem buildStep_some (pool : List PNode) (nodes : List (Option Nat))
    (outputv : List (List Nat)) (st : BuildSt) (p : Nat) :
    (buildStep pool nodes outputv st (some p)).alg = st.alg ++ [buildEl pool nodes p] ∧
    (buildStep pool nodes outputv st (some p)).oind = st.oind ∧
    (buildStep pool nodes outputv st (some p)).nz = st.nz ∧
    (buildStep pool nodes outputv st (some p)).symb =
      st.symb ++ (if (nodeAt pool p).op = .param then [(st.alg.length, p)] else []) := by
  unfold buildStep buildEl
  dsimp only
  rcases hop : (nodeAt pool p).op with _ | _ | _ | _ | u | b <;>
    refine ⟨rfl, rfl, rfl, ?_⟩ <;> simp [hop]

/-- The instruction-building step on a separator: an output instruction
addressing the counter's entry is appended and the counter advances. -/
theorem buildStep_none (pool : List PNode) (nodes : List (Option Nat))
    (outputv : List (List Nat)) (st : BuildSt) :
    (buildStep pool nodes outputv st none).alg = st.alg ++
      [{ op := .output, i0 := tempIdx nodes ((outputv.getD st.oind []).getD st.nz 0),
         i1 := st.nz, res := st.oind }] ∧
    (buildStep pool nodes outputv st none).oind = (outAdvance outputv st.oind st.nz).1 ∧
    (buildStep pool nodes outputv st none).nz = (outAdvance outputv st.oind st.nz).2 ∧
    (buildStep pool nodes outputv st none).symb = st.symb := by
  unfold buildStep outAdvance
  dsimp only
  by_cases hrow : (outputv.getD st.oind []).length ≤ st.nz + 1
  · rw [if_pos hrow, if_pos hrow]
    exact ⟨rfl, rfl, rfl, rfl⟩
  · rw [if_neg hrow, if_neg hrow]
    exact ⟨rfl, rfl, rfl, rfl⟩

theorem symbOf_append_some (pool : List PNode) (l : List (Option Nat)) (p : Nat) :
    symbOf pool (l ++ [some p]) =
      symbOf pool l ++ (if (nodeAt pool p).op = .param then [(l.length, p)] else []) := by
  unfold symbOf
  rw [List.enum_append, List.filterMap_append]
  congr 1
  show List.filterMap _ [(l.length, some p)] = _
  by_cases hop : (nodeAt pool p).op = .param
  · rw [if_pos hop]
    simp [hop]
  · rw [if_neg hop]
    simp [hop]

theorem symbOf_append_none (pool : List PNode) (l : List (Option Nat)) :
    symbOf pool (l ++ [none]) = symbOf pool l := by
  unfold symbOf
  rw [List.enum_append, List.filterMap_append]
  simp

/-- Invariant of the instruction-building loop over any prefix of the
sorted node list: one instruction per entry, a valid output counter, the
recorded parameter locations, and the per-position instruction shapes. -/
theorem buildAlg_fold_spec (pool : List PNode) (nodes : List (Option Nat))
    (outputv : List (List Nat))
    (htot : noneCount nodes = (outPosAll outputv).length) :
    ∀ pre suf, nodes = pre ++ suf →
      (pre.foldl (buildStep pool nodes outputv) (buildInit nodes outputv)).alg.length =
        pre.length ∧
      CounterInv outputv
        (pre.foldl (buildStep pool nodes outputv) (buildInit nodes outputv)).oind
        (pre.foldl (buildStep pool nodes outputv) (buildInit nodes outputv)).nz
        (noneCount pre) ∧
      (pre.foldl (buildStep pool nodes outputv) (buildInit nodes outputv)).symb =
        symbOf pool pre ∧
      (∀ k p, k < pre.length → pre.getD k none = some p →
        instrAt (pre.foldl (buildStep pool nodes outputv) (buildInit nodes outputv)).alg k =
          buildEl pool nodes p) ∧
      (∀ k, k < pre.length → pre.getD k none = none →
        (instrAt (pre.foldl (buildStep pool nodes outputv) (buildInit nodes outputv)).alg
            k).op = .output ∧
        (instrAt (pre.foldl (buildStep pool nodes outputv) (buildInit nodes outputv)).alg
            k).i0 = tempIdx nodes (outputv.flatten.getD (noneCount (pre.take k)) 0)) := by
  intro pre
  induction pre using List.reverseRecOn with
  | nil =>
      intro suf hps
      refine ⟨rfl, counterInv_init outputv, rfl, ?_, ?_⟩
      · intro k p hk
        exact absurd hk (by simp)
      · intro k hk
        exact absurd hk (by simp)
  | append_singleton pre x ihp =>
      intro suf hps
      obtain ⟨hlen, hci, hsymb, hsome, hnone⟩ :=
        ihp (x :: suf) (by rw [hps, List.append_assoc]; rfl)
      set st := pre.foldl (buildStep pool nodes outputv) (buildInit nodes outputv) with hst
      have hfold : (pre ++ [x]).foldl (buildStep pool nodes outputv)
          (buildInit nodes outputv) = buildStep pool nodes outputv st x := by
        rw [List.foldl_append, List.foldl_cons, List.foldl_nil]
      rw [hfold]
      rcases x with _ | p
      · obtain ⟨ha, ho, hn, hs⟩ := buildStep_none pool nodes outputv st
        have hm : noneCount pre < (outPosAll outputv).length := by
          have h1 : noneCount nodes = noneCount pre + 1 + noneCount suf := by
            rw [hps, noneCount_append, noneCount_concat_none]
          omega
        obtain ⟨hentry, hci'⟩ := counterInv_step outputv st.oind st.nz (noneCount pre) hci hm
        refine ⟨?_, ?_, ?_, ?_, ?_⟩
        · rw [ha, List.length_append, hlen, List.length_append]
          rfl
        · rw [ho, hn, noneCount_concat_none]
          exact hci'
        · rw [hs, hsymb, symbOf_append_none]
        · intro k p hk hkp
          rw [List.length_append] at hk
          simp at hk
          have hkpre : k < pre.length := by
            rcases Nat.lt_or_ge k pre.length with h | h
            · exact h
            · exfalso
              have hkeq : k = pre.length := by omega
              subst hkeq
              rw [getD_concat_self] at hkp
              exact Option.noConfusion hkp
          rw [getD_append_left_gen _ _ _ _ hkpre] at hkp
          rw [ha, instrAt_append_left _ _ k (by omega)]
          exact hsome k p hkpre hkp
        · intro k hk hkn
          rw [List.length_append] at hk
          simp at hk
          by_cases hkpre : k < pre.length
          · rw [getD_append_left_gen _ _ _ _ hkpre] at hkn
            obtain ⟨h1, h2⟩ := hnone k hkpre hkn
            have hstable : instrAt (buildStep pool nodes outputv st none).alg k =
                instrAt st.alg k := by
              rw [ha, instrAt_append_left _ _ k (by omega)]
            rw [hstable, List.take_append_of_le_length (by omega)]
            exact ⟨h1, h2⟩
          · have hkeq : k = pre.length := by omega
            subst hkeq
            have hhd : instrAt (buildStep pool nodes outputv st none).alg pre.length =
                { op := .output,
                  i0 := tempIdx nodes ((outputv.getD st.oind []).getD st.nz 0),
                  i1 := st.nz, res := st.oind } := by
              rw [ha, ← hlen]
              exact instrAt_concat_self _ _
            rw [hhd, List.take_left]
            exact ⟨rfl, by rw [hentry]⟩
      · obtain ⟨ha, ho, hn, hs⟩ := buildStep_some pool nodes outputv st p
        refine ⟨?_, ?_, ?_, ?_, ?_⟩
        · rw [ha, List.length_append, hlen, List.length_append]
          rfl
        · rw [ho, hn, noneCount_concat_some]
          exact hci
        · rw [hs, hsymb, hlen, symbOf_append_some]
        · intro k q hk hkq
          rw [List.length_append] at hk
          simp at hk
          by_cases hkpre : k < pre.length
          · rw [getD_append_left_gen _ _ _ _ hkpre] at hkq
            rw [ha, instrAt_append_left _ _ k (by omega)]
            exact hsome k q hkpre hkq
          · have hkeq : k = pre.length := by omega
            subst hkeq
            rw [getD_concat_self] at hkq
            injection hkq with hpq
            subst hpq
            rw [ha, ← hlen]
            exact instrAt_concat_self _ _
        · intro k hk hkn
          rw [List.length_append] at hk
          simp at hk
          have hkpre : k < pre.length := by
            rcases Nat.lt_or_ge k pre.length with h | h
            · exact h
            · exfalso
              have hkeq : k = pre.length := by omega
              subst hkeq
              rw [getD_concat_self] at hkn
              exact Option.noConfusion hkn
          rw [getD_append_left_gen _ _ _ _ hkpre] at hkn
          obtain ⟨h1, h2⟩ := hnone k hkpre hkn
          have hstable : instrAt (buildStep pool nodes outputv st (some p)).alg k =
              instrAt st.alg k := by
            rw [ha, instrAt_append_left _ _ k (by omega)]
          rw [hstable, List.take_append_of_le_length (by omega)]
          exact ⟨h1, h2⟩

theorem tempIdx_spec (nodes : List (Option Nat)) (p : Nat) (h : some p ∈ nodes) :
    tempIdx nodes p < nodes.length ∧ nodes.getD (tempIdx nodes p) none = some p := by
  unfold tempIdx
  induction nodes with
  | nil => exact absurd h (List.not_mem_nil _)
  | cons a l ih =>
      by_cases hax : a = some p
      · subst hax
        have h0 : (some p :: l).indexOf (some p) = 0 := by
          simp [List.indexOf_cons]
        rw [h0]
        exact ⟨by simp, rfl⟩
      · have h1 : (a :: l).indexOf (some p) = l.indexOf (some p) + 1 := by
          rw [List.indexOf_cons, beq_eq_false_iff_ne.mpr hax]
          rfl
        rw [h1]
        have hmem : some p ∈ l := by
          rcases List.mem_cons.mp h with h2 | h2
          · exact absurd h2.symm hax
          · exact h2
        obtain ⟨ih1, ih2⟩ := ih hmem
        exact ⟨by simpa using Nat.succ_lt_succ ih1, ih2⟩

theorem tempIdx_eq (nodes : List (Option Nat)) (hnd : SomesNodup nodes) (k p : Nat)
    (h : nodes.getD k none = some p) : tempIdx nodes p = k := by
  have hk := optGetD_lt _ _ _ h
  have hmem : some p ∈ nodes := by
    rw [List.getD_eq_getElem _ _ hk] at h
    exact h ▸ List.getElem_mem hk
  obtain ⟨_, hgetD⟩ := tempIdx_spec nodes p hmem
  exact hnd _ k p hgetD h

/-- Operand fields of a node instruction: operand `c` is the `temp`
position of the node's `c`-th dependency. -/
theorem buildEl_arg (pool : List PNode) (nodes : List (Option Nat)) (p c : Nat)
    (hnop : (nodeAt pool p).op.nodeOp = true)
    (hplen : (nodeAt pool p).deps.length = (nodeAt pool p).op.ndeps)
    (hc : c < (buildEl pool nodes p).op.ndeps) :
    c < (nodeAt pool p).deps.length ∧
    (buildEl pool nodes p).argSlot c =
      tempIdx nodes ((nodeAt pool p).deps.getD c 0) := by
  rcases hop : (nodeAt pool p).op with _ | _ | _ | _ | u | b
  · have hb : buildEl pool nodes p =
        { op := .const, res := tempIdx nodes p, dval := (nodeAt pool p).dval } := by
      unfold buildEl
      dsimp only
      rw [hop]
    rw [hb] at hc
    simp [AOp.ndeps] at hc
  · rw [hop, AOp.nodeOp] at hnop
    exact Bool.noConfusion hnop
  · rw [hop, AOp.nodeOp] at hnop
    exact Bool.noConfusion hnop
  · have hb : buildEl pool nodes p =
        { op := .param, res := tempIdx nodes p } := by
      unfold buildEl
      dsimp only
      rw [hop]
    rw [hb] at hc
    simp [AOp.ndeps] at hc
  · have hb : buildEl pool nodes p =
        { op := .unop u, i0 := tempIdx nodes ((nodeAt pool p).deps.getD 0 0),
          i1 := tempIdx nodes ((nodeAt pool p).deps.getD 1 ((nodeAt pool p).deps.getD 0 0)),
          res := tempIdx nodes p } := by
      unfold buildEl
      dsimp only
      rw [hop]
    rw [hb] at hc ⊢
    rw [hop] at hplen
    simp [AOp.ndeps] at hc hplen
    have hc0 : c = 0 := by omega
    subst hc0
    exact ⟨by omega, rfl⟩
  · have hb : buildEl pool nodes p =
        { op := .binop b, i0 := tempIdx nodes ((nodeAt pool p).deps.getD 0 0),
          i1 := tempIdx nodes ((nodeAt pool p).deps.getD 1 ((nodeAt pool p).deps.getD 0 0)),
          res := tempIdx nodes p } := by
      unfold buildEl
      dsimp only
      rw [hop]
    rw [hb] at hc ⊢
    rw [hop] at hplen
    simp [AOp.ndeps] at hc hplen
    rcases Nat.lt_or_ge c 1 with hc1 | hc1
    · have hc0 : c = 0 := by omega
      subst hc0
      exact ⟨by omega, rfl⟩
    · have hc2 : c = 1 := by omega
      subst hc2
      refine ⟨by omega, ?_⟩
      show tempIdx nodes ((nodeAt pool p).deps.getD 1 ((nodeAt pool p).deps.getD 0 0)) = _
      rw [List.getD_eq_getElem _ _ (by omega), List.getD_eq_getElem _ _ (by omega)]

theorem buildEl_res (pool : List PNode) (nodes : List (Option Nat)) (p : Nat) :
    (buildEl pool nodes p).res = tempIdx nodes p := by
  unfold buildEl
  dsimp only
  rcases hop : (nodeAt pool p).op with _ | _ | _ | _ | u | b <;> rfl

theorem buildEl_ne_output (pool : List PNode) (nodes : List (Option Nat)) (p : Nat)
    (h : (nodeAt pool p).op.nodeOp = true) : (buildEl pool nodes p).op ≠ .output := by
  unfold buildEl
  dsimp only
  rcases hop : (nodeAt pool p).op with _ | _ | _ | _ | u | b <;>
    first
      | (intro hc; exact AOp.noConfusion hc)
      | (rw [hop, AOp.nodeOp] at h; exact Bool.noConfusion h)

/-- Shape of the pre-allocation algorithm: one instruction per sorted node,
topological validity (operands produced strictly earlier), and every
non-output instruction's result is its own position. -/
theorem preAlg_spec (pool : List PNode) (nodes : List (Option Nat))
    (outputv : List (List Nat)) (hwf : PoolWF pool) (hnd : SomesNodup nodes)
    (hdb : DepsBefore pool nodes) (hel : EntriesLt pool nodes)
    (hsep : SepOK nodes outputv.flatten)
    (htot : noneCount nodes = (outPosAll outputv).length) :
    (buildAlg pool nodes outputv).alg.length = nodes.length ∧
    TopoValid (buildAlg pool nodes outputv).alg ∧
    (∀ k, k < nodes.length → (instrAt (buildAlg pool nodes outputv).alg k).op ≠ .output →
      (instrAt (buildAlg pool nodes outputv).alg k).res = k) := by
  obtain ⟨hlen0, _, _, hsome0, hnone0⟩ :=
    buildAlg_fold_spec pool nodes outputv htot nodes [] (List.append_nil _).symm
  have hlen : (buildAlg pool nodes outputv).alg.length = nodes.length := hlen0
  have hsome : ∀ k p, k < nodes.length → nodes.getD k none = some p →
      instrAt (buildAlg pool nodes outputv).alg k = buildEl pool nodes p := hsome0
  have hnone : ∀ k, k < nodes.length → nodes.getD k none = none →
      (instrAt (buildAlg pool nodes outputv).alg k).op = .output ∧
      (instrAt (buildAlg pool nodes outputv).alg k).i0 =
        tempIdx nodes (outputv.flatten.getD (noneCount (nodes.take k)) 0) := hnone0
  have hwriter : ∀ t q, t < nodes.length → nodes.getD t none = some q →
      (instrAt (buildAlg pool nodes outputv).alg t).op ≠ .output ∧
      (instrAt (buildAlg pool nodes outputv).alg t).res = t := by
    intro t q ht hq
    have hinstr : instrAt (buildAlg pool nodes outputv).alg t = buildEl pool nodes q :=
      hsome t q ht hq
    have hql := hel t q hq
    have hqop := (hwf q hql).1
    rw [hinstr, buildEl_res, tempIdx_eq nodes hnd t q hq]
    exact ⟨buildEl_ne_output pool nodes q hqop, rfl⟩
  refine ⟨hlen, ?_, ?_⟩
  · intro k hk c hc
    rw [hlen] at hk
    rcases hcase : nodes.getD k none with _ | p
    · obtain ⟨hop, hi0⟩ := hnone k hk hcase
      rw [hop, AOp.ndeps] at hc
      have hc0 : c = 0 := by omega
      subst hc0
      obtain ⟨t, ht, hto⟩ := hsep k hk hcase
      have hidx := tempIdx_eq nodes hnd t _ hto
      obtain ⟨hwop, hwres⟩ := hwriter t _ (by omega) hto
      refine ⟨t, ht, hwop, ?_⟩
      show _ = (instrAt (buildAlg pool nodes outputv).alg k).argSlot 0
      rw [hwres, show (instrAt (buildAlg pool nodes outputv).alg k).argSlot 0 =
        (instrAt (buildAlg pool nodes outputv).alg k).i0 from rfl, hi0, hidx]
    · have hinstr : instrAt (buildAlg pool nodes outputv).alg k = buildEl pool nodes p :=
        hsome k p hk hcase
      have hpl := hel k p hcase
      obtain ⟨hpop, hplen, hplt⟩ := hwf p hpl
      have hdep : ∀ j, j < (nodeAt pool p).deps.length →
          WritesBefore (buildAlg pool nodes outputv).alg k
            (tempIdx nodes ((nodeAt pool p).deps.getD j 0)) := by
        intro j hj
        have hmem : (nodeAt pool p).deps.getD j 0 ∈ (nodeAt pool p).deps := by
          rw [List.getD_eq_getElem _ _ hj]
          exact List.getElem_mem hj
        obtain ⟨t', ht', hto'⟩ := hdb k p hcase _ hmem
        have hidx := tempIdx_eq nodes hnd t' _ hto'
        obtain ⟨hwop, hwres⟩ := hwriter t' _ (by omega) hto'
        exact ⟨t', ht', hwop, by rw [hwres, hidx]⟩
      rw [hinstr] at hc ⊢
      obtain ⟨hcd, harg⟩ := buildEl_arg pool nodes p c hpop hplen hc
      rw [harg]
      exact hdep c hcd
  · intro k hk hkout
    rcases hcase : nodes.getD k none with _ | p
    · exact absurd (hnone k hk hcase).1 hkout
    · exact (hwriter k p hk hcase).2

theorem getD_set_ne_gen {α : Type} (l : List α) (i k : Nat) (v d : α) (h : k ≠ i) :
    (l.set i v).getD k d = l.getD k d := by
  simp [List.getD_eq_getElem?_getD, List.getElem?_set_ne (Ne.symm h)]

theorem getD_set_self_gen {α : Type} (l : List α) (i : Nat) (v d : α) (h : i < l.length) :
    (l.set i v).getD i d = v := by
  simp [List.getD_eq_getElem?_getD, List.getElem?_set_self, h]

theorem allocStep_output (live : Bool) (st : AllocSt) (k : Nat) (el : AlgEl)
    (h : el.op = .output) :
    (allocStep live st (k, el)).alg =
      st.alg ++ [{ el with i0 := st.place.getD el.i0 0 }] ∧
    (allocStep live st (k, el)).place = st.place := by
  unfold allocStep
  dsimp only
  rw [if_pos h]
  exact ⟨rfl, rfl⟩

theorem allocStep_node (live : Bool) (st : AllocSt) (k : Nat) (el : AlgEl)
    (h : ¬ el.op = .output) :
    ∃ s, (allocStep live st (k, el)).place = st.place.set el.res s ∧
      (allocStep live st (k, el)).alg = st.alg ++
        [{ el with
            i0 := if 1 ≤ el.op.ndeps then (st.place.set el.res s).getD el.i0 0 else el.i0,
            i1 := if el.op.ndeps = 1 then
                (if 1 ≤ el.op.ndeps then (st.place.set el.res s).getD el.i0 0 else el.i0)
              else if 2 ≤ el.op.ndeps then (st.place.set el.res s).getD el.i1 0 else el.i1,
            res := s }] := by
  unfold allocStep
  dsimp only
  rw [if_neg h]
  exact ⟨_, rfl, rfl⟩

/-- The allocation loop preserves topological validity: after renaming each
operand through `place`, every operand slot of the rewritten algorithm is
the result slot of a strictly earlier rewritten instruction. -/
theorem allocSteps_topo (live : Bool) (alg : List AlgEl) (st0 : AllocSt)
    (h0 : st0.alg = []) (hpl : st0.place.length = alg.length)
    (hres : ∀ k, k < alg.length → (instrAt alg k).op ≠ .output → (instrAt alg k).res = k)
    (htv : TopoValid alg) :
    ∀ n, n ≤ alg.length →
      (allocSteps live alg st0 n).alg.length = n ∧
      (allocSteps live alg st0 n).place.length = alg.length ∧
      (∀ j, j < n → (instrAt (allocSteps live alg st0 n).alg j).op = (instrAt alg j).op) ∧
      (∀ j, j < n → (instrAt alg j).op ≠ .output →
        (allocSteps live alg st0 n).place.getD j 0 =
          (instrAt (allocSteps live alg st0 n).alg j).res) ∧
      TopoValid (allocSteps live alg st0 n).alg := by
  intro n
  induction n with
  | zero =>
      intro _
      have hl : (allocSteps live alg st0 0).alg.length = 0 := by
        show st0.alg.length = 0
        rw [h0]
        rfl
      refine ⟨hl, hpl, ?_, ?_, ?_⟩
      · intro j hj; omega
      · intro j hj; omega
      · intro k hk
        rw [hl] at hk
        omega
  | succ n ih =>
      intro hn1
      have hn : n < alg.length := by omega
      obtain ⟨ihl, ihpl, ihop, ihplace, ihtv⟩ := ih (by omega)
      rw [allocSteps_succ, if_pos hn]
      by_cases hout : (instrAt alg n).op = .output
      · obtain ⟨ha, hp⟩ := allocStep_output live (allocSteps live alg st0 n) n
          (instrAt alg n) hout
        have hhd0 := instrAt_concat_self (allocSteps live alg st0 n).alg
          { instrAt alg n with
            i0 := (allocSteps live alg st0 n).place.getD (instrAt alg n).i0 0 }
        rw [ihl] at hhd0
        have hhd : instrAt ((allocSteps live alg st0 n).alg ++
            [{ instrAt alg n with
                i0 := (allocSteps live alg st0 n).place.getD (instrAt alg n).i0 0 }]) n =
            { instrAt alg n with
              i0 := (allocSteps live alg st0 n).place.getD (instrAt alg n).i0 0 } := hhd0
        refine ⟨?_, ?_, ?_, ?_, ?_⟩
        · rw [ha, List.length_append, ihl]
          rfl
        · rw [hp]
          exact ihpl
        · intro j hj
          rcases Nat.lt_or_ge j n with hjn | hjn
          · rw [ha, instrAt_append_left _ _ j (by omega)]
            exact ihop j hjn
          · have hje : n = j := by omega
            subst hje
            rw [ha, hhd]
        · intro j hj hjout
          rw [hp]
          rcases Nat.lt_or_ge j n with hjn | hjn
          · rw [ha, instrAt_append_left _ _ j (by omega)]
            exact ihplace j hjn hjout
          · have hje : n = j := by omega
            subst hje
            exact absurd hout hjout
        · intro kk hkk c hc
          rw [ha] at hkk hc ⊢
          rw [List.length_append, ihl] at hkk
          simp at hkk
          by_cases hkn : kk < n
          · rw [instrAt_append_left _ _ kk (by omega)] at hc ⊢
            obtain ⟨j, hj1, hj2, hj3⟩ := ihtv kk (by omega) c hc
            exact ⟨j, hj1, by rwa [instrAt_append_left _ _ j (by omega)],
              by rwa [instrAt_append_left _ _ j (by omega)]⟩
          · have hke : n = kk := by omega
            subst hke
            rw [hhd] at hc ⊢
            have hnd1 : (instrAt alg n).op.ndeps = 1 := by
              rw [hout]
              rfl
            have hc0 : c = 0 := by
              have hcc : c < (instrAt alg n).op.ndeps := hc
              omega
            subst hc0
            obtain ⟨j, hj1, hj2, hj3⟩ := htv n (by omega) 0 (by omega)
            have hjres : (instrAt alg j).res = j := hres j (by omega) hj2
            have hi0 : (instrAt alg n).i0 = j := by
              have : (instrAt alg n).argSlot 0 = (instrAt alg n).i0 := rfl
              rw [← this, ← hj3, hjres]
            refine ⟨j, by omega, ?_, ?_⟩
            · rw [instrAt_append_left _ _ j (by omega), ihop j (by omega)]
              exact hj2
            · rw [instrAt_append_left _ _ j (by omega)]
              show (instrAt (allocSteps live alg st0 n).alg j).res =
                (allocSteps live alg st0 n).place.getD (instrAt alg n).i0 0
              rw [hi0, ihplace j (by omega) hj2]
      · obtain ⟨s, hp, ha⟩ := allocStep_node live (allocSteps live alg st0 n) n
          (instrAt alg n) hout
        have hresn : (instrAt alg n).res = n := hres n hn hout
        have hhd : instrAt ((allocSteps live alg st0 n).alg ++
            [{ instrAt alg n with
                i0 := if 1 ≤ (instrAt alg n).op.ndeps then
                    ((allocSteps live alg st0 n).place.set (instrAt alg n).res s).getD
                      (instrAt alg n).i0 0
                  else (instrAt alg n).i0,
                i1 := if (instrAt alg n).op.ndeps = 1 then
                    (if 1 ≤ (instrAt alg n).op.ndeps then
                      ((allocSteps live alg st0 n).place.set (instrAt alg n).res s).getD
                        (instrAt alg n).i0 0
                    else (instrAt alg n).i0)
                  else if 2 ≤ (instrAt alg n).op.ndeps then
                    ((allocSteps live alg st0 n).place.set (instrAt alg n).res s).getD
                      (instrAt alg n).i1 0
                  else (instrAt alg n).i1,
                res := s }]) n =
            { instrAt alg n with
              i0 := if 1 ≤ (instrAt alg n).op.ndeps then
                  ((allocSteps live alg st0 n).place.set (instrAt alg n).res s).getD
                    (instrAt alg n).i0 0
                else (instrAt alg n).i0,
              i1 := if (instrAt alg n).op.ndeps = 1 then
                  (if 1 ≤ (instrAt alg n).op.ndeps then
                    ((allocSteps live alg st0 n).place.set (instrAt alg n).res s).getD
                      (instrAt alg n).i0 0
                  else (instrAt alg n).i0)
                else if 2 ≤ (instrAt alg n).op.ndeps then
                  ((allocSteps live alg st0 n).place.set (instrAt alg n).res s).getD
                    (instrAt alg n).i1 0
                else (instrAt alg n).i1,
              res := s } := by
          have hhd0 := instrAt_concat_self (allocSteps live alg st0 n).alg
            { instrAt alg n with
              i0 := if 1 ≤ (instrAt alg n).op.ndeps then
                  ((allocSteps live alg st0 n).place.set (instrAt alg n).res s).getD
                    (instrAt alg n).i0 0
                else (instrAt alg n).i0,
              i1 := if (instrAt alg n).op.ndeps = 1 then
                  (if 1 ≤ (instrAt alg n).op.ndeps then
                    ((allocSteps live alg st0 n).place.set (instrAt alg n).res s).getD
                      (instrAt alg n).i0 0
                  else (instrAt alg n).i0)
                else if 2 ≤ (instrAt alg n).op.ndeps then
                  ((allocSteps live alg st0 n).place.set (instrAt alg n).res s).getD
                    (instrAt alg n).i1 0
                else (instrAt alg n).i1,
              res := s }
          rw [ihl] at hhd0
          exact hhd0
        have hwriter : ∀ c, c < (instrAt alg n).op.ndeps →
            ∃ j, j < n ∧ (instrAt alg n).argSlot c = j ∧
              (instrAt (allocSteps live alg st0 n).alg j).op ≠ .output ∧
              ((allocSteps live alg st0 n).place.set (instrAt alg n).res s).getD
                  ((instrAt alg n).argSlot c) 0 =
                (instrAt (allocSteps live alg st0 n).alg j).res := by
          intro c hc
          obtain ⟨j, hj1, hj2, hj3⟩ := htv n hn c hc
          have hjres : (instrAt alg j).res = j := hres j (by omega) hj2
          have hslot : (instrAt alg n).argSlot c = j := by
            rw [← hj3, hjres]
          refine ⟨j, hj1, hslot, ?_, ?_⟩
          · rw [ihop j (by omega)]
            exact hj2
          · rw [hslot, getD_set_ne_gen _ _ _ _ _ (by rw [hresn]; omega)]
            exact ihplace j (by omega) hj2
        refine ⟨?_, ?_, ?_, ?_, ?_⟩
        · rw [ha, List.length_append, ihl]
          rfl
        · rw [hp, List.length_set]
          exact ihpl
        · intro j hj
          rcases Nat.lt_or_ge j n with hjn | hjn
          · rw [ha, instrAt_append_left _ _ j (by omega)]
            exact ihop j hjn
          · have hje : n = j := by omega
            subst hje
            rw [ha, hhd]
        · intro j hj hjout
          rcases Nat.lt_or_ge j n with hjn | hjn
          · rw [hp, getD_set_ne_gen _ _ _ _ _ (by rw [hresn]; omega),
              ha, instrAt_append_left _ _ j (by omega)]
            exact ihplace j hjn hjout
          · have hje : n = j := by omega
            subst hje
            rw [hp, hresn, getD_set_self_gen _ _ _ _ (by omega), ha, hhd]
        · intro kk hkk c hc
          rw [ha] at hkk hc ⊢
          rw [List.length_append, ihl] at hkk
          simp at hkk
          by_cases hkn : kk < n
          · rw [instrAt_append_left _ _ kk (by omega)] at hc ⊢
            obtain ⟨j, hj1, hj2, hj3⟩ := ihtv kk (by omega) c hc
            exact ⟨j, hj1, by rwa [instrAt_append_left _ _ j (by omega)],
              by rwa [instrAt_append_left _ _ j (by omega)]⟩
          · have hke : n = kk := by omega
            subst hke
            rw [hhd] at hc ⊢
            have hcnd : c < (instrAt alg n).op.ndeps := hc
            obtain ⟨j, hj1, hslot, hjop, hjval⟩ := hwriter c hcnd
            refine ⟨j, by omega, by rwa [instrAt_append_left _ _ j (by omega)], ?_⟩
            rw [instrAt_append_left _ _ j (by omega)]
            rcases hcc : c with _ | c1
            · subst hcc
              have h1le : 1 ≤ (instrAt alg n).op.ndeps := by omega
              show (instrAt (allocSteps live alg st0 n).alg j).res =
                (if 1 ≤ (instrAt alg n).op.ndeps then
                  ((allocSteps live alg st0 n).place.set (instrAt alg n).res s).getD
                    (instrAt alg n).i0 0
                else (instrAt alg n).i0)
              rw [if_pos h1le]
              exact hjval.symm
            · have hc1 : c = 1 := by
                have hle2 : (instrAt alg n).op.ndeps ≤ 2 := by
                  rcases (instrAt alg n).op <;> simp [AOp.ndeps]
                omega
              subst hc1
              have h2le : 2 ≤ (instrAt alg n).op.ndeps := by omega
              show (instrAt (allocSteps live alg st0 n).alg j).res =
                (if (instrAt alg n).op.ndeps = 1 then
                  (if 1 ≤ (instrAt alg n).op.ndeps then
                    ((allocSteps live alg st0 n).place.set (instrAt alg n).res s).getD
                      (instrAt alg n).i0 0
                  else (instrAt alg n).i0)
                else if 2 ≤ (instrAt alg n).op.ndeps then
                  ((allocSteps live alg st0 n).place.set (instrAt alg n).res s).getD
                    (instrAt alg n).i1 0
                else (instrAt alg n).i1)
              rw [if_neg (by omega), if_pos h2le]
              exact hjval.symm

/-- The input-marking loops preserve topological validity: they only turn
parameter instructions into input markers, keeping every result slot. -/
theorem markInputs_topo (inputv : List (List Nat)) (alg : List AlgEl) (mark : Nat → Nat)
    (htv : TopoValid alg) : TopoValid (markInputs inputv alg mark).1 := by
  obtain ⟨hlen, hinstr⟩ := markInputs_instr inputv alg mark
  intro k hk c hc
  rcases (hinstr k).2 with hsame | hinp
  · rw [hsame] at hc ⊢
    obtain ⟨j, hj1, hj2, hj3⟩ := htv k (by rwa [hlen] at hk) c hc
    refine ⟨j, hj1, ?_, ?_⟩
    · rcases (hinstr j).2 with hs | hi
      · rw [hs]
        exact hj2
      · rw [hi]
        intro hcon
        exact AOp.noConfusion hcon
    · rw [(hinstr j).1]
      exact hj3
  · rw [hinp] at hc
    simp [AOp.ndeps] at hc

/-- C1: every algorithm `SXFunctionInternal::init` produces is
topologically valid — after the live-variable slot renaming (and the input
marking), every operand slot of every instruction is the result slot of a
strictly earlier non-output instruction of the same algorithm. -/
theorem c1_topological_validity (pool : List PNode) (inputv outputv : List (List Nat))
    (live : Bool) (hwf : PoolWF pool) (hin : InputsWF pool inputv)
    (hout : OutputsWF pool outputv) :
    TopoValid (sxInit pool inputv outputv live).alg := by
  obtain ⟨hnd, hdb, hel, hsep, hcnt⟩ := buildNodes_wf pool inputv outputv hwf hin hout
  have htot : noneCount (buildNodes pool inputv outputv).2 = (outPosAll outputv).length := by
    rw [hcnt, outPosAll_length]
  obtain ⟨hplen, htv, hres⟩ := preAlg_spec pool (buildNodes pool inputv outputv).2 outputv
    hwf hnd hdb hel hsep htot
  have halloc := allocSteps_topo live
    (buildAlg pool (buildNodes pool inputv outputv).2 outputv).alg
    { alg := [],
      refcount := (buildAlg pool (buildNodes pool inputv outputv).2 outputv).refcount,
      place := List.replicate (buildNodes pool inputv outputv).2.length 0,
      unused := [], worksize := 0, trace := [] } rfl
    (by simp [hplen])
    (fun k hk hko => hres k (by omega) hko)
    htv
    (buildAlg pool (buildNodes pool inputv outputv).2 outputv).alg.length (le_refl _)
  have hatv : TopoValid (allocPass live
      (buildAlg pool (buildNodes pool inputv outputv).2 outputv)
      (buildNodes pool inputv outputv).2.length).alg := halloc.2.2.2.2
  exact markInputs_topo inputv _ _ hatv

/-- Witness for C1 on the `x*y + sin(x)` pool with live variables. -/
theorem c1_topological_validity_witness :
    (PoolWF poolW ∧ InputsWF poolW [[0, 1]] ∧ OutputsWF poolW [[4]]) ∧
      TopoValid (sxInit poolW [[0, 1]] [[4]] true).alg :=
  ⟨⟨by decide, by decide, by decide⟩,
    c1_topological_validity poolW [[0, 1]] [[4]] true (by decide) (by decide) (by decide)⟩

theorem dfsOut_fold_len (pool : List PNode) :
    ∀ (l : List Nat) (st : List Bool × List (Option Nat)),
      (l.foldl (dfsOutStep pool) st).1.length = st.1.length := by
  intro l
  induction l with
  | nil => intro st; rfl
  | cons x l ih =>
      intro st
      rw [List.foldl_cons]
      rw [ih]
      show (visit pool (dfsGas pool) x st).1.length = _
      exact visit_marks_length pool _ x st

theorem dfsOut_fold_mono (pool : List PNode) :
    ∀ (l : List Nat) (st : List Bool × List (Option Nat)) (p : Nat),
      st.1.getD p false = true → (l.foldl (dfsOutStep pool) st).1.getD p false = true := by
  intro l
  induction l with
  | nil => intro st p h; exact h
  | cons x l ih =>
      intro st p h
      rw [List.foldl_cons]
      exact ih _ p (visit_marks_mono pool (dfsGas pool) x st p h)

/-- At the end of phase one every processed output entry is marked. -/
theorem dfsOut_fold_marked (pool : List PNode) (hwf : PoolWF pool) :
    ∀ (l : List Nat) (st : List Bool × List (Option Nat)),
      st.1.length = pool.length → ∀ e ∈ l, e < pool.length →
        (l.foldl (dfsOutStep pool) st).1.getD e false = true := by
  intro l
  induction l with
  | nil => intro st _ e he; exact absurd he (List.not_mem_nil e)
  | cons x l ih =>
      intro st hlen e he hep
      rw [List.foldl_cons]
      rcases List.mem_cons.mp he with hex | hel
      · subst hex
        apply dfsOut_fold_mono pool l _ e
        show (visit pool (dfsGas pool) e st).1.getD e false = true
        apply visit_marks pool hwf (dfsGas pool) e st hep hlen
        have := unmarkedCount_le st.1 e
        unfold dfsGas
        omega
      · apply ih _ ?_ e hel hep
        show (visit pool (dfsGas pool) x st).1.length = pool.length
        rw [visit_marks_length pool _ x st]
        exact hlen

theorem visit_depclosed (pool : List PNode) :
    ∀ gas i st, DepClosedMarks pool st.1 → DepClosedMarks pool (visit pool gas i st).1 := by
  intro gas
  induction gas with
  | zero => intro i st h; exact h
  | succ gas ih =>
      intro i st h
      rw [visit_succ]
      by_cases hm : st.1.getD i false = true
      · rw [if_pos hm]; exact h
      · rw [if_neg hm]
        rcases hp : pickDep pool st.1 i with _ | d
        · have hall : ∀ d ∈ (nodeAt pool i).deps, st.1.getD d false = true := by
            unfold pickDep at hp
            exact (pick_none pool st.1 _ none hp).2
          intro p hpm d hd
          have hmono : ∀ q, st.1.getD q false = true →
              (st.1.set i true).getD q false = true := by
            intro q hq
            by_cases hqi : q = i
            · subst hqi
              exact absurd hq hm
            · rwa [getD_set_ne_bool _ _ _ _ hqi]
          by_cases hpi : p = i
          · subst hpi
            exact hmono d (hall d hd)
          · rw [getD_set_ne_bool _ _ _ _ hpi] at hpm
            exact hmono d (h p hpm d hd)
        · exact ih i _ (ih d st h)

theorem dfsOut_fold_depclosed (pool : List PNode) :
    ∀ (l : List Nat) (st : List Bool × List (Option Nat)),
      DepClosedMarks pool st.1 → DepClosedMarks pool (l.foldl (dfsOutStep pool) st).1 := by
  intro l
  induction l with
  | nil => intro st h; exact h
  | cons x l ih =>
      intro st h
      rw [List.foldl_cons]
      exact ih _ (visit_depclosed pool (dfsGas pool) x st h)

theorem reach_marked (pool : List PNode) (marks : List Bool)
    (hdc : DepClosedMarks pool marks) (r p : Nat) (h : Reach pool r p)
    (hr : marks.getD r false = true) : marks.getD p false = true := by
  induction h with
  | refl => exact hr
  | step _ hd ihr => exact hdc _ ihr _ hd

theorem initMarks_depclosed (pool : List PNode) : DepClosedMarks pool (initMarks pool) := by
  intro p hp
  rw [show initMarks pool = List.replicate pool.length false from rfl,
    getD_replicate_false] at hp
  exact Bool.noConfusion hp

theorem markFold_zero_stays :
    ∀ (l : List (Nat × Nat × Nat)) (st : List AlgEl × (Nat → Nat)) (nid : Nat),
      st.2 nid = 0 → (l.foldl markStep st).2 nid = 0 := by
  intro l
  induction l with
  | nil => intro st nid h; exact h
  | cons t l ih =>
      intro st nid h
      rw [List.foldl_cons]
      apply ih
      unfold markStep
      dsimp only
      split_ifs with hm
      · dsimp only
        by_cases hn : nid = t.2.2
        · subst hn
          exact Function.update_same _ _ _
        · rw [Function.update_noteq hn]
          exact h
      · exact h

theorem markFold_clears :
    ∀ (l : List (Nat × Nat × Nat)) (st : List AlgEl × (Nat → Nat)) (nid : Nat),
      nid ∈ l.map (fun t => t.2.2) → (l.foldl markStep st).2 nid = 0 := by
  intro l
  induction l with
  | nil => intro st nid h; exact absurd h (List.not_mem_nil nid)
  | cons t l ih =>
      intro st nid h
      rw [List.foldl_cons]
      rw [List.map_cons] at h
      by_cases hn : nid = t.2.2
      · apply markFold_zero_stays
        unfold markStep
        dsimp only
        split_ifs with hm
        · dsimp only
          subst hn
          exact Function.update_same _ _ _
        · subst hn
          omega
      · rcases List.mem_cons.mp h with h1 | h1
        · exact absurd h1 hn
        · exact ih _ nid h1

theorem markFold_untouched :
    ∀ (l : List (Nat × Nat × Nat)) (st : List AlgEl × (Nat → Nat)) (nid : Nat),
      (∀ t ∈ l, t.2.2 ≠ nid) → (l.foldl markStep st).2 nid = st.2 nid := by
  intro l
  induction l with
  | nil => intro st nid _; rfl
  | cons t l ih =>
      intro st nid h
      rw [List.foldl_cons, ih _ nid (fun t' ht' => h t' (List.mem_cons_of_mem t ht'))]
      unfold markStep
      dsimp only
      split_ifs with hm
      · dsimp only
        rw [Function.update_noteq (fun he => h t (List.mem_cons_self t l) he.symm)]
      · rfl

theorem inputPosList_thirds (inputv : List (List Nat)) :
    (inputPosList inputv).map (fun t => t.2.2) = inputv.flatten := by
  unfold inputPosList
  rw [List.map_flatten, List.map_map]
  have h1 : ∀ im : Nat × List Nat,
      ((fun l => l.map (fun t : Nat × Nat × Nat => t.2.2)) ∘
        (fun im : Nat × List Nat => im.2.enum.map (fun ne => (im.1, ne.1, ne.2)))) im =
      im.2 := by
    intro im
    show (im.2.enum.map (fun ne => (im.1, ne.1, ne.2))).map (fun t => t.2.2) = im.2
    rw [List.map_map]
    have h2 : ((fun t : Nat × Nat × Nat => t.2.2) ∘ (fun ne : Nat × Nat => (im.1, ne.1, ne.2))) =
        Prod.snd := rfl
    rw [h2]
    exact List.enum_map_snd im.2
  rw [List.map_congr_left (fun im _ => h1 im), List.enum_map_snd inputv]

theorem symbMark_go (l : List (Nat × Nat)) :
    ∀ (f : Nat → Nat) (nid : Nat),
      (l.foldl (fun f pr => Function.update f pr.2 (pr.1 + 1)) f) nid ≠ 0 ↔
        nid ∈ l.map (fun pr => pr.2) ∨ f nid ≠ 0 := by
  induction l with
  | nil =>
      intro f nid
      simp
  | cons pr l ih =>
      intro f nid
      rw [List.foldl_cons, ih, List.map_cons]
      by_cases hn : nid = pr.2
      · subst hn
        rw [Function.update_same]
        simp
      · rw [Function.update_noteq hn]
        constructor
        · rintro (h | h)
          · exact Or.inl (List.mem_cons_of_mem _ h)
          · exact Or.inr h
        · rintro (h | h)
          · rcases List.mem_cons.mp h with h1 | h1
            · exact absurd h1 hn
            · exact Or.inl h1
          · exact Or.inr h

theorem symbMark_ne_zero (symb : List (Nat × Nat)) (nid : Nat) :
    symbMark symb nid ≠ 0 ↔ nid ∈ symb.map (fun pr => pr.2) := by
  unfold symbMark
  rw [symbMark_go]
  simp

theorem freeVars_mem (symb : List (Nat × Nat)) (mark : Nat → Nat) (nid : Nat) :
    nid ∈ freeVarsOf symb mark ↔
      nid ∈ symb.map (fun pr => pr.2) ∧ mark nid ≠ 0 := by
  unfold freeVarsOf
  constructor
  · intro h
    obtain ⟨pr, hpr, hpr2⟩ := List.mem_map.mp h
    obtain ⟨hprs, hprm⟩ := List.mem_filter.mp hpr
    refine ⟨List.mem_map.mpr ⟨pr, hprs, hpr2⟩, ?_⟩
    rw [← hpr2]
    simpa using hprm
  · rintro ⟨h1, h2⟩
    obtain ⟨pr, hprs, hpr2⟩ := List.mem_map.mp h1
    apply List.mem_map.mpr
    refine ⟨pr, List.mem_filter.mpr ⟨hprs, by rw [hpr2]; simpa using h2⟩, hpr2⟩

theorem symbOf_mem (pool : List PNode) (l : List (Option Nat)) (t nid : Nat)
    (h : l.getD t none = some nid) (hp : (nodeAt pool nid).op = .param) :
    nid ∈ (symbOf pool l).map (fun pr => pr.2) := by
  have ht := optGetD_lt _ _ _ h
  have henum : (t, some nid) ∈ l.enum := by
    have ht2 : t < l.enum.length := by simpa using ht
    have h1 : l.enum[t] = (t, l[t]) := List.getElem_enum _ _ _
    rw [List.getD_eq_getElem _ _ ht] at h
    rw [h] at h1
    exact h1 ▸ List.getElem_mem ht2
  apply List.mem_map.mpr
  refine ⟨(t, nid), ?_, rfl⟩
  unfold symbOf
  apply List.mem_filterMap.mpr
  refine ⟨(t, some nid), henum, ?_⟩
  show (match some nid with
    | some p => if (nodeAt pool p).op = .param then some (t, p) else none
    | none => none) = some (t, nid)
  rw [show (match some nid with
    | some p => if (nodeAt pool p).op = .param then some (t, p) else none
    | none => none) = if (nodeAt pool nid).op = .param then some (t, nid) else none from rfl,
    if_pos hp]

/-- C9: every parameter node reachable from the declared outputs that is
not among the declared input nonzeros is recorded in the free-variables
list `init` produces (it is never silently dropped), and whenever that list
is nonempty every numeric evaluation call fails with an error naming
exactly that list, before any instruction executes. -/
theorem c9_free_variables (pool : List PNode) (inputv outputv : List (List Nat))
    (live : Bool) (hwf : PoolWF pool) (hin : InputsWF pool inputv)
    (hout : OutputsWF pool outputv) :
    (∀ nid, ReachesOutput pool outputv nid → (nodeAt pool nid).op = .param →
      nid ∉ inputv.flatten → nid ∈ (sxInit pool inputv outputv live).freeVars) ∧
    ((sxInit pool inputv outputv live).freeVars ≠ [] →
      ∀ tape fseeds aseeds,
        evaluateGenChecked (sxInit pool inputv outputv live) tape fseeds aseeds =
          .error (sxInit pool inputv outputv live).freeVars) := by
  constructor
  · intro nid hreach hparam hnin
    obtain ⟨r, hr, hrreach⟩ := hreach
    have hrm : (outputv.flatten.foldl (dfsOutStep pool) (initMarks pool, [])).1.getD r
        false = true :=
      dfsOut_fold_marked pool hwf outputv.flatten (initMarks pool, [])
        (by simp [initMarks]) r hr (hout r hr)
    have hdc : DepClosedMarks pool
        (outputv.flatten.foldl (dfsOutStep pool) (initMarks pool, [])).1 :=
      dfsOut_fold_depclosed pool outputv.flatten _ (initMarks_depclosed pool)
    have hnidm : (outputv.flatten.foldl (dfsOutStep pool) (initMarks pool, [])).1.getD nid
        false = true :=
      reach_marked pool _ hdc r nid hrreach hrm
    obtain ⟨hinvF, hcountF, hsepF⟩ := phase1_spec pool hwf outputv.flatten hout
      outputv.flatten [] (List.append_nil _).symm
    obtain ⟨t, ht, hto⟩ := hinvF.2.1 nid hnidm
    obtain ⟨hmF, extra, hex, _, _, _⟩ :=
      phase2_spec (outputv.flatten.foldl (dfsOutStep pool) (initMarks pool, []))
        inputv.flatten hin.2 inputv.flatten [] (List.append_nil _).symm
    have hto' : (buildNodes pool inputv outputv).2.getD t none = some nid := by
      show (inputv.flatten.foldl inpStep
        (outputv.flatten.foldl (dfsOutStep pool) (initMarks pool, []))).2.getD t none =
        some nid
      rw [hex, getD_append_left_gen _ _ _ _ ht]
      exact hto
    obtain ⟨_, _, _, _, hcnt⟩ := buildNodes_wf pool inputv outputv hwf hin hout
    have htot : noneCount (buildNodes pool inputv outputv).2 =
        (outPosAll outputv).length := by
      rw [hcnt, outPosAll_length]
    obtain ⟨_, _, hsy, _, _⟩ := buildAlg_fold_spec pool (buildNodes pool inputv outputv).2
      outputv htot (buildNodes pool inputv outputv).2 [] (List.append_nil _).symm
    have hsymb : (buildAlg pool (buildNodes pool inputv outputv).2 outputv).symb =
        symbOf pool (buildNodes pool inputv outputv).2 := hsy
    have hmem : nid ∈ (buildAlg pool (buildNodes pool inputv outputv).2 outputv).symb.map
        (fun pr => pr.2) := by
      rw [hsymb]
      exact symbOf_mem pool _ t nid hto' hparam
    have hmark : (markInputs inputv
        (allocPass live (buildAlg pool (buildNodes pool inputv outputv).2 outputv)
          (buildNodes pool inputv outputv).2.length).alg
        (symbMark (buildAlg pool (buildNodes pool inputv outputv).2 outputv).symb)).2 nid =
        symbMark (buildAlg pool (buildNodes pool inputv outputv).2 outputv).symb nid := by
      unfold markInputs
      apply markFold_untouched
      intro tq htq he
      apply hnin
      rw [← inputPosList_thirds inputv]
      exact List.mem_map.mpr ⟨tq, htq, he⟩
    show nid ∈ freeVarsOf (buildAlg pool (buildNodes pool inputv outputv).2 outputv).symb
      (markInputs inputv
        (allocPass live (buildAlg pool (buildNodes pool inputv outputv).2 outputv)
          (buildNodes pool inputv outputv).2.length).alg
        (symbMark (buildAlg pool (buildNodes pool inputv outputv).2 outputv).symb)).2
    rw [freeVars_mem]
    refine ⟨hmem, ?_⟩
    rw [hmark]
    exact (symbMark_ne_zero _ nid).mpr hmem
  · intro hne tape fseeds aseeds
    unfold evaluateGenChecked
    rw [if_pos hne]

/-- Witness for C9: parameter 1 of `poolFree` is reachable from the output
but not declared as an input; it is listed free and evaluation errors. -/
theorem c9_free_variables_witness :
    (PoolWF poolFree ∧ InputsWF poolFree [[0]] ∧ OutputsWF poolFree [[2]]) ∧
      1 ∈ (sxInit poolFree [[0]] [[2]] true).freeVars ∧
      evaluateGenChecked (sxInit poolFree [[0]] [[2]] true) (fun _ => (0, 0)) [] [] =
        .error (sxInit poolFree [[0]] [[2]] true).freeVars := by
  refine ⟨⟨by decide, by decide, by decide⟩, ?_, ?_⟩
  · exact (c9_free_variables poolFree [[0]] [[2]] true (by decide) (by decide)
      (by decide)).1 1 ⟨2, by decide, Reach.step (Reach.refl 2) (by decide)⟩
      (by decide) (by decide)
  · exact (c9_free_variables poolFree [[0]] [[2]] true (by decide) (by decide)
      (by decide)).2 (by decide) (fun _ => (0, 0)) [] []

theorem usesFrom_succ (alg : List AlgEl) (j n : Nat) (hn : n < alg.length) :
    usesFrom alg j n = usesInEl (instrAt alg n) j + usesFrom alg j (n + 1) := by
  unfold usesFrom
  rw [List.drop_eq_getElem_cons hn, List.map_cons, List.sum_cons]
  unfold instrAt
  rw [List.getD_eq_getElem alg nilEl hn]

theorem usesFrom_ge (alg : List AlgEl) (j n : Nat) (h : alg.length ≤ n) :
    usesFrom alg j n = 0 := by
  unfold usesFrom
  rw [List.drop_eq_nil_of_le h]
  rfl

theorem usesFrom_concat (alg : List AlgEl) (ae : AlgEl) (j : Nat) :
    usesFrom (alg ++ [ae]) j 0 = usesFrom alg j 0 + usesInEl ae j := by
  unfold usesFrom
  rw [List.drop_zero, List.drop_zero, List.map_append, List.sum_append]
  simp

theorem bumpRef_length (rc : List Int) (j : Nat) : (bumpRef rc j).length = rc.length := by
  unfold bumpRef
  exact List.length_set rc j _

theorem bump_fold (ae : AlgEl) (j : Nat) :
    ∀ (cs : List Nat) (rc : List Int), (∀ c ∈ cs, ae.argSlot c < rc.length) →
      ((cs.foldl (fun rc c => bumpRef rc (ae.argSlot c)) rc).getD j 0 =
        rc.getD j 0 + ((cs.filter (fun c => ae.argSlot c = j)).length : Int)) ∧
      (cs.foldl (fun rc c => bumpRef rc (ae.argSlot c)) rc).length = rc.length := by
  intro cs
  induction cs with
  | nil => intro rc _; exact ⟨by simp, rfl⟩
  | cons c cs ih =>
      intro rc hargs
      rw [List.foldl_cons]
      obtain ⟨ih1, ih2⟩ := ih (bumpRef rc (ae.argSlot c))
        (fun c' hc' => by rw [bumpRef_length]; exact hargs c' (List.mem_cons_of_mem c hc'))
      constructor
      · rw [ih1, List.filter_cons]
        by_cases hcj : ae.argSlot c = j
        · rw [if_pos (by simpa using hcj)]
          have hself : (bumpRef rc (ae.argSlot c)).getD j 0 = rc.getD j 0 + 1 := by
            unfold bumpRef
            rw [← hcj]
            exact getD_set_self_gen _ _ _ _ (hargs c (List.mem_cons_self c cs))
          rw [hself, List.length_cons]
          push_cast
          omega
        · rw [if_neg (by simpa using hcj)]
          have hne : (bumpRef rc (ae.argSlot c)).getD j 0 = rc.getD j 0 := by
            unfold bumpRef
            rw [getD_set_ne_gen _ _ _ _ _ (fun he => hcj he.symm)]
          rw [hne]
      · rw [ih2, bumpRef_length]

theorem bumpRefs_getD (rc : List Int) (ae : AlgEl) (j : Nat)
    (hargs : ∀ c, c < ae.op.ndeps → ae.argSlot c < rc.length) :
    (bumpRefs rc ae).getD j 0 = rc.getD j 0 + (usesInEl ae j : Int) ∧
    (bumpRefs rc ae).length = rc.length := by
  unfold bumpRefs usesInEl
  exact bump_fold ae j (List.range ae.op.ndeps) rc
    (fun c hc => hargs c (List.mem_range.mp hc))

theorem buildStep_some_rc (pool : List PNode) (nodes : List (Option Nat))
    (outputv : List (List Nat)) (st : BuildSt) (p : Nat) :
    (buildStep pool nodes outputv st (some p)).refcount =
      bumpRefs st.refcount (buildEl pool nodes p) := by
  unfold buildStep buildEl
  dsimp only
  rcases hop : (nodeAt pool p).op with _ | _ | _ | _ | u | b <;> rfl

theorem buildStep_none_rc (pool : List PNode) (nodes : List (Option Nat))
    (outputv : List (List Nat)) (st : BuildSt) :
    (buildStep pool nodes outputv st none).refcount =
      bumpRefs st.refcount
        { op := .output, i0 := tempIdx nodes ((outputv.getD st.oind []).getD st.nz 0),
          i1 := st.nz, res := st.oind } := by
  unfold buildStep
  rfl

/-- The reference counts the building loop accumulates are the per-position
operand use counts of the built prefix. -/
theorem buildAlg_rc_foldl (pool : List PNode) (nodes : List (Option Nat))
    (outputv : List (List Nat)) :
    ∀ pre suf, nodes = pre ++ suf →
      (pre.foldl (buildStep pool nodes outputv) (buildInit nodes outputv)).refcount =
        (pre.foldl (buildStep pool nodes outputv) (buildInit nodes outputv)).alg.foldl
          (fun rc ae => bumpRefs rc ae) (List.replicate nodes.length 0) := by
  intro pre
  induction pre using List.reverseRecOn with
  | nil => intro suf hps; rfl
  | append_singleton pre x ihp =>
      intro suf hps
      have ihr := ihp (x :: suf) (by rw [hps, List.append_assoc]; rfl)
      have hfold : (pre ++ [x]).foldl (buildStep pool nodes outputv)
          (buildInit nodes outputv) =
          buildStep pool nodes outputv
            (pre.foldl (buildStep pool nodes outputv) (buildInit nodes outputv)) x := by
        rw [List.foldl_append, List.foldl_cons, List.foldl_nil]
      rw [hfold]
      rcases x with _ | p
      · obtain ⟨ha, _, _, _⟩ := buildStep_none pool nodes outputv
          (pre.foldl (buildStep pool nodes outputv) (buildInit nodes outputv))
        rw [buildStep_none_rc, ha, List.foldl_append, List.foldl_cons, List.foldl_nil, ihr]
      · obtain ⟨ha, _, _, _⟩ := buildStep_some pool nodes outputv
          (pre.foldl (buildStep pool nodes outputv) (buildInit nodes outputv)) p
        rw [buildStep_some_rc, ha, List.foldl_append, List.foldl_cons, List.foldl_nil, ihr]

/-- Accumulated bump folds compute total use counts. -/
theorem rcFold_getD (j : Nat) :
    ∀ (alg : List AlgEl) (rc0 : List Int),
      (∀ k, k < alg.length → ∀ c, c < (instrAt alg k).op.ndeps →
        (instrAt alg k).argSlot c < rc0.length) →
      ((alg.foldl (fun rc ae => bumpRefs rc ae) rc0).getD j 0 =
        rc0.getD j 0 + (usesFrom alg j 0 : Int)) ∧
      (alg.foldl (fun rc ae => bumpRefs rc ae) rc0).length = rc0.length := by
  intro alg
  induction alg using List.reverseRecOn with
  | nil =>
      intro rc0 _
      constructor
      · rw [usesFrom_ge _ _ _ (by simp)]
        simp
      · rfl
  | append_singleton alg ae ih =>
      intro rc0 hargs
      rw [List.foldl_append, List.foldl_cons, List.foldl_nil]
      have hargs' : ∀ k, k < alg.length → ∀ c, c < (instrAt alg k).op.ndeps →
          (instrAt alg k).argSlot c < rc0.length := by
        intro k hk c hc
        have h1 : instrAt (alg ++ [ae]) k = instrAt alg k :=
          instrAt_append_left _ _ k hk
        have := hargs k (by rw [List.length_append]; omega) c (by rwa [h1])
        rwa [h1] at this
      obtain ⟨ih1, ih2⟩ := ih rc0 hargs'
      have haea : ∀ c, c < ae.op.ndeps → ae.argSlot c <
          (alg.foldl (fun rc ae => bumpRefs rc ae) rc0).length := by
        intro c hc
        rw [ih2]
        have h1 : instrAt (alg ++ [ae]) alg.length = ae := instrAt_concat_self _ _
        have := hargs alg.length (by simp) c (by rwa [h1])
        rwa [h1] at this
      obtain ⟨hb1, hb2⟩ := bumpRefs_getD (alg.foldl (fun rc ae => bumpRefs rc ae) rc0) ae j haea
      constructor
      · rw [hb1, ih1, usesFrom_concat]
        push_cast
        omega
      · rw [hb2, ih2]

theorem evAt_append (tr ext : List AllocEv) (q : Nat) (h : q < tr.length) :
    evAt (tr ++ ext) q = evAt tr q :=
  getD_append_left_gen tr ext q _ h

theorem evAt_concat (tr : List AllocEv) (ev : AllocEv) :
    evAt (tr ++ [ev]) tr.length = ev :=
  getD_concat_self tr ev _

theorem matchedBefore_append (tr ext : List AllocEv) (j i : Nat) (hj : j < tr.length)
    (hi : i ≤ tr.length) : MatchedBefore tr j i ↔ MatchedBefore (tr ++ ext) j i := by
  unfold MatchedBefore
  constructor
  · rintro ⟨q, hq, hjq, h1, h2⟩
    refine ⟨q, hq, hjq, ?_, ?_⟩
    · rwa [evAt_append _ _ _ (by omega)]
    · rwa [evAt_append _ _ _ (by omega), evAt_append _ _ _ hj]
  · rintro ⟨q, hq, hjq, h1, h2⟩
    refine ⟨q, hq, hjq, ?_, ?_⟩
    · rwa [evAt_append _ _ _ (by omega)] at h1
    · rwa [evAt_append _ _ _ (by omega), evAt_append _ _ _ hj] at h2

theorem matchedBefore_mono (tr : List AllocEv) (j i i' : Nat)
    (h : MatchedBefore tr j i) (hii : i ≤ i') : MatchedBefore tr j i' := by
  obtain ⟨q, hq, hjq, h1, h2⟩ := h
  exact ⟨q, by omega, hjq, h1, h2⟩

theorem lifoWitness_append (tr : List AllocEv) (ev : AllocEv) (j i : Nat)
    (hj : j < i) (hi : i < tr.length) (h : LIFOWitness tr j i) :
    LIFOWitness (tr ++ [ev]) j i := by
  obtain ⟨⟨p1, p2, p3⟩, hins, hmat⟩ := h
  refine ⟨⟨?_, ?_, ?_⟩, ?_, ?_⟩
  · rwa [evAt_append _ _ _ (by omega)]
  · rwa [evAt_append _ _ _ (by omega), evAt_append _ _ _ hi]
  · intro q hq hjq hcon
    rw [evAt_append _ _ _ (by omega), evAt_append _ _ _ hi] at hcon
    exact p3 q hq hjq hcon
  · rwa [evAt_append _ _ _ (by omega), evAt_append _ _ _ hi]
  · intro j' hj' hjj' hf
    rw [evAt_append _ _ _ (by omega)] at hf
    exact (matchedBefore_append tr [ev] j' i (by omega) (by omega)).mp
      (hmat j' hj' hjj' hf)

theorem reuseLIFO_snoc (tr : List AllocEv) (ev : AllocEv) (h : ReuseLIFO tr)
    (hev : ev.isReuse = true →
      ∃ j, j < tr.length ∧ LIFOWitness (tr ++ [ev]) j tr.length) :
    ReuseLIFO (tr ++ [ev]) := by
  intro i hi hre
  rw [List.length_append] at hi
  simp at hi
  by_cases hil : i < tr.length
  · rw [evAt_append _ _ _ hil] at hre
    obtain ⟨j, hj, hw⟩ := h i hil hre
    exact ⟨j, hj, lifoWitness_append tr ev j i hj hil hw⟩
  · have hieq : i = tr.length := by omega
    subst hieq
    rw [evAt_concat] at hre
    obtain ⟨j, hj, hw⟩ := hev hre
    exact ⟨j, hj, hw⟩

theorem freshOnly_snoc (tr : List AllocEv) (ev : AllocEv) (h : FreshOnlyWhenEmpty tr)
    (hev : ev.isFresh = true → ∀ j, j < tr.length → (evAt tr j).isFree = true →
      MatchedBefore (tr ++ [ev]) j tr.length) :
    FreshOnlyWhenEmpty (tr ++ [ev]) := by
  intro i hi hfr j hj hjf
  rw [List.length_append] at hi
  simp at hi
  by_cases hil : i < tr.length
  · rw [evAt_append _ _ _ hil] at hfr
    rw [evAt_append _ _ _ (by omega)] at hjf
    exact (matchedBefore_append tr [ev] j i (by omega) (by omega)).mp
      (h i hil hfr j hj hjf)
  · have hieq : i = tr.length := by omega
    subst hieq
    rw [evAt_concat] at hfr
    rw [evAt_append _ _ _ (by omega)] at hjf
    exact hev hfr j hj hjf

theorem pendUses_cons (el : AlgEl) (c : Nat) (cs : List Nat) (j : Nat) :
    pendUses el (c :: cs) j =
      (if el.argSlot c = j then 1 else 0) + pendUses el cs j := by
  unfold pendUses
  rw [List.filter_cons]
  by_cases hc : el.argSlot c = j
  · rw [if_pos (by simpa using hc), if_pos hc, List.length_cons]
    push_cast
    omega
  · rw [if_neg (by simpa using hc), if_neg hc]
    omega

theorem pendUses_nonneg (el : AlgEl) (cs : List Nat) (j : Nat) : 0 ≤ pendUses el cs j := by
  unfold pendUses
  positivity

theorem consumeOne_cases (place : List Nat) (k : Nat) (el : AlgEl)
    (rc : List Int) (unused : List (Nat × Nat)) (trace : List AllocEv) (c : Nat) :
    (consumeOne place k el (rc, unused, trace) c =
      (rc.set (el.argSlot c) (rc.getD (el.argSlot c) 0 - 1),
        (place.getD (el.argSlot c) 0, trace.length) :: unused,
        trace ++ [.free (place.getD (el.argSlot c) 0) k]) ∧
      (rc.set (el.argSlot c) (rc.getD (el.argSlot c) 0 - 1)).getD (el.argSlot c) 0 = 0) ∨
    (consumeOne place k el (rc, unused, trace) c =
      (rc.set (el.argSlot c) (rc.getD (el.argSlot c) 0 - 1), unused, trace) ∧
      ¬ (rc.set (el.argSlot c) (rc.getD (el.argSlot c) 0 - 1)).getD (el.argSlot c) 0 = 0) := by
  unfold consumeOne
  dsimp only
  by_cases h : (rc.set (el.argSlot c) (rc.getD (el.argSlot c) 0 - 1)).getD (el.argSlot c) 0 = 0
  · left
    exact ⟨by rw [if_pos h], h⟩
  · right
    exact ⟨by rw [if_neg h], h⟩

theorem traceStackInv_mono_bound (b b' w : Nat) (tr : List AllocEv)
    (unused : List (Nat × Nat)) (hb : b ≤ b') (h : TraceStackInv b w tr unused) :
    TraceStackInv b' w tr unused := by
  obtain ⟨t1, t2, t3, t4, t5, t6, t7, t8⟩ := h
  exact ⟨fun q hq => lt_of_lt_of_le (t1 q hq) hb, t2, t3, t4, t5, t6, t7, t8⟩

theorem consume_fold_spec (alg : List AlgEl) (n : Nat) (place : List Nat) (wsize : Nat)
    (hn : n < alg.length)
    (hargs : ∀ c, c < (instrAt alg n).op.ndeps →
      (instrAt alg n).argSlot c < n ∧
        (instrAt alg ((instrAt alg n).argSlot c)).op ≠ .output) :
    ∀ (cs : List Nat) (rc : List Int) (unused : List (Nat × Nat)) (trace : List AllocEv),
      (∀ c ∈ cs, c < (instrAt alg n).op.ndeps) →
      (∀ j, rc.getD j 0 = (usesFrom alg j (n + 1) : Int) + pendUses (instrAt alg n) cs j) →
      rc.length = alg.length →
      TraceStackInv (n + 1) wsize trace unused →
      LiveInv alg n rc place wsize unused →
      (∀ j, (cs.foldl (consumeOne place n (instrAt alg n)) (rc, unused, trace)).1.getD j 0 =
        (usesFrom alg j (n + 1) : Int)) ∧
      (cs.foldl (consumeOne place n (instrAt alg n)) (rc, unused, trace)).1.length =
        alg.length ∧
      TraceStackInv (n + 1) wsize
        (cs.foldl (consumeOne place n (instrAt alg n)) (rc, unused, trace)).2.2
        (cs.foldl (consumeOne place n (instrAt alg n)) (rc, unused, trace)).2.1 ∧
      LiveInv alg n
        (cs.foldl (consumeOne place n (instrAt alg n)) (rc, unused, trace)).1 place wsize
        (cs.foldl (consumeOne place n (instrAt alg n)) (rc, unused, trace)).2.1 := by
  intro cs
  induction cs with
  | nil =>
      intro rc unused trace hmem hrc hlen hts hlive
      rw [List.foldl_nil]
      refine ⟨?_, hlen, hts, hlive⟩
      intro j
      have hj := hrc j
      simp only [pendUses, List.filter_nil, List.length_nil, Nat.cast_zero, add_zero] at hj
      exact hj
  | cons c cs ih =>
      intro rc unused trace hmem hrc hlen hts hlive
      rw [List.foldl_cons]
      have hc : c < (instrAt alg n).op.ndeps := hmem c (List.mem_cons_self c cs)
      obtain ⟨hchn, hchout⟩ := hargs c hc
      have hchlen : (instrAt alg n).argSlot c < rc.length := by omega
      have hrcg : ∀ j, (rc.set ((instrAt alg n).argSlot c)
          (rc.getD ((instrAt alg n).argSlot c) 0 - 1)).getD j 0 =
          (usesFrom alg j (n + 1) : Int) + pendUses (instrAt alg n) cs j := by
        intro j
        by_cases hj : j = (instrAt alg n).argSlot c
        · subst hj
          rw [getD_set_self_gen _ _ _ _ hchlen, hrc _, pendUses_cons, if_pos rfl]
          ring
        · rw [getD_set_ne_gen _ _ _ _ _ hj, hrc j, pendUses_cons,
            if_neg (fun hh => hj hh.symm)]
          ring
      have hrcl : (rc.set ((instrAt alg n).argSlot c)
          (rc.getD ((instrAt alg n).argSlot c) 0 - 1)).length = alg.length := by
        rw [List.length_set]
        exact hlen
      have hsub : ∀ j, 0 < (rc.set ((instrAt alg n).argSlot c)
          (rc.getD ((instrAt alg n).argSlot c) 0 - 1)).getD j 0 → 0 < rc.getD j 0 := by
        intro j hj
        by_cases hje : j = (instrAt alg n).argSlot c
        · subst hje
          rw [getD_set_self_gen _ _ _ _ hchlen] at hj
          omega
        · rwa [getD_set_ne_gen _ _ _ _ _ hje] at hj
      have hlive' : LiveInv alg n (rc.set ((instrAt alg n).argSlot c)
          (rc.getD ((instrAt alg n).argSlot c) 0 - 1)) place wsize unused :=
        ⟨hlive.1,
         fun j1 j2 h1 h2 h3 h4 h5 h6 h7 =>
           hlive.2.1 j1 j2 h1 h2 (hsub j1 h3) h4 h5 (hsub j2 h6) h7,
         fun e he j hj hjo hjl => hlive.2.2 e he j hj hjo (hsub j hjl)⟩
      rcases consumeOne_cases place n (instrAt alg n) rc unused trace c with
        ⟨heq, h0⟩ | ⟨heq, h0⟩
      · rw [heq]
        have hchlive : 0 < rc.getD ((instrAt alg n).argSlot c) 0 := by
          have hx := hrc ((instrAt alg n).argSlot c)
          rw [pendUses_cons, if_pos rfl] at hx
          have hp := pendUses_nonneg (instrAt alg n) cs ((instrAt alg n).argSlot c)
          omega
        have hs_lt : place.getD ((instrAt alg n).argSlot c) 0 < wsize :=
          hlive.1 _ hchn hchout
        have hs_notin : ∀ e ∈ unused, place.getD ((instrAt alg n).argSlot c) 0 ≠ e.1 :=
          fun e he => hlive.2.2 e he _ hchn hchout hchlive
        obtain ⟨t1, t2, t3, t4, t5, t6, t7, t8⟩ := hts
        have hts' : TraceStackInv (n + 1) wsize
            (trace ++ [AllocEv.free (place.getD ((instrAt alg n).argSlot c) 0) n])
            ((place.getD ((instrAt alg n).argSlot c) 0, trace.length) :: unused) := by
          refine ⟨?_, ?_, ?_, ?_, ?_, ?_, ?_, ?_⟩
          · intro q hq
            simp only [List.length_append, List.length_cons, List.length_nil] at hq
            by_cases hql : q < trace.length
            · rw [evAt_append _ _ _ hql]
              exact t1 q hql
            · have hqe : q = trace.length := by omega
              subst hqe
              rw [evAt_concat]
              exact Nat.lt_succ_self n
          · intro e he
            rcases List.mem_cons.mp he with rfl | he'
            · refine ⟨?_, ?_, ?_, ?_⟩
              · show trace.length <
                  (trace ++ [AllocEv.free (place.getD ((instrAt alg n).argSlot c) 0) n]).length
                simp only [List.length_append, List.length_cons, List.length_nil]
                omega
              · show (evAt (trace ++ [AllocEv.free (place.getD ((instrAt alg n).argSlot c) 0) n])
                  trace.length).isFree = true
                rw [evAt_concat]
                rfl
              · show (evAt (trace ++ [AllocEv.free (place.getD ((instrAt alg n).argSlot c) 0) n])
                  trace.length).slot = place.getD ((instrAt alg n).argSlot c) 0
                rw [evAt_concat]
                rfl
              · intro q hq1 hq2 hcon
                have hq1' : trace.length < q := hq1
                simp only [List.length_append, List.length_cons, List.length_nil] at hq2
                omega
            · obtain ⟨he1, he2, he3, he4⟩ := t2 e he'
              refine ⟨?_, ?_, ?_, ?_⟩
              · simp only [List.length_append, List.length_cons, List.length_nil]
                omega
              · rw [evAt_append _ _ _ he1]
                exact he2
              · rw [evAt_append _ _ _ he1]
                exact he3
              · intro q hq1 hq2 hcon
                simp only [List.length_append, List.length_cons, List.length_nil] at hq2
                by_cases hql : q < trace.length
                · rw [evAt_append _ _ _ hql] at hcon
                  exact he4 q hq1 hql hcon
                · have hqe : q = trace.length := by omega
                  subst hqe
                  rw [evAt_concat] at hcon
                  simp [AllocEv.isAlloc] at hcon
          · rw [List.pairwise_cons]
            constructor
            · intro e he
              show e.2 < trace.length
              exact (t2 e he).1
            · exact t3
          · intro j hj hjf
            simp only [List.length_append, List.length_cons, List.length_nil] at hj
            by_cases hjl : j < trace.length
            · rw [evAt_append _ _ _ hjl] at hjf
              rcases t4 j hjl hjf with hmemu | hmat
              · left
                rw [evAt_append _ _ _ hjl]
                exact List.mem_cons_of_mem _ hmemu
              · right
                have hm1 := (matchedBefore_append trace
                  [AllocEv.free (place.getD ((instrAt alg n).argSlot c) 0) n]
                  j trace.length hjl (le_refl _)).mp hmat
                have hm2 := matchedBefore_mono _ _ _ (trace.length + 1) hm1 (by omega)
                simp only [List.length_append, List.length_cons, List.length_nil,
                  Nat.zero_add]
                exact hm2
            · have hje : j = trace.length := by omega
              subst hje
              left
              rw [evAt_concat]
              exact List.mem_cons_self _ _
          · rw [List.map_cons, List.nodup_cons]
            constructor
            · intro hmm
              obtain ⟨e, he, hee⟩ := List.mem_map.mp hmm
              exact hs_notin e he hee.symm
            · exact t5
          · intro e he
            rcases List.mem_cons.mp he with rfl | he'
            · exact hs_lt
            · exact t6 e he'
          · exact reuseLIFO_snoc trace _ t7
              (fun habs => absurd habs (by simp [AllocEv.isReuse]))
          · exact freshOnly_snoc trace _ t8
              (fun habs => absurd habs (by simp [AllocEv.isFresh]))
        have hlive'' : LiveInv alg n (rc.set ((instrAt alg n).argSlot c)
            (rc.getD ((instrAt alg n).argSlot c) 0 - 1)) place wsize
            ((place.getD ((instrAt alg n).argSlot c) 0, trace.length) :: unused) := by
          refine ⟨hlive'.1, hlive'.2.1, ?_⟩
          intro e he j hj hjo hjl
          rcases List.mem_cons.mp he with rfl | he'
          · show place.getD j 0 ≠ place.getD ((instrAt alg n).argSlot c) 0
            intro hpe
            have hjch : j ≠ (instrAt alg n).argSlot c := by
              intro hh
              rw [hh] at hjl
              rw [h0] at hjl
              exact lt_irrefl 0 hjl
            exact hjch (hlive.2.1 j ((instrAt alg n).argSlot c) hj hjo (hsub j hjl)
              hchn hchout hchlive hpe)
          · exact hlive'.2.2 e he' j hj hjo hjl
        exact ih _ _ _ (fun c' hc' => hmem c' (List.mem_cons_of_mem c hc'))
          hrcg hrcl hts' hlive''
      · rw [heq]
        exact ih _ _ _ (fun c' hc' => hmem c' (List.mem_cons_of_mem c hc'))
          hrcg hrcl hts hlive'

theorem pendUses_range_reverse (el : AlgEl) (j : Nat) :
    pendUses el ((List.range el.op.ndeps).reverse) j = (usesInEl el j : Int) := by
  unfold pendUses usesInEl
  rw [List.filter_reverse, List.length_reverse]

theorem getD_replicate_gen {α : Type} (n k : Nat) (a : α) :
    (List.replicate n a).getD k a = a := by
  rw [List.getD_eq_getElem?_getD, List.getElem?_replicate]
  split <;> rfl

theorem evFree_not_reuse (e : AllocEv) (h : e.isFree = true) : e.isReuse = false := by
  cases e with
  | free s i => rfl
  | alloc s i f => simp [AllocEv.isFree] at h

theorem evFree_not_alloc (e : AllocEv) (h : e.isFree = true) : e.isAlloc = false := by
  cases e with
  | free s i => rfl
  | alloc s i f => simp [AllocEv.isFree] at h

theorem allocStep_output_state (live : Bool) (st : AllocSt) (k : Nat) (el : AlgEl)
    (h : el.op = .output) :
    (allocStep live st (k, el)).refcount =
      ((List.range el.op.ndeps).reverse.foldl (consumeOne st.place k el)
        (st.refcount, st.unused, st.trace)).1 ∧
    (allocStep live st (k, el)).place = st.place ∧
    (allocStep live st (k, el)).unused =
      ((List.range el.op.ndeps).reverse.foldl (consumeOne st.place k el)
        (st.refcount, st.unused, st.trace)).2.1 ∧
    (allocStep live st (k, el)).worksize = st.worksize ∧
    (allocStep live st (k, el)).trace =
      ((List.range el.op.ndeps).reverse.foldl (consumeOne st.place k el)
        (st.refcount, st.unused, st.trace)).2.2 := by
  unfold allocStep
  dsimp only
  rw [if_pos h]
  exact ⟨rfl, rfl, rfl, rfl, rfl⟩

theorem allocStep_reuse_state (st : AllocSt) (k : Nat) (el : AlgEl)
    (h : ¬ el.op = .output) (s pos : Nat) (rest : List (Nat × Nat))
    (hu : ((List.range el.op.ndeps).reverse.foldl (consumeOne st.place k el)
      (st.refcount, st.unused, st.trace)).2.1 = (s, pos) :: rest) :
    (allocStep true st (k, el)).refcount =
      ((List.range el.op.ndeps).reverse.foldl (consumeOne st.place k el)
        (st.refcount, st.unused, st.trace)).1 ∧
    (allocStep true st (k, el)).place = st.place.set el.res s ∧
    (allocStep true st (k, el)).unused = rest ∧
    (allocStep true st (k, el)).worksize = st.worksize ∧
    (allocStep true st (k, el)).trace =
      ((List.range el.op.ndeps).reverse.foldl (consumeOne st.place k el)
        (st.refcount, st.unused, st.trace)).2.2 ++ [AllocEv.alloc s k false] := by
  unfold allocStep
  dsimp only
  rw [if_neg h, hu]
  exact ⟨rfl, rfl, rfl, rfl, rfl⟩

theorem allocStep_fresh_state (st : AllocSt) (k : Nat) (el : AlgEl)
    (h : ¬ el.op = .output)
    (hu : ((List.range el.op.ndeps).reverse.foldl (consumeOne st.place k el)
      (st.refcount, st.unused, st.trace)).2.1 = []) :
    (allocStep true st (k, el)).refcount =
      ((List.range el.op.ndeps).reverse.foldl (consumeOne st.place k el)
        (st.refcount, st.unused, st.trace)).1 ∧
    (allocStep true st (k, el)).place = st.place.set el.res st.worksize ∧
    (allocStep true st (k, el)).unused = [] ∧
    (allocStep true st (k, el)).worksize = st.worksize + 1 ∧
    (allocStep true st (k, el)).trace =
      ((List.range el.op.ndeps).reverse.foldl (consumeOne st.place k el)
        (st.refcount, st.unused, st.trace)).2.2 ++ [AllocEv.alloc st.worksize k true] := by
  unfold allocStep
  dsimp only
  rw [if_neg h, hu]
  exact ⟨rfl, rfl, rfl, rfl, rfl⟩

theorem allocStep_false_state (st : AllocSt) (k : Nat) (el : AlgEl)
    (h : ¬ el.op = .output) :
    (allocStep false st (k, el)).refcount =
      ((List.range el.op.ndeps).reverse.foldl (consumeOne st.place k el)
        (st.refcount, st.unused, st.trace)).1 ∧
    (allocStep false st (k, el)).place = st.place.set el.res st.worksize ∧
    (allocStep false st (k, el)).unused =
      ((List.range el.op.ndeps).reverse.foldl (consumeOne st.place k el)
        (st.refcount, st.unused, st.trace)).2.1 ∧
    (allocStep false st (k, el)).worksize = st.worksize + 1 ∧
    (allocStep false st (k, el)).trace =
      ((List.range el.op.ndeps).reverse.foldl (consumeOne st.place k el)
        (st.refcount, st.unused, st.trace)).2.2 ++ [AllocEv.alloc st.worksize k true] := by
  unfold allocStep
  dsimp only
  rw [if_neg h]
  exact ⟨rfl, rfl, rfl, rfl, rfl⟩

theorem liveInv_succ_output (alg : List AlgEl) (n : Nat) (rc : List Int)
    (place : List Nat) (wsz : Nat) (unused : List (Nat × Nat))
    (hout : (instrAt alg n).op = .output)
    (h : LiveInv alg n rc place wsz unused) : LiveInv alg (n + 1) rc place wsz unused := by
  have hlt : ∀ j, j < n + 1 → (instrAt alg j).op ≠ .output → j < n := by
    intro j hj hjo
    by_cases hje : j < n
    · exact hje
    · have : j = n := by omega
      rw [this] at hjo
      exact absurd hout hjo
  refine ⟨?_, ?_, ?_⟩
  · intro j hj hjo
    exact h.1 j (hlt j hj hjo) hjo
  · intro j1 j2 h1 h2 h3 h4 h5 h6 h7
    exact h.2.1 j1 j2 (hlt j1 h1 h2) h2 h3 (hlt j2 h4 h5) h5 h6 h7
  · intro e he j hj hjo hjl
    exact h.2.2 e he j (hlt j hj hjo) hjo hjl

theorem alloc_reuse_inv (alg : List AlgEl) (n : Nat)
    (place : List Nat) (wsz : Nat) (rc2 : List Int) (tr : List AllocEv)
    (s pos : Nat) (rest : List (Nat × Nat)) (hpl : n < place.length)
    (hts : TraceStackInv (n + 1) wsz tr ((s, pos) :: rest))
    (hlv : LiveInv alg n rc2 place wsz ((s, pos) :: rest)) :
    TraceStackInv (n + 1) wsz (tr ++ [AllocEv.alloc s n false]) rest ∧
    LiveInv alg (n + 1) rc2 (place.set n s) wsz rest := by
  obtain ⟨t1, t2, t3, t4, t5, t6, t7, t8⟩ := hts
  obtain ⟨hpos, hfree, hslot, hnor⟩ := t2 (s, pos) (List.mem_cons_self _ _)
  have hpos' : pos < tr.length := hpos
  have hfree' : (evAt tr pos).isFree = true := hfree
  have hslot' : (evAt tr pos).slot = s := hslot
  have hnor' : ∀ q, pos < q → q < tr.length →
      ¬((evAt tr q).isAlloc = true ∧ (evAt tr q).slot = s) := hnor
  have t5' := t5
  rw [List.map_cons] at t5'
  have hsnotmem : s ∉ rest.map (fun e => e.1) := (List.nodup_cons.mp t5').1
  have hene : ∀ e ∈ rest, e.1 ≠ s := by
    intro e he hee
    exact hsnotmem (List.mem_map.mpr ⟨e, he, hee⟩)
  have hslt : s < wsz := t6 (s, pos) (List.mem_cons_self _ _)
  constructor
  · refine ⟨?_, ?_, ?_, ?_, ?_, ?_, ?_, ?_⟩
    · intro q hq
      simp only [List.length_append, List.length_cons, List.length_nil] at hq
      by_cases hql : q < tr.length
      · rw [evAt_append _ _ _ hql]
        exact t1 q hql
      · have hqe : q = tr.length := by omega
        subst hqe
        rw [evAt_concat]
        exact Nat.lt_succ_self n
    · intro e he
      obtain ⟨he1, he2, he3, he4⟩ := t2 e (List.mem_cons_of_mem _ he)
      refine ⟨?_, ?_, ?_, ?_⟩
      · simp only [List.length_append, List.length_cons, List.length_nil]
        omega
      · rw [evAt_append _ _ _ he1]
        exact he2
      · rw [evAt_append _ _ _ he1]
        exact he3
      · intro q hq1 hq2 hcon
        simp only [List.length_append, List.length_cons, List.length_nil] at hq2
        by_cases hql : q < tr.length
        · rw [evAt_append _ _ _ hql] at hcon
          exact he4 q hq1 hql hcon
        · have hqe : q = tr.length := by omega
          subst hqe
          rw [evAt_concat] at hcon
          exact hene e he hcon.2.symm
    · exact (List.pairwise_cons.mp t3).2
    · intro j hj hjf
      simp only [List.length_append, List.length_cons, List.length_nil] at hj
      by_cases hjl : j < tr.length
      · rw [evAt_append _ _ _ hjl] at hjf
        rcases t4 j hjl hjf with hmem | hmat
        · rcases List.mem_cons.mp hmem with heq | hmem'
          · right
            have hsl : (evAt tr j).slot = s := congrArg Prod.fst heq
            refine ⟨tr.length, ?_, hjl, ?_, ?_⟩
            · simp only [List.length_append, List.length_cons, List.length_nil]
              omega
            · rw [evAt_concat]
              rfl
            · rw [evAt_concat, evAt_append _ _ _ hjl]
              exact hsl.symm
          · left
            rw [evAt_append _ _ _ hjl]
            exact hmem'
        · right
          have hm1 := (matchedBefore_append tr [AllocEv.alloc s n false] j tr.length hjl
            (le_refl _)).mp hmat
          have hm2 := matchedBefore_mono _ _ _ (tr.length + 1) hm1 (by omega)
          simp only [List.length_append, List.length_cons, List.length_nil, Nat.zero_add]
          exact hm2
      · have hje : j = tr.length := by omega
        subst hje
        rw [evAt_concat] at hjf
        simp [AllocEv.isFree] at hjf
    · rw [List.map_cons, List.nodup_cons] at t5
      exact t5.2
    · intro e he
      exact t6 e (List.mem_cons_of_mem _ he)
    · refine reuseLIFO_snoc tr _ t7 ?_
      intro _
      refine ⟨pos, hpos', ⟨?_, ?_, ?_⟩, ?_, ?_⟩
      · rw [evAt_append _ _ _ hpos']
        exact hfree'
      · rw [evAt_append _ _ _ hpos', evAt_concat]
        exact hslot'
      · intro q hq hpq
        rw [evAt_concat]
        intro hcon
        rw [evAt_append _ _ _ hq] at hcon
        exact hnor' q hpq hq hcon
      · rw [evAt_append _ _ _ hpos', evAt_concat]
        have := t1 pos hpos'
        show (evAt tr pos).instr ≤ n
        omega
      · intro j' hj' hpj' hjf'
        rw [evAt_append _ _ _ (by omega : j' < tr.length)] at hjf'
        rcases t4 j' hj' hjf' with hmem | hmat
        · rcases List.mem_cons.mp hmem with heq | hmem'
          · have : j' = pos := congrArg Prod.snd heq
            omega
          · have hlt2 : j' < pos := (List.pairwise_cons.mp t3).1 _ hmem'
            omega
        · exact (matchedBefore_append tr [AllocEv.alloc s n false] j' tr.length
            (by omega) (le_refl _)).mp hmat
    · refine freshOnly_snoc tr _ t8 ?_
      intro habs
      exact absurd habs (by simp [AllocEv.isFresh])
  · refine ⟨?_, ?_, ?_⟩
    · intro j hj hjo
      by_cases hje : j = n
      · subst hje
        rw [getD_set_self_gen _ _ _ _ hpl]
        exact hslt
      · rw [getD_set_ne_gen _ _ _ _ _ hje]
        exact hlv.1 j (by omega) hjo
    · intro j1 j2 h1 h2 h3 h4 h5 h6 h7
      by_cases hj1 : j1 = n
      · by_cases hj2 : j2 = n
        · rw [hj1, hj2]
        · subst hj1
          rw [getD_set_self_gen _ _ _ _ hpl, getD_set_ne_gen _ _ _ _ _ hj2] at h7
          exact absurd h7.symm
            (hlv.2.2 (s, pos) (List.mem_cons_self _ _) j2 (by omega) h5 h6)
      · by_cases hj2 : j2 = n
        · subst hj2
          rw [getD_set_ne_gen _ _ _ _ _ hj1, getD_set_self_gen _ _ _ _ hpl] at h7
          exact absurd h7
            (hlv.2.2 (s, pos) (List.mem_cons_self _ _) j1 (by omega) h2 h3)
        · rw [getD_set_ne_gen _ _ _ _ _ hj1, getD_set_ne_gen _ _ _ _ _ hj2] at h7
          exact hlv.2.1 j1 j2 (by omega) h2 h3 (by omega) h5 h6 h7
    · intro e he j hj hjo hjl
      by_cases hje : j = n
      · subst hje
        rw [getD_set_self_gen _ _ _ _ hpl]
        exact fun hh => hene e he (hh.symm)
      · rw [getD_set_ne_gen _ _ _ _ _ hje]
        exact hlv.2.2 e (List.mem_cons_of_mem _ he) j (by omega) hjo hjl

theorem alloc_fresh_inv (alg : List AlgEl) (n : Nat)
    (place : List Nat) (wsz : Nat) (rc2 : List Int) (tr : List AllocEv)
    (hpl : n < place.length)
    (hts : TraceStackInv (n + 1) wsz tr [])
    (hlv : LiveInv alg n rc2 place wsz []) :
    TraceStackInv (n + 1) (wsz + 1) (tr ++ [AllocEv.alloc wsz n true]) [] ∧
    LiveInv alg (n + 1) rc2 (place.set n wsz) (wsz + 1) [] := by
  obtain ⟨t1, t2, t3, t4, t5, t6, t7, t8⟩ := hts
  constructor
  · refine ⟨?_, ?_, ?_, ?_, ?_, ?_, ?_, ?_⟩
    · intro q hq
      simp only [List.length_append, List.length_cons, List.length_nil] at hq
      by_cases hql : q < tr.length
      · rw [evAt_append _ _ _ hql]
        exact t1 q hql
      · have hqe : q = tr.length := by omega
        subst hqe
        rw [evAt_concat]
        exact Nat.lt_succ_self n
    · intro e he
      exact absurd he (List.not_mem_nil e)
    · exact List.Pairwise.nil
    · intro j hj hjf
      simp only [List.length_append, List.length_cons, List.length_nil] at hj
      by_cases hjl : j < tr.length
      · rw [evAt_append _ _ _ hjl] at hjf
        rcases t4 j hjl hjf with hmem | hmat
        · exact absurd hmem (List.not_mem_nil _)
        · right
          have hm1 := (matchedBefore_append tr [AllocEv.alloc wsz n true] j tr.length hjl
            (le_refl _)).mp hmat
          have hm2 := matchedBefore_mono _ _ _ (tr.length + 1) hm1 (by omega)
          simp only [List.length_append, List.length_cons, List.length_nil, Nat.zero_add]
          exact hm2
      · have hje : j = tr.length := by omega
        subst hje
        rw [evAt_concat] at hjf
        simp [AllocEv.isFree] at hjf
    · simp
    · intro e he
      exact absurd he (List.not_mem_nil e)
    · refine reuseLIFO_snoc tr _ t7 ?_
      intro habs
      exact absurd habs (by simp [AllocEv.isReuse])
    · refine freshOnly_snoc tr _ t8 ?_
      intro _ j hjl hjf
      rcases t4 j hjl hjf with hmem | hmat
      · exact absurd hmem (List.not_mem_nil _)
      · exact (matchedBefore_append tr [AllocEv.alloc wsz n true] j tr.length hjl
          (le_refl _)).mp hmat
  · refine ⟨?_, ?_, ?_⟩
    · intro j hj hjo
      by_cases hje : j = n
      · subst hje
        rw [getD_set_self_gen _ _ _ _ hpl]
        omega
      · rw [getD_set_ne_gen _ _ _ _ _ hje]
        have := hlv.1 j (by omega) hjo
        omega
    · intro j1 j2 h1 h2 h3 h4 h5 h6 h7
      by_cases hj1 : j1 = n
      · by_cases hj2 : j2 = n
        · rw [hj1, hj2]
        · subst hj1
          rw [getD_set_self_gen _ _ _ _ hpl, getD_set_ne_gen _ _ _ _ _ hj2] at h7
          have := hlv.1 j2 (by omega) h5
          omega
      · by_cases hj2 : j2 = n
        · subst hj2
          rw [getD_set_ne_gen _ _ _ _ _ hj1, getD_set_self_gen _ _ _ _ hpl] at h7
          have := hlv.1 j1 (by omega) h2
          omega
        · rw [getD_set_ne_gen _ _ _ _ _ hj1, getD_set_ne_gen _ _ _ _ _ hj2] at h7
          exact hlv.2.1 j1 j2 (by omega) h2 h3 (by omega) h5 h6 h7
    · intro e he
      exact absurd he (List.not_mem_nil e)

theorem allocSteps_live_inv (alg : List AlgEl) (st0 : AllocSt)
    (h0 : st0.alg = []) (h0t : st0.trace = []) (h0u : st0.unused = [])
    (hpl : st0.place.length = alg.length)
    (h0rc : ∀ j, st0.refcount.getD j 0 = (usesFrom alg j 0 : Int))
    (h0rl : st0.refcount.length = alg.length)
    (hres : ∀ k, k < alg.length → (instrAt alg k).op ≠ .output → (instrAt alg k).res = k)
    (htv : TopoValid alg) :
    ∀ n, n ≤ alg.length → AllocInvLive alg n (allocSteps true alg st0 n) := by
  intro n
  induction n with
  | zero =>
      intro _
      refine ⟨?_, ?_, h0rc, h0rl⟩
      · rw [show (allocSteps true alg st0 0).trace = st0.trace from rfl,
          show (allocSteps true alg st0 0).unused = st0.unused from rfl, h0t, h0u]
        refine ⟨?_, ?_, List.Pairwise.nil, ?_, by simp, ?_, ?_, ?_⟩
        · intro q hq
          exact absurd hq (by simp)
        · intro e he
          exact absurd he (List.not_mem_nil e)
        · intro j hj
          exact absurd hj (by simp)
        · intro e he
          exact absurd he (List.not_mem_nil e)
        · intro i hi
          exact absurd hi (by simp)
        · intro i hi
          exact absurd hi (by simp)
      · refine ⟨?_, ?_, ?_⟩
        · intro j hj
          exact absurd hj (Nat.not_lt_zero j)
        · intro j1 j2 h1
          exact absurd h1 (Nat.not_lt_zero j1)
        · intro e he
          rw [show (allocSteps true alg st0 0).unused = st0.unused from rfl, h0u] at he
          exact absurd he (List.not_mem_nil e)
  | succ n ih =>
      intro hn1
      have hn : n < alg.length := by omega
      obtain ⟨ihts, ihlive, ihrc, ihrl⟩ := ih (by omega)
      obtain ⟨_, ihpl, _, _, _⟩ := allocSteps_topo true alg st0 h0 hpl hres htv n (by omega)
      rw [allocSteps_succ, if_pos hn]
      have hargs : ∀ c, c < (instrAt alg n).op.ndeps →
          (instrAt alg n).argSlot c < n ∧
            (instrAt alg ((instrAt alg n).argSlot c)).op ≠ .output := by
        intro c hc
        obtain ⟨j, hj1, hj2, hj3⟩ := htv n hn c hc
        have hsl : (instrAt alg n).argSlot c = j := by
          rw [← hj3, hres j (by omega) hj2]
        rw [hsl]
        exact ⟨hj1, hj2⟩
      have hrcinit : ∀ j, (allocSteps true alg st0 n).refcount.getD j 0 =
          (usesFrom alg j (n + 1) : Int) +
            pendUses (instrAt alg n) ((List.range (instrAt alg n).op.ndeps).reverse) j := by
        intro j
        rw [ihrc j, usesFrom_succ alg j n hn, pendUses_range_reverse]
        push_cast
        ring
      have hmemcs : ∀ c ∈ (List.range (instrAt alg n).op.ndeps).reverse,
          c < (instrAt alg n).op.ndeps := by
        intro c hc
        exact List.mem_range.mp (List.mem_reverse.mp hc)
      obtain ⟨hcr, hcl, hcts, hclive⟩ := consume_fold_spec alg n
        (allocSteps true alg st0 n).place (allocSteps true alg st0 n).worksize hn hargs
        ((List.range (instrAt alg n).op.ndeps).reverse)
        (allocSteps true alg st0 n).refcount (allocSteps true alg st0 n).unused
        (allocSteps true alg st0 n).trace hmemcs hrcinit ihrl
        (traceStackInv_mono_bound n (n + 1) _ _ _ (by omega) ihts) ihlive
      by_cases hout : (instrAt alg n).op = .output
      · obtain ⟨hsr, hsp, hsu, hsw, hst⟩ := allocStep_output_state true
          (allocSteps true alg st0 n) n (instrAt alg n) hout
        refine ⟨?_, ?_, ?_, ?_⟩
        · rw [hst, hsu, hsw]
          exact hcts
        · rw [hsr, hsp, hsu, hsw]
          exact liveInv_succ_output alg n _ _ _ _ hout hclive
        · intro j
          rw [hsr]
          exact hcr j
        · rw [hsr]
          exact hcl
      · have hresn : (instrAt alg n).res = n := hres n hn hout
        rcases hu : ((List.range (instrAt alg n).op.ndeps).reverse.foldl
            (consumeOne (allocSteps true alg st0 n).place n (instrAt alg n))
            ((allocSteps true alg st0 n).refcount, (allocSteps true alg st0 n).unused,
              (allocSteps true alg st0 n).trace)).2.1 with _ | ⟨⟨s, pos⟩, rest⟩
        · obtain ⟨hsr, hsp, hsu, hsw, hst⟩ := allocStep_fresh_state
            (allocSteps true alg st0 n) n (instrAt alg n) hout hu
          rw [hu] at hcts hclive
          obtain ⟨hts', hlv'⟩ := alloc_fresh_inv alg n (allocSteps true alg st0 n).place
            (allocSteps true alg st0 n).worksize _ _ (by omega) hcts hclive
          refine ⟨?_, ?_, ?_, ?_⟩
          · rw [hst, hsu, hsw]
            exact hts'
          · rw [hsr, hsp, hsu, hsw, hresn]
            exact hlv'
          · intro j
            rw [hsr]
            exact hcr j
          · rw [hsr]
            exact hcl
        · obtain ⟨hsr, hsp, hsu, hsw, hst⟩ := allocStep_reuse_state
            (allocSteps true alg st0 n) n (instrAt alg n) hout s pos rest hu
          rw [hu] at hcts hclive
          obtain ⟨hts', hlv'⟩ := alloc_reuse_inv alg n (allocSteps true alg st0 n).place
            (allocSteps true alg st0 n).worksize _ _ s pos rest (by omega) hcts hclive
          refine ⟨?_, ?_, ?_, ?_⟩
          · rw [hst, hsu, hsw]
            exact hts'
          · rw [hsr, hsp, hsu, hsw, hresn]
            exact hlv'
          · intro j
            rw [hsr]
            exact hcr j
          · rw [hsr]
            exact hcl

theorem consume_fold_trace_frees (place : List Nat) (k : Nat) (el : AlgEl) :
    ∀ (cs : List Nat) (rc : List Int) (unused : List (Nat × Nat)) (trace : List AllocEv),
      ∃ ext : List AllocEv,
        (cs.foldl (consumeOne place k el) (rc, unused, trace)).2.2 = trace ++ ext ∧
        ∀ e ∈ ext, e.isFree = true := by
  intro cs
  induction cs with
  | nil =>
      intro rc unused trace
      exact ⟨[], (List.append_nil trace).symm, fun e he => absurd he (List.not_mem_nil e)⟩
  | cons c cs ih =>
      intro rc unused trace
      rw [List.foldl_cons]
      rcases consumeOne_cases place k el rc unused trace c with ⟨heq, _⟩ | ⟨heq, _⟩
      · rw [heq]
        obtain ⟨ext, hext, hfr⟩ := ih (rc.set (el.argSlot c) (rc.getD (el.argSlot c) 0 - 1))
          ((place.getD (el.argSlot c) 0, trace.length) :: unused)
          (trace ++ [AllocEv.free (place.getD (el.argSlot c) 0) k])
        refine ⟨[AllocEv.free (place.getD (el.argSlot c) 0) k] ++ ext, ?_, ?_⟩
        · rw [hext, List.append_assoc]
        · intro e he
          rcases List.mem_append.mp he with h1 | h2
          · rw [List.mem_singleton.mp h1]
            rfl
          · exact hfr e h2
      · rw [heq]
        exact ih (rc.set (el.argSlot c) (rc.getD (el.argSlot c) 0 - 1)) unused trace

theorem noReuse_append_frees (tr ext : List AllocEv) (h : NoReuseEver tr)
    (hext : ∀ e ∈ ext, e.isFree = true) : NoReuseEver (tr ++ ext) := by
  intro i hi
  by_cases hil : i < tr.length
  · rw [evAt_append _ _ _ hil]
    exact h i hil
  · rw [List.length_append] at hi
    have hlt : i - tr.length < ext.length := by omega
    have hev : evAt (tr ++ ext) i = ext.getD (i - tr.length) (.free 0 0) := by
      unfold evAt
      exact getD_append_right_gen tr ext i _ (by omega)
    rw [hev]
    have hmem : ext.getD (i - tr.length) (.free 0 0) ∈ ext := by
      rw [List.getD_eq_getElem _ _ hlt]
      exact List.getElem_mem hlt
    exact evFree_not_reuse _ (hext _ hmem)

theorem freshSeq_append_frees (tr ext : List AllocEv) (h : FreshSeq tr)
    (hext : ∀ e ∈ ext, e.isFree = true) : FreshSeq (tr ++ ext) := by
  intro i hi halloc
  by_cases hil : i < tr.length
  · rw [evAt_append _ _ _ hil] at halloc ⊢
    rw [List.take_append_of_le_length (le_of_lt hil)]
    exact h i hil halloc
  · exfalso
    rw [List.length_append] at hi
    have hlt : i - tr.length < ext.length := by omega
    have hev : evAt (tr ++ ext) i = ext.getD (i - tr.length) (.free 0 0) := by
      unfold evAt
      exact getD_append_right_gen tr ext i _ (by omega)
    rw [hev] at halloc
    have hmem : ext.getD (i - tr.length) (.free 0 0) ∈ ext := by
      rw [List.getD_eq_getElem _ _ hlt]
      exact List.getElem_mem hlt
    rw [evFree_not_alloc _ (hext _ hmem)] at halloc
    exact Bool.noConfusion halloc

theorem allocCount_append_frees (tr ext : List AllocEv)
    (hext : ∀ e ∈ ext, e.isFree = true) :
    ((tr ++ ext).filter AllocEv.isAlloc).length = (tr.filter AllocEv.isAlloc).length := by
  have hnil : ext.filter AllocEv.isAlloc = [] := by
    rw [List.filter_eq_nil_iff]
    intro a ha
    simp [evFree_not_alloc a (hext a ha)]
  rw [List.filter_append, hnil, List.append_nil]

theorem freshSeq_snoc_alloc (tr : List AllocEv) (w k : Nat) (f : Bool)
    (h : FreshSeq tr) (hw : w = (tr.filter AllocEv.isAlloc).length) :
    FreshSeq (tr ++ [AllocEv.alloc w k f]) := by
  intro i hi halloc
  simp only [List.length_append, List.length_cons, List.length_nil] at hi
  by_cases hil : i < tr.length
  · rw [evAt_append _ _ _ hil] at halloc ⊢
    rw [List.take_append_of_le_length (le_of_lt hil)]
    exact h i hil halloc
  · have hie : i = tr.length := by omega
    subst hie
    rw [evAt_concat]
    show w = (((tr ++ [AllocEv.alloc w k f]).take tr.length).filter AllocEv.isAlloc).length
    rw [List.take_left]
    exact hw

theorem noReuse_snoc_alloc_true (tr : List AllocEv) (w k : Nat)
    (h : NoReuseEver tr) : NoReuseEver (tr ++ [AllocEv.alloc w k true]) := by
  intro i hi
  simp only [List.length_append, List.length_cons, List.length_nil] at hi
  by_cases hil : i < tr.length
  · rw [evAt_append _ _ _ hil]
    exact h i hil
  · have hie : i = tr.length := by omega
    subst hie
    rw [evAt_concat]
    rfl

theorem allocSteps_false_inv (alg : List AlgEl) (st0 : AllocSt)
    (h0t : st0.trace = []) (h0w : st0.worksize = 0) :
    ∀ n, NoReuseEver (allocSteps false alg st0 n).trace ∧
      FreshSeq (allocSteps false alg st0 n).trace ∧
      (allocSteps false alg st0 n).worksize =
        (((allocSteps false alg st0 n).trace).filter AllocEv.isAlloc).length := by
  intro n
  induction n with
  | zero =>
      refine ⟨?_, ?_, ?_⟩
      · show NoReuseEver st0.trace
        rw [h0t]
        intro i hi
        exact absurd hi (by simp)
      · show FreshSeq st0.trace
        rw [h0t]
        intro i hi
        exact absurd hi (by simp)
      · show st0.worksize = ((st0.trace).filter AllocEv.isAlloc).length
        rw [h0t, h0w]
        rfl
  | succ n ih =>
      by_cases hn : n < alg.length
      · rw [allocSteps_succ, if_pos hn]
        obtain ⟨ihn, ihf, ihw⟩ := ih
        obtain ⟨ext, hext, hfr⟩ := consume_fold_trace_frees
          (allocSteps false alg st0 n).place n (instrAt alg n)
          ((List.range (instrAt alg n).op.ndeps).reverse)
          (allocSteps false alg st0 n).refcount (allocSteps false alg st0 n).unused
          (allocSteps false alg st0 n).trace
        by_cases hout : (instrAt alg n).op = .output
        · obtain ⟨_, _, _, hsw, hst⟩ := allocStep_output_state false
            (allocSteps false alg st0 n) n (instrAt alg n) hout
          refine ⟨?_, ?_, ?_⟩
          · rw [hst, hext]
            exact noReuse_append_frees _ _ ihn hfr
          · rw [hst, hext]
            exact freshSeq_append_frees _ _ ihf hfr
          · rw [hsw, hst, hext, allocCount_append_frees _ _ hfr]
            exact ihw
        · obtain ⟨_, _, _, hsw, hst⟩ := allocStep_false_state
            (allocSteps false alg st0 n) n (instrAt alg n) hout
          have hw2 : (allocSteps false alg st0 n).worksize =
              (((allocSteps false alg st0 n).trace ++ ext).filter AllocEv.isAlloc).length := by
            rw [allocCount_append_frees _ _ hfr]
            exact ihw
          refine ⟨?_, ?_, ?_⟩
          · rw [hst, hext]
            exact noReuse_snoc_alloc_true _ _ _ (noReuse_append_frees _ _ ihn hfr)
          · rw [hst, hext]
            exact freshSeq_snoc_alloc _ _ _ _ (freshSeq_append_frees _ _ ihf hfr) hw2
          · rw [hsw, hst, hext]
            rw [List.filter_append ((allocSteps false alg st0 n).trace ++ ext),
              List.length_append]
            have hone : ([AllocEv.alloc (allocSteps false alg st0 n).worksize n
                true].filter AllocEv.isAlloc).length = 1 := rfl
            rw [hone, hw2]
      · rw [allocSteps_succ, if_neg hn]
        exact ih

/-- **C7.**  During slot allocation in `SXFunctionInternal::init`, each operand
consumption decrements the operand's reference count and a slot whose count
reaches zero is pushed on the free stack; with live variables enabled the
ghost allocation trace satisfies the last-freed-first-reused stack
discipline — every reusing allocation takes the pending free whose more
recent frees have all been reallocated, coming from an instruction no later
than the reuser (the freeing instruction may be the reuser itself: in-place
reuse), and a fresh slot is taken only when no free is pending — and with
live variables disabled no reuse ever occurs and every allocation takes the
next slot from the counter.  The spec's stronger reading that freed slots
are reused by strictly later instructions only is refuted by
`c7_counterexample`. -/
theorem c7_slot_reuse_discipline (pool : List PNode) (inputv outputv : List (List Nat))
    (hwf : PoolWF pool) (hin : InputsWF pool inputv) (hout : OutputsWF pool outputv) :
    (ReuseLIFO (sxInit pool inputv outputv true).trace ∧
      FreshOnlyWhenEmpty (sxInit pool inputv outputv true).trace) ∧
    (NoReuseEver (sxInit pool inputv outputv false).trace ∧
      FreshSeq (sxInit pool inputv outputv false).trace) := by
  obtain ⟨hnd, hdb, hel, hsep, hcnt⟩ := buildNodes_wf pool inputv outputv hwf hin hout
  have htot : noneCount (buildNodes pool inputv outputv).2 = (outPosAll outputv).length := by
    rw [hcnt, outPosAll_length]
  obtain ⟨hplen, htv, hres⟩ := preAlg_spec pool (buildNodes pool inputv outputv).2 outputv
    hwf hnd hdb hel hsep htot
  have hres' : ∀ k,
      k < (buildAlg pool (buildNodes pool inputv outputv).2 outputv).alg.length →
      (instrAt (buildAlg pool (buildNodes pool inputv outputv).2 outputv).alg k).op ≠
        .output →
      (instrAt (buildAlg pool (buildNodes pool inputv outputv).2 outputv).alg k).res = k := by
    intro k hk
    rw [hplen] at hk
    exact hres k hk
  have harg : ∀ k,
      k < (buildAlg pool (buildNodes pool inputv outputv).2 outputv).alg.length →
      ∀ c, c < (instrAt (buildAlg pool (buildNodes pool inputv outputv).2 outputv).alg
        k).op.ndeps →
      (instrAt (buildAlg pool (buildNodes pool inputv outputv).2 outputv).alg k).argSlot c <
        (List.replicate (buildNodes pool inputv outputv).2.length (0 : Int)).length := by
    intro k hk c hc
    obtain ⟨j, hj1, hj2, hj3⟩ := htv k hk c hc
    rw [← hj3, hres' j (by omega) hj2, List.length_replicate, ← hplen]
    omega
  have hrcfold : (buildAlg pool (buildNodes pool inputv outputv).2 outputv).refcount =
      (buildAlg pool (buildNodes pool inputv outputv).2 outputv).alg.foldl
        (fun rc ae => bumpRefs rc ae)
        (List.replicate (buildNodes pool inputv outputv).2.length 0) :=
    buildAlg_rc_foldl pool (buildNodes pool inputv outputv).2 outputv
      (buildNodes pool inputv outputv).2 [] (List.append_nil _).symm
  have h0rc : ∀ j,
      (buildAlg pool (buildNodes pool inputv outputv).2 outputv).refcount.getD j 0 =
      (usesFrom (buildAlg pool (buildNodes pool inputv outputv).2 outputv).alg j 0 :
        Int) := by
    intro j
    rw [hrcfold,
      (rcFold_getD j (buildAlg pool (buildNodes pool inputv outputv).2 outputv).alg
        (List.replicate (buildNodes pool inputv outputv).2.length 0) harg).1,
      getD_replicate_gen]
    ring
  have h0rl : (buildAlg pool (buildNodes pool inputv outputv).2 outputv).refcount.length =
      (buildAlg pool (buildNodes pool inputv outputv).2 outputv).alg.length := by
    rw [hrcfold,
      (rcFold_getD 0 (buildAlg pool (buildNodes pool inputv outputv).2 outputv).alg
        (List.replicate (buildNodes pool inputv outputv).2.length 0) harg).2,
      List.length_replicate, hplen]
  constructor
  · have htr : (sxInit pool inputv outputv true).trace =
        (allocSteps true (buildAlg pool (buildNodes pool inputv outputv).2 outputv).alg
          { alg := [],
            refcount := (buildAlg pool (buildNodes pool inputv outputv).2 outputv).refcount,
            place := List.replicate (buildNodes pool inputv outputv).2.length 0,
            unused := [], worksize := 0, trace := [] }
          (buildAlg pool (buildNodes pool inputv outputv).2 outputv).alg.length).trace := rfl
    obtain ⟨hts, _, _, _⟩ := allocSteps_live_inv
      (buildAlg pool (buildNodes pool inputv outputv).2 outputv).alg
      { alg := [],
        refcount := (buildAlg pool (buildNodes pool inputv outputv).2 outputv).refcount,
        place := List.replicate (buildNodes pool inputv outputv).2.length 0,
        unused := [], worksize := 0, trace := [] }
      rfl rfl rfl (by rw [List.length_replicate, hplen]) h0rc h0rl hres' htv
      (buildAlg pool (buildNodes pool inputv outputv).2 outputv).alg.length (le_refl _)
    rw [htr]
    exact ⟨hts.2.2.2.2.2.2.1, hts.2.2.2.2.2.2.2⟩
  · have htr : (sxInit pool inputv outputv false).trace =
        (allocSteps false (buildAlg pool (buildNodes pool inputv outputv).2 outputv).alg
          { alg := [],
            refcount := (buildAlg pool (buildNodes pool inputv outputv).2 outputv).refcount,
            place := List.replicate (buildNodes pool inputv outputv).2.length 0,
            unused := [], worksize := 0, trace := [] }
          (buildAlg pool (buildNodes pool inputv outputv).2 outputv).alg.length).trace := rfl
    have hinv := allocSteps_false_inv
      (buildAlg pool (buildNodes pool inputv outputv).2 outputv).alg
      { alg := [],
        refcount := (buildAlg pool (buildNodes pool inputv outputv).2 outputv).refcount,
        place := List.replicate (buildNodes pool inputv outputv).2.length 0,
        unused := [], worksize := 0, trace := [] }
      rfl rfl
      (buildAlg pool (buildNodes pool inputv outputv).2 outputv).alg.length
    rw [htr]
    exact ⟨hinv.1, hinv.2.1⟩

theorem c7_slot_reuse_discipline_witness :
    (PoolWF poolSin ∧ InputsWF poolSin [[0]] ∧ OutputsWF poolSin [[1]]) ∧
      ((ReuseLIFO (sxInit poolSin [[0]] [[1]] true).trace ∧
        FreshOnlyWhenEmpty (sxInit poolSin [[0]] [[1]] true).trace) ∧
      (NoReuseEver (sxInit poolSin [[0]] [[1]] false).trace ∧
        FreshSeq (sxInit poolSin [[0]] [[1]] false).trace)) :=
  ⟨⟨by decide, by decide, by decide⟩,
    c7_slot_reuse_discipline poolSin [[0]] [[1]] (by decide) (by decide) (by decide)⟩

/-- The trace of `sin(x)` with live variables: the `sin` instruction itself
frees its operand's slot (the last use) and immediately reuses it for its
own result, so the freed slot is *not* reused by a strictly later
instruction only, refuting the spec's stronger reading. -/
theorem c7_counterexample :
    ¬ ReuseStrictlyLater (sxInit poolSin [[0]] [[1]] true).trace := by decide

end Casadi
